import Mathlib

/-!
# clox: hash table (`src/types/table.c`) and memory manager (`src/memory.c`)

A shallow embedding of the open-addressed string-keyed hash table and of the
mark-sweep collector of the clox virtual machine, followed by the properties
proved about them.

Conventions of the embedding.

* A non-null pointer is a natural number (its address); a nullable pointer is
  an `Option Ptr`.  An `Entry*` into an entries array is the index of the slot.
* C `int` fields (`count`, `capacity`, `length`) are natural numbers; the
  table code never lets them go negative and signed overflow is undefined
  behaviour in C, so no wrap-around is modelled for them.  `size_t` counters
  of the allocator wrap modulo `2 ^ 64` explicitly.
* A function returns `none` when the C code would read outside an array, use
  a dangling pointer, call `exit`, or when a loop has not come to an end within
  the stated number of iterations.
-/

namespace Clox

/-! ## Data model -/

/-- Address of a heap block (a non-null pointer). -/
abbrev Ptr := Nat

/-- The tagged union `Value` (`types/value.h`): the payload of a number is
kept as its bit pattern, the payload of an object is its address. -/
inductive Value where
  | nil
  | bool (b : Bool)
  | number (bits : Nat)
  | obj (ptr : Ptr)
deriving DecidableEq, Inhabited

/-- The test `IS_NIL(value)`. -/
def IS_NIL : Value → Bool
  | Value.nil => true
  | _ => false

/-- The test `IS_OBJ(value)` together with `AS_OBJ(value)`. -/
def AS_OBJ : Value → Option Ptr
  | Value.obj p => some p
  | _ => none

/-- The fields of an `ObjString` the table code reads: the mark bit of its
header, `length`, `chars` and `hash`. -/
structure ObjString where
  isMarked : Bool
  length : Nat
  chars : List Nat
  hash : Nat
deriving DecidableEq, Inhabited

/-- The memory as the table code sees it: the string an `ObjString*` points
to.  Keys are compared by address, their fields are read through this map. -/
abbrev StringMem := Ptr → ObjString

/-- One slot of a table: `typedef struct { ObjString* key; Value value; } Entry`. -/
structure Entry where
  key : Option Ptr
  value : Value
deriving DecidableEq, Inhabited

/-- The struct `Table`: `count`, `capacity` and the `entries` array. -/
structure Table where
  count : Nat
  capacity : Nat
  entries : List Entry
deriving DecidableEq, Inhabited

/-- A counted loop `for (int i = 0; i < n; i++) body`, the body working on a
state and possibly failing. -/
def forLoop {σ : Type} (body : Nat → σ → Option σ) : Nat → σ → Option σ
  | 0, s => some s
  | n + 1, s =>
    match forLoop body n s with
    | none => none
    | some s1 => body n s1

/-! ## The hash table, `src/types/table.c` -/

/-- Modelled from the spec: the macro `GROW_CAPACITY` of `memory.h`, which is
not among the sources; the spec gives the growth rule as "growth doubles
capacity, starts at 8". -/
def GROW_CAPACITY (capacity : Nat) : Nat :=
  if capacity < 8 then 8 else capacity * 2

/-- The function `initTable`. -/
def initTable : Table :=
  { count := 0, capacity := 0, entries := [] }

/-- The `for (;;)` loop of `findEntry`: `index` is the slot probed next,
`tombstone` the first tombstone passed so far, and the first argument bounds
the number of probes. -/
def findEntryLoop (entries : List Entry) (capacity : Nat) (key : Ptr) :
    Nat → Nat → Option Nat → Option Nat
  | 0, _, _ => none
  | fuel + 1, index, tombstone =>
    match entries[index]? with
    | none => none
    | some entry =>
      match entry.key with
      | none =>
        if IS_NIL entry.value then
          some (match tombstone with
            | some t => t
            | none => index)
        else
          findEntryLoop entries capacity key fuel ((index + 1) &&& (capacity - 1))
            (match tombstone with
              | some t => some t
              | none => some index)
      | some k =>
        if k = key then some index
        else findEntryLoop entries capacity key fuel ((index + 1) &&& (capacity - 1)) tombstone

/-- The function `findEntry`: the slot it returns, as an index.  The loop is
given `capacity` probes: the probe sequence only takes values below
`capacity`, so a loop that has not returned by then never returns. -/
def findEntry (mem : StringMem) (entries : List Entry) (capacity : Nat) (key : Ptr) :
    Option Nat :=
  findEntryLoop entries capacity key capacity ((mem key).hash &&& (capacity - 1)) none

/-- The function `tableGet`: `some none` when it returns false, `some (some v)`
when it returns true with `*value = v`. -/
def tableGet (mem : StringMem) (table : Table) (key : Ptr) : Option (Option Value) :=
  if table.count = 0 then some none
  else
    match findEntry mem table.entries table.capacity key with
    | none => none
    | some i =>
      match table.entries[i]? with
      | none => none
      | some entry =>
        match entry.key with
        | none => some none
        | some _ => some (some entry.value)

/-- The two loops of `adjustCapacity`, between its `ALLOCATE` and its
`FREE_ARRAY`: the new array is filled with `capacity` empty slots, `count` is
reset, and every occupied slot of the old array is inserted again with
`findEntry`.  The result is the new array with the new count.  The whole
function, with the allocation that may start a collection, is `adjustCapacity`
below. -/
def adjustCapacityLoops (mem : StringMem) (table : Table) (capacity : Nat) : Option Table :=
  match forLoop (fun i (st : List Entry × Nat) =>
      match table.entries[i]? with
      | none => none
      | some entry =>
        match entry.key with
        | none => some st
        | some k =>
          match findEntry mem st.1 capacity k with
          | none => none
          | some dest => some (st.1.set dest { key := some k, value := entry.value }, st.2 + 1))
      table.capacity (List.replicate capacity { key := none, value := Value.nil }, 0) with
  | none => none
  | some (entries, count) => some { count := count, capacity := capacity, entries := entries }

/-- The function `tablePut`, with the flag it returns.  The test
`count + 1 > capacity * TABLE_MAX_LOAD` compares in `double`; with
`TABLE_MAX_LOAD = 0.75` both sides are exact, so it is
`4 * (count + 1) > 3 * capacity`.  When the table grows, the new array comes
from the loops of `adjustCapacity`; the allocation of that array, which can
start a collection and with it the weak pass over the intern table, is part of
`adjustCapacity` below, not of this function on a table value. -/
def tablePut (mem : StringMem) (table : Table) (key : Ptr) (value : Value) :
    Option (Table × Bool) :=
  match (if 4 * (table.count + 1) > 3 * table.capacity then
      adjustCapacityLoops mem table (GROW_CAPACITY table.capacity) else some table) with
  | none => none
  | some t =>
    match findEntry mem t.entries t.capacity key with
    | none => none
    | some i =>
      match t.entries[i]? with
      | none => none
      | some entry =>
        let isNewKey := entry.key.isNone
        some ({ count := if isNewKey && IS_NIL entry.value then t.count + 1 else t.count,
                capacity := t.capacity,
                entries := t.entries.set i { key := some key, value := value } }, isNewKey)

/-- The function `tableDelete`, with the flag it returns. -/
def tableDelete (mem : StringMem) (table : Table) (key : Ptr) : Option (Table × Bool) :=
  if table.count = 0 then some (table, false)
  else
    match findEntry mem table.entries table.capacity key with
    | none => none
    | some i =>
      match table.entries[i]? with
      | none => none
      | some entry =>
        match entry.key with
        | none => some (table, false)
        | some _ =>
          some ({ table with
            entries := table.entries.set i { key := none, value := Value.bool true } }, true)

/-- The body of the loop of `tableAddAll` at index `i`. -/
def tableAddAllBody (mem : StringMem) (src : Table) (i : Nat) (dst : Table) : Option Table :=
  match src.entries[i]? with
  | none => none
  | some entry =>
    match entry.key with
    | some k => (tablePut mem dst k entry.value).map Prod.fst
    | none => some dst

/-- The function `tableAddAll` on two distinct tables; the result is the pair
of `from` (which the code only reads) and the updated `to`. -/
def tableAddAll (mem : StringMem) (src : Table) (dst : Table) : Option (Table × Table) :=
  match forLoop (tableAddAllBody mem src) src.capacity dst with
  | none => none
  | some t => some (src, t)

/-- The call `memcmp(a, b, n) == 0`: the first `n` bytes agree. -/
def memcmpEq (a b : List Nat) (n : Nat) : Bool :=
  a.take n == b.take n

/-- The `for (;;)` loop of `tableFindString`, bounded like that of `findEntry`. -/
def tableFindStringLoop (mem : StringMem) (table : Table) (chars : List Nat)
    (length hash : Nat) : Nat → Nat → Option (Option Ptr)
  | 0, _ => none
  | fuel + 1, index =>
    match table.entries[index]? with
    | none => none
    | some entry =>
      match entry.key with
      | none =>
        if IS_NIL entry.value then some none
        else tableFindStringLoop mem table chars length hash fuel
          ((index + 1) &&& (table.capacity - 1))
      | some k =>
        if (mem k).length = length ∧ (mem k).hash = hash
            ∧ memcmpEq (mem k).chars chars length = true then
          some (some k)
        else tableFindStringLoop mem table chars length hash fuel
          ((index + 1) &&& (table.capacity - 1))

/-- The function `tableFindString`: `some none` for `NULL`, `some (some k)`
for the key it returns. -/
def tableFindString (mem : StringMem) (table : Table) (chars : List Nat)
    (length hash : Nat) : Option (Option Ptr) :=
  if table.count = 0 then some none
  else tableFindStringLoop mem table chars length hash table.capacity
    (hash &&& (table.capacity - 1))

/-- The body of the loop of `tableRemoveWhite` at index `i`. -/
def tableRemoveWhiteBody (mem : StringMem) (i : Nat) (table : Table) : Option Table :=
  match table.entries[i]? with
  | none => none
  | some entry =>
    match entry.key with
    | some k =>
      if (mem k).isMarked = false then (tableDelete mem table k).map Prod.fst else some table
    | none => some table

/-- The function `tableRemoveWhite`. -/
def tableRemoveWhite (mem : StringMem) (table : Table) : Option Table :=
  forLoop (tableRemoveWhiteBody mem) table.capacity table

/-! ## Well-formed tables and the mapping a table stands for -/

/-- A slot that is not empty: it holds a key or is a tombstone. -/
def usedE (e : Entry) : Bool :=
  e.key.isSome || !IS_NIL e.value

/-- The key held by slot `i` of an entries array, if that slot is occupied. -/
def keyAt (entries : List Entry) (i : Nat) : Option Ptr :=
  match entries[i]? with
  | some e => e.key
  | none => none

/-- Slot `i` of an entries array exists and is not empty. -/
def slotUsed (entries : List Entry) (i : Nat) : Bool :=
  match entries[i]? with
  | some e => usedE e
  | none => false

/-- The slot at which the probe sequence of a key starts. -/
def home (mem : StringMem) (capacity : Nat) (k : Ptr) : Nat :=
  (mem k).hash &&& (capacity - 1)

/-- No key is stored in two slots. -/
def KeysDistinct (entries : List Entry) (capacity : Nat) : Prop :=
  ∀ i, i < capacity → ∀ j, j < capacity →
    ∀ k ∈ keyAt entries i, keyAt entries j = some k → i = j

/-- Every occupied key is stored on the probe chain of its own hash: no empty
slot lies between the home slot of the key and the slot that holds it. -/
def ChainOK (mem : StringMem) (entries : List Entry) (capacity : Nat) : Prop :=
  ∀ i, i < capacity → ∀ k ∈ keyAt entries i,
    ∀ n, n < (i + capacity - home mem capacity k) % capacity →
      slotUsed entries ((home mem capacity k + n) % capacity) = true

/-- The invariant of an entries array of the given capacity. -/
def EntriesInv (mem : StringMem) (entries : List Entry) (capacity : Nat) : Prop :=
  entries.length = capacity
  ∧ (∃ m, m < capacity ∧ capacity = 2 ^ m)
  ∧ entries.countP usedE < capacity
  ∧ KeysDistinct entries capacity
  ∧ ChainOK mem entries capacity

/-- The invariant of a table: either it is as `initTable` leaves it, or its
entries array has a power-of-two capacity, at least one empty slot, no key
twice and every key on its probe chain; `count` is the number of slots that
are not empty (occupied slots and tombstones). -/
def TableInv (mem : StringMem) (t : Table) : Prop :=
  t.count = t.entries.countP usedE
  ∧ ((t.capacity = 0 ∧ t.entries = []) ∨ EntriesInv mem t.entries t.capacity)

/-- A well-formed table: the invariant together with the load-factor bound
`count <= 0.75 * capacity`. -/
def WellFormed (mem : StringMem) (t : Table) : Prop :=
  TableInv mem t ∧ 4 * t.count ≤ 3 * t.capacity

instance (entries : List Entry) (capacity : Nat) : Decidable (KeysDistinct entries capacity) := by
  unfold KeysDistinct; infer_instance

instance (mem : StringMem) (entries : List Entry) (capacity : Nat) :
    Decidable (ChainOK mem entries capacity) := by
  unfold ChainOK; infer_instance

instance (mem : StringMem) (entries : List Entry) (capacity : Nat) :
    Decidable (EntriesInv mem entries capacity) := by
  unfold EntriesInv; infer_instance

instance (mem : StringMem) (t : Table) : Decidable (TableInv mem t) := by
  unfold TableInv; infer_instance

instance (mem : StringMem) (t : Table) : Decidable (WellFormed mem t) := by
  unfold WellFormed; infer_instance

/-- The value a table binds to a key: that of the slot holding the key. -/
def lookup (t : Table) (k : Ptr) : Option Value :=
  (t.entries.find? (fun e => e.key == some k)).map Entry.value

/-- An operation of a client on one table. -/
inductive TableOp where
  | put (key : Ptr) (value : Value)
  | delete (key : Ptr)
deriving DecidableEq

/-- One client operation applied to a table. -/
def applyOp (mem : StringMem) (t : Table) : TableOp → Option Table
  | TableOp.put k v => (tablePut mem t k v).map Prod.fst
  | TableOp.delete k => (tableDelete mem t k).map Prod.fst

/-- A sequence of client operations applied in order. -/
def runOps (mem : StringMem) : List TableOp → Table → Option Table
  | [], t => some t
  | op :: ops, t =>
    match applyOp mem t op with
    | none => none
    | some t1 => runOps mem ops t1

/-- The key an operation is about. -/
def TableOp.key : TableOp → Ptr
  | TableOp.put k _ => k
  | TableOp.delete k => k

/-- The most recent operation on key `k` in a sequence of operations. -/
def lastOpOn (k : Ptr) : List TableOp → Option TableOp
  | [] => none
  | op :: ops =>
    match lastOpOn k ops with
    | some o => some o
    | none => if op.key = k then some op else none

/-- The result the spec asks of `get(k)` after a sequence of `put` and
`delete` on a fresh table: the value of the most recent `put` of `k` if no
`delete` of `k` came after it, nothing if `k` was never put or its most recent
operation was a `delete`. -/
def specGet (ops : List TableOp) (k : Ptr) : Option Value :=
  match lastOpOn k ops with
  | some (TableOp.put _ v) => some v
  | _ => none

/-- The number of occupied slots of an entries array. -/
def occupied (entries : List Entry) : Nat :=
  entries.countP (fun e => e.key.isSome)

/-- The state of the copy loop of `adjustCapacity` after `i` slots of the old
array: the new array satisfies the invariant, has no tombstone, and holds
exactly the bindings of the old slots below `i`. -/
def AdjustInv (mem : StringMem) (old : List Entry) (capacity : Nat) (i : Nat)
    (st : List Entry × Nat) : Prop :=
  EntriesInv mem st.1 capacity
  ∧ st.1.countP usedE = st.2
  ∧ st.2 = occupied (old.take i)
  ∧ (∀ (j : Nat) (e : Entry), st.1[j]? = some e → e.key = none → e.value = Value.nil)
  ∧ (∀ (k : Ptr) (v : Value), (∃ j : Nat, st.1[j]? = some (Entry.mk (some k) v))
      ↔ ∃ j : Nat, j < i ∧ old[j]? = some (Entry.mk (some k) v))

/-- A slot whose key is an unmarked string. -/
def isWhite (mem : StringMem) (e : Entry) : Bool :=
  match e.key with
  | some k => !(mem k).isMarked
  | none => false

/-- What the weak pass makes of a slot: a tombstone when its key is unmarked,
the slot itself otherwise. -/
def sweptEntry (mem : StringMem) (e : Entry) : Entry :=
  if isWhite mem e then { key := none, value := Value.bool true } else e

/-- An operation of a client on one table, `tableAddAll` from another table
included. -/
inductive TableStep where
  | put (key : Ptr) (value : Value)
  | delete (key : Ptr)
  | addAll (src : Table)

/-- One client step applied to a table. -/
def applyStep (mem : StringMem) (t : Table) : TableStep → Option Table
  | TableStep.put k v => (tablePut mem t k v).map Prod.fst
  | TableStep.delete k => (tableDelete mem t k).map Prod.fst
  | TableStep.addAll src => (tableAddAll mem src t).map Prod.snd

/-- A sequence of client steps applied in order. -/
def runSteps (mem : StringMem) : List TableStep → Table → Option Table
  | [], t => some t
  | st :: sts, t =>
    match applyStep mem t st with
    | none => none
    | some t1 => runSteps mem sts t1

/-- The test of `tableFindString` on a key: same length, same hash, same bytes. -/
def StringMatches (mem : StringMem) (chars : List Nat) (length hash : Nat) (k : Ptr) : Prop :=
  (mem k).length = length ∧ (mem k).hash = hash ∧ memcmpEq (mem k).chars chars length = true

instance (mem : StringMem) (chars : List Nat) (length hash : Nat) (k : Ptr) :
    Decidable (StringMatches mem chars length hash k) := by
  unfold StringMatches; infer_instance

/-- A memory for examples: the string at address `p` is the one byte `p`, its
hash is `p`, and it is marked when `p` is even. -/
def exampleMem : StringMem :=
  fun p => { isMarked := p % 2 == 0, length := 1, chars := [p, 0], hash := p }

/-- A table for examples, as left by putting keys 1, 9 and 4 and deleting key 1:
slot 1 is a tombstone, key 9 sits in slot 2 behind it, key 4 in slot 4. -/
def exampleTable : Table :=
  { count := 3, capacity := 8,
    entries := [{ key := none, value := Value.nil }, { key := none, value := Value.bool true },
      { key := some 9, value := Value.number 7 }, { key := none, value := Value.nil },
      { key := some 4, value := Value.bool false }, { key := none, value := Value.nil },
      { key := none, value := Value.nil }, { key := none, value := Value.nil }] }

/-- A second table for examples: key 9 in slot 1 and key 5 in slot 5. -/
def exampleTarget : Table :=
  { count := 2, capacity := 8,
    entries := [{ key := none, value := Value.nil }, { key := some 9, value := Value.nil },
      { key := none, value := Value.nil }, { key := none, value := Value.nil },
      { key := none, value := Value.nil }, { key := some 5, value := Value.number 1 },
      { key := none, value := Value.nil }, { key := none, value := Value.nil }] }

/-! ## The memory manager, `src/memory.c` -/

/-- What the build fixes: whether `DEBUG_STRESS_GC` is defined, and the sizes
of the types whose declarations (`object.h`, `value.h`) are not among the
sources.  `sizeof(char)` and `sizeof(uint8_t)` are 1. -/
structure Config where
  debugStressGC : Bool
  sizeofInt : Nat
  sizeofValue : Nat
  sizeofEntry : Nat
  sizeofPointer : Nat
  sizeofObjString : Nat
  sizeofObjFunction : Nat
  sizeofObjNative : Nat
  sizeofObjClosure : Nat
  sizeofObjUpvalue : Nat
  sizeofObjClass : Nat
  sizeofObjInstance : Nat
  sizeofObjBoundMethod : Nat

/-- The struct `ValueArray` of `value.h`: `capacity`, `count`, the address of
`values` and the values themselves. -/
structure ValueArray where
  capacity : Nat
  count : Nat
  values : Option Ptr
  elems : List Value

/-- The struct `Chunk` of `chunk.h`; of `code` and `lines` only the addresses
are kept. -/
structure Chunk where
  count : Nat
  capacity : Nat
  code : Option Ptr
  lines : Option Ptr
  constants : ValueArray

/-- The fields of a heap object after its header, by object type.  An array
an object owns is kept as the address of its block and its contents: `chars`
and `bytes` of a string, `upvalues` and `slots` of a closure, `entries` and
the table of a class or an instance. -/
inductive ObjBody where
  | boundMethod (receiver : Value) (method : Option Ptr)
  | klass (name : Option Ptr) (methods : Table) (entries : Option Ptr)
  | closure (function : Option Ptr) (upvalues : Option Ptr) (slots : List (Option Ptr))
      (upvalueCount : Nat)
  | function (name : Option Ptr) (chunk : Chunk)
  | instance (klass : Option Ptr) (fields : Table) (entries : Option Ptr)
  | native
  | string (length : Nat) (chars : Option Ptr) (bytes : List Nat) (hash : Nat)
  | upvalue (closed : Value) (next : Option Ptr)

/-- A heap object: the header fields `isMarked` and `next` of `Obj`, and the
body, which also stands for the `type` tag. -/
structure Obj where
  isMarked : Bool
  next : Option Ptr
  body : ObjBody

/-- The objects in memory: `none` at an address where no live object is. -/
abbrev Heap := Ptr → Option Obj

/-- The heap with the object at address `p` replaced. -/
def Heap.set (heap : Heap) (p : Ptr) (o : Option Obj) : Heap :=
  fun q => if q = p then o else heap q

/-- A call made while the memory manager runs, recorded in the order of the
calls: `reallocate` with its arguments and the size that the block passed had
when the call was made (`some 0` for `NULL`, `none` when the pointer is not a
live block), the entry into `collectGarbage`, and `freeObject`. -/
inductive Event where
  | reallocate (pointer : Option Ptr) (oldSize newSize : Nat) (blockSize : Option Nat)
  | collectGarbage
  | freeObject (obj : Ptr)
deriving DecidableEq

/-- The global `vm` together with the memory it points into.  `stack` holds
the slots below `stackTop`, `frames` the closure of each frame below
`frameCount`, `grayStack` the `grayCount` entries of the gray stack with the
top first.  `globalsEntries` and `stringsEntries` are the addresses of the
`entries` arrays of the two tables, `compilerRoots` stands for the chain of
compilers, `blocks` for the blocks handed out by `reallocate` and not yet
freed, with their sizes, and `log` is the record of calls. -/
structure VM where
  stack : List Value
  frames : List (Option Ptr)
  openUpvalues : Option Ptr
  globals : Table
  globalsEntries : Option Ptr
  strings : Table
  stringsEntries : Option Ptr
  initString : Option Ptr
  compilerRoots : List (Option Ptr)
  objects : Option Ptr
  grayCapacity : Nat
  grayStack : List Ptr
  bytesAllocated : Nat
  nextGC : Nat
  heap : Heap
  blocks : List (Ptr × Nat)
  log : List Event

/-- The part of the state the mark phase writes: the mark bits in the heap and
the gray stack. -/
structure Marking where
  heap : Heap
  grayCapacity : Nat
  grayStack : List Ptr

/-- The size of the live block at a pointer: `some 0` for `NULL`, `none` when
the pointer is not the address of a live block. -/
def blockSize (blocks : List (Ptr × Nat)) : Option Ptr → Option Nat
  | none => some 0
  | some p => (blocks.find? (fun b => b.1 == p)).map Prod.snd

/-- A cast of an integer to a pointer: zero is `NULL`. -/
def intToPtr (n : Nat) : Option Ptr :=
  if n = 0 then none else some n

/-- The strings of a heap as the table code reads them. -/
def stringView (heap : Heap) : StringMem :=
  fun p =>
    match heap p with
    | some o =>
      match o.body with
      | ObjBody.string length _ bytes hash =>
        { isMarked := o.isMarked, length := length, chars := bytes, hash := hash }
      | _ => { isMarked := o.isMarked, length := 0, chars := [], hash := 0 }
    | none => default

/-- The first statement of `reallocate`: `vm.bytesAllocated += newSize - oldSize`
in `size_t` arithmetic; the call is recorded. -/
def reallocateEnter (vm : VM) (pointer : Option Ptr) (oldSize newSize : Nat) : VM :=
  { vm with
    bytesAllocated := (vm.bytesAllocated + newSize + (2 ^ 64 - oldSize % 2 ^ 64)) % 2 ^ 64,
    log := vm.log ++ [Event.reallocate pointer oldSize newSize (blockSize vm.blocks pointer)] }

/-- The end of `reallocate`: `free(pointer)` when `newSize` is zero, else
`realloc(pointer, newSize)`.  `result` is the address `realloc` hands back (a
`realloc` that fails ends the program); `free` and `realloc` of a pointer that
is not a live block are undefined, and the block `realloc` hands back is the
old one or a fresh one. -/
def reallocateFinish (vm : VM) (pointer : Option Ptr) (newSize : Nat) (result : Ptr) :
    Option (VM × Option Ptr) :=
  if newSize = 0 then
    match pointer with
    | none => some (vm, none)
    | some p =>
      match blockSize vm.blocks (some p) with
      | none => none
      | some _ =>
        some ({ vm with
          blocks := vm.blocks.filter (fun b => !(b.1 == p)),
          heap := vm.heap.set p none }, none)
  else
    match pointer with
    | none =>
      match blockSize vm.blocks (some result) with
      | some _ => none
      | none => some ({ vm with blocks := (result, newSize) :: vm.blocks }, some result)
    | some p =>
      match blockSize vm.blocks (some p) with
      | none => none
      | some _ =>
        if result = p then
          some ({ vm with
            blocks := (p, newSize) :: vm.blocks.filter (fun b => !(b.1 == p)) }, some p)
        else
          match blockSize vm.blocks (some result) with
          | some _ => none
          | none =>
            some ({ vm with
              blocks := (result, newSize) :: vm.blocks.filter (fun b => !(b.1 == p)),
              heap := (vm.heap.set result (vm.heap p)).set p none }, some result)

/-- The function `reallocate`, over the collector it calls: the update of
`bytesAllocated`, the collection under `DEBUG_STRESS_GC` when the block grows,
the collection when `bytesAllocated > nextGC`, then `free` or `realloc`. -/
def reallocateWith (collect : VM → Option VM) (cfg : Config) (vm : VM)
    (pointer : Option Ptr) (oldSize newSize : Nat) (result : Ptr) :
    Option (VM × Option Ptr) :=
  match (if newSize > oldSize ∧ cfg.debugStressGC = true
      then collect (reallocateEnter vm pointer oldSize newSize)
      else some (reallocateEnter vm pointer oldSize newSize)) with
  | none => none
  | some vm2 =>
    match (if vm2.bytesAllocated > vm2.nextGC then collect vm2 else some vm2) with
    | none => none
    | some vm3 => reallocateFinish vm3 pointer newSize result

/-- Modelled from the spec: the macro `FREE(type, pointer)` of `memory.h`,
which is not among the sources; the spec has every release go through the
size-tracking allocator, so it is `reallocate(pointer, sizeof(type), 0)`. -/
def FREE (collect : VM → Option VM) (cfg : Config) (vm : VM) (size : Nat)
    (pointer : Option Ptr) : Option VM :=
  (reallocateWith collect cfg vm pointer size 0 0).map Prod.fst

/-- Modelled from the spec: the macro `FREE_ARRAY(type, pointer, oldCount)` of
`memory.h`, which is not among the sources:
`reallocate(pointer, sizeof(type) * oldCount, 0)`. -/
def FREE_ARRAY (collect : VM → Option VM) (cfg : Config) (vm : VM) (size : Nat)
    (pointer : Option Ptr) (oldCount : Nat) : Option VM :=
  (reallocateWith collect cfg vm pointer (size * oldCount % 2 ^ 64) 0 0).map Prod.fst

/-- Modelled from the spec: the function `freeChunk` of `chunk.c`, which is not
among the sources; it releases the storage a chunk owns: the bytecode, the
line numbers (one per byte) and the constant pool. -/
def freeChunk (collect : VM → Option VM) (cfg : Config) (vm : VM) (chunk : Chunk) :
    Option VM := do
  let vm1 ← FREE_ARRAY collect cfg vm 1 chunk.code chunk.capacity
  let vm2 ← FREE_ARRAY collect cfg vm1 cfg.sizeofInt chunk.lines chunk.capacity
  FREE_ARRAY collect cfg vm2 cfg.sizeofValue chunk.constants.values chunk.constants.capacity

/-- The function `markObject`. -/
def markObject (m : Marking) (obj : Option Ptr) : Option Marking :=
  match obj with
  | none => some m
  | some p =>
    match m.heap p with
    | none => none
    | some o =>
      if o.isMarked = true then some m
      else
        some { heap := m.heap.set p (some { o with isMarked := true }),
               grayCapacity :=
                 if m.grayCapacity < m.grayStack.length + 1 then GROW_CAPACITY m.grayCapacity
                 else m.grayCapacity,
               grayStack := p :: m.grayStack }

/-- The function `markValue`. -/
def markValue (m : Marking) (value : Value) : Option Marking :=
  match AS_OBJ value with
  | some p => markObject m (some p)
  | none => some m

/-- The function `markArray`. -/
def markArray (m : Marking) (arr : ValueArray) : Option Marking :=
  forLoop (fun i (m1 : Marking) =>
    match arr.elems[i]? with
    | none => none
    | some v => markValue m1 v) arr.count m

/-- The function `markTable` of `table.c`. -/
def markTable (m : Marking) (table : Table) : Option Marking :=
  forLoop (fun i (m1 : Marking) =>
    match table.entries[i]? with
    | none => none
    | some entry =>
      match markObject m1 entry.key with
      | none => none
      | some m2 => markValue m2 entry.value) table.capacity m

/-- The function `blackenObject`. -/
def blackenObject (m : Marking) (obj : Ptr) : Option Marking :=
  match m.heap obj with
  | none => none
  | some o =>
    match o.body with
    | ObjBody.boundMethod receiver method =>
      match markValue m receiver with
      | none => none
      | some m1 => markObject m1 method
    | ObjBody.klass name methods _ =>
      match markObject m name with
      | none => none
      | some m1 => markTable m1 methods
    | ObjBody.instance klass fields _ =>
      match markObject m klass with
      | none => none
      | some m1 => markTable m1 fields
    | ObjBody.closure function _ slots upvalueCount =>
      match markObject m function with
      | none => none
      | some m1 =>
        forLoop (fun i (m2 : Marking) =>
          match slots[i]? with
          | none => none
          | some u => markObject m2 u) upvalueCount m1
    | ObjBody.function name chunk =>
      match markObject m name with
      | none => none
      | some m1 => markArray m1 chunk.constants
    | ObjBody.upvalue closed _ => markValue m closed
    | ObjBody.native => some m
    | ObjBody.string _ _ _ _ => some m

/-- The function `freeObject`, over the collector that `reallocate` calls. -/
def freeObjectWith (collect : VM → Option VM) (cfg : Config) (vm : VM) (obj : Ptr) :
    Option VM :=
  match vm.heap obj with
  | none => none
  | some o =>
    let vm0 : VM := { vm with log := vm.log ++ [Event.freeObject obj] }
    match o.body with
    | ObjBody.string length chars _ _ =>
      match FREE_ARRAY collect cfg vm0 1 chars (length + 1) with
      | none => none
      | some vm1 => FREE collect cfg vm1 cfg.sizeofObjString (some obj)
    | ObjBody.function _ chunk =>
      match freeChunk collect cfg vm0 chunk with
      | none => none
      | some vm1 => FREE collect cfg vm1 cfg.sizeofObjFunction (some obj)
    | ObjBody.native => FREE collect cfg vm0 cfg.sizeofObjNative (some obj)
    | ObjBody.closure _ _ _ upvalueCount =>
      match FREE_ARRAY collect cfg vm0 cfg.sizeofPointer (intToPtr upvalueCount)
          upvalueCount with
      | none => none
      | some vm1 => FREE collect cfg vm1 cfg.sizeofObjClosure (some obj)
    | ObjBody.upvalue _ _ => FREE collect cfg vm0 cfg.sizeofObjUpvalue (some obj)
    | ObjBody.klass _ methods entries =>
      match FREE_ARRAY collect cfg vm0 cfg.sizeofEntry entries methods.capacity with
      | none => none
      | some vm1 =>
        match vm1.heap obj with
        | none => none
        | some o1 =>
          match o1.body with
          | ObjBody.klass name _ _ =>
            let o2 : Obj := { o1 with body := ObjBody.klass name initTable none }
            FREE collect cfg { vm1 with heap := vm1.heap.set obj (some o2) }
              cfg.sizeofObjClass (some obj)
          | _ => none
    | ObjBody.instance _ fields entries =>
      match FREE_ARRAY collect cfg vm0 cfg.sizeofEntry entries fields.capacity with
      | none => none
      | some vm1 =>
        match vm1.heap obj with
        | none => none
        | some o1 =>
          match o1.body with
          | ObjBody.instance klass _ _ =>
            let o2 : Obj := { o1 with body := ObjBody.instance klass initTable none }
            FREE collect cfg { vm1 with heap := vm1.heap.set obj (some o2) }
              cfg.sizeofObjInstance (some obj)
          | _ => none
    | ObjBody.boundMethod _ _ => FREE collect cfg vm0 cfg.sizeofObjBoundMethod (some obj)

/-- The walk of `markRoots` along the list of open upvalues, within a bound on
the number of steps. -/
def markOpenUpvalues : Nat → Marking → Option Ptr → Option Marking
  | _, m, none => some m
  | 0, _, some _ => none
  | fuel + 1, m, some p =>
    match m.heap p with
    | none => none
    | some o =>
      match o.body with
      | ObjBody.upvalue _ next =>
        match markObject m (some p) with
        | none => none
        | some m1 => markOpenUpvalues fuel m1 next
      | _ => none

/-- Modelled from the spec: the function `markCompilerRoots` of `compiler.c`,
which is not among the sources; it marks the function object of each compiler
of the chain of compilers. -/
def markCompilerRoots (m : Marking) (roots : List (Option Ptr)) : Option Marking :=
  forLoop (fun i (m1 : Marking) =>
    match roots[i]? with
    | none => none
    | some f => markObject m1 f) roots.length m

/-- The function `markRoots`; the bound is that of the walk along the open
upvalues. -/
def markRoots (fuel : Nat) (vm : VM) (m : Marking) : Option Marking := do
  let m1 ← forLoop (fun i (m0 : Marking) =>
    match vm.stack[i]? with
    | none => none
    | some v => markValue m0 v) vm.stack.length m
  let m2 ← forLoop (fun i (m0 : Marking) =>
    match vm.frames[i]? with
    | none => none
    | some c => markObject m0 c) vm.frames.length m1
  let m3 ← markOpenUpvalues fuel m2 vm.openUpvalues
  let m4 ← markTable m3 vm.globals
  let m5 ← markCompilerRoots m4 vm.compilerRoots
  markObject m5 vm.initString

/-- The function `traceReferences`, within a bound on the number of objects
it blackens. -/
def traceReferences : Nat → Marking → Option Marking
  | fuel, m =>
    match m.grayStack with
    | [] => some m
    | obj :: rest =>
      match fuel with
      | 0 => none
      | fuel1 + 1 =>
        match blackenObject { m with grayStack := rest } obj with
        | none => none
        | some m1 => traceReferences fuel1 m1

/-- The loop of `sweep`, within a bound on the number of objects it visits;
`prev` and `object` are the two local pointers. -/
def sweepLoop (collect : VM → Option VM) (cfg : Config) :
    Nat → VM → Option Ptr → Option Ptr → Option VM
  | _, vm, _, none => some vm
  | 0, _, _, some _ => none
  | fuel + 1, vm, prev, some p =>
    match vm.heap p with
    | none => none
    | some o =>
      if o.isMarked = true then
        sweepLoop collect cfg fuel
          { vm with heap := vm.heap.set p (some { o with isMarked := false }) } (some p) o.next
      else
        match (match prev with
          | some q =>
            match vm.heap q with
            | none => none
            | some oq => some { vm with heap := vm.heap.set q (some { oq with next := o.next }) }
          | none => some { vm with objects := o.next }) with
        | none => none
        | some vm1 =>
          match freeObjectWith collect cfg vm1 p with
          | none => none
          | some vm2 => sweepLoop collect cfg fuel vm2 prev o.next

/-- The function `sweep`. -/
def sweepWith (collect : VM → Option VM) (cfg : Config) (fuel : Nat) (vm : VM) : Option VM :=
  sweepLoop collect cfg fuel vm none vm.objects

/-- The function `collectGarbage`.  The bound limits each of its loops and the
depth to which collections started by `reallocate` during `sweep` nest. -/
def collectGarbage (cfg : Config) : Nat → VM → Option VM
  | 0, _ => none
  | fuel + 1, vm =>
    match markRoots (fuel + 1) vm
        { heap := vm.heap, grayCapacity := vm.grayCapacity, grayStack := vm.grayStack } with
    | none => none
    | some m1 =>
      match traceReferences (fuel + 1) m1 with
      | none => none
      | some m2 =>
        match tableRemoveWhite (stringView m2.heap) vm.strings with
        | none => none
        | some strings =>
          match sweepWith (collectGarbage cfg fuel) cfg (fuel + 1)
              { vm with
                heap := m2.heap, grayCapacity := m2.grayCapacity, grayStack := m2.grayStack,
                strings := strings, log := vm.log ++ [Event.collectGarbage] } with
          | none => none
          | some vm4 => some { vm4 with nextGC := vm4.bytesAllocated * 2 % 2 ^ 64 }


/-- The change of `bytesAllocated` one recorded call asks for:
`newSize - oldSize` for a call of `reallocate`, nothing for the others. -/
def Event.delta : Event → Int
  | Event.reallocate _ oldSize newSize _ => (newSize : Int) - (oldSize : Int)
  | _ => 0

/-- The sum of the changes the recorded calls ask for. -/
def netDelta : List Event → Int
  | [] => 0
  | e :: evs => e.delta + netDelta evs

/-- A recorded call of `reallocate` whose `oldSize` is the size the block
passed had at the call (0 for `NULL`); other calls count as such. -/
def callSizeOK : Event → Bool
  | Event.reallocate _ oldSize _ bs => bs == some oldSize
  | _ => true

/-- The sum of the sizes of the live blocks. -/
def sumBlocks (blocks : List (Ptr × Nat)) : Nat :=
  (blocks.map Prod.snd).sum

/-- No address is that of two live blocks. -/
def BlocksDistinct (blocks : List (Ptr × Nat)) : Prop :=
  (blocks.map Prod.fst).Nodup

instance (blocks : List (Ptr × Nat)) : Decidable (BlocksDistinct blocks) := by
  unfold BlocksDistinct; infer_instance

/-- A recorded call that asks for no memory: a call of `reallocate` with
`newSize = 0`, the entry into `collectGarbage`, a call of `freeObject`. -/
def isFreeEvent : Event → Bool
  | Event.reallocate _ _ newSize _ => newSize == 0
  | _ => true

/-- The effect on the allocator of code that only frees: the record of calls
grows by `evs`, `bytesAllocated` changes by what those calls ask for (modulo
`2 ^ 64`), no block appears or changes size, when each of the calls passed
the size of its block the sum of the live sizes changes by the same amount,
and none of the calls asks for memory. -/
def FreeStep (vm vm' : VM) : Prop :=
  ∃ evs, vm'.log = vm.log ++ evs
    ∧ (vm'.bytesAllocated : Int) % 2 ^ 64 = ((vm.bytesAllocated : Int) + netDelta evs) % 2 ^ 64
    ∧ (vm.bytesAllocated < 2 ^ 64 → vm'.bytesAllocated < 2 ^ 64)
    ∧ (∀ q s, blockSize vm'.blocks (some q) = some s → blockSize vm.blocks (some q) = some s)
    ∧ (BlocksDistinct vm.blocks → BlocksDistinct vm'.blocks)
    ∧ (BlocksDistinct vm.blocks → (∀ e ∈ evs, callSizeOK e = true) →
        (sumBlocks vm'.blocks : Int) = (sumBlocks vm.blocks : Int) + netDelta evs)
    ∧ ∀ e ∈ evs, isFreeEvent e = true

/-- What a collector must satisfy for the accounting: it only frees. -/
def OnlyFrees (collect : VM → Option VM) : Prop :=
  ∀ v v', collect v = some v' → FreeStep v v'

/-- One call of `reallocate` by the program, which may have changed the heap
and the roots since the call before, but not what the allocator keeps. -/
structure Call where
  mutate : VM → VM
  pointer : Option Ptr
  oldSize : Nat
  newSize : Nat
  result : Ptr

/-- The code between two calls leaves `bytesAllocated`, the live blocks and
the record of calls as they are. -/
def Call.KeepsAllocator (c : Call) : Prop :=
  ∀ vm, (c.mutate vm).bytesAllocated = vm.bytesAllocated
    ∧ (c.mutate vm).blocks = vm.blocks ∧ (c.mutate vm).log = vm.log

/-- The function `reallocate`. -/
def reallocate (cfg : Config) (fuel : Nat) (vm : VM) (pointer : Option Ptr)
    (oldSize newSize : Nat) (result : Ptr) : Option (VM × Option Ptr) :=
  reallocateWith (collectGarbage cfg fuel) cfg vm pointer oldSize newSize result

/-- A sequence of calls of `reallocate`, each after the program's own code. -/
def runCalls (cfg : Config) (fuel : Nat) : List Call → VM → Option VM
  | [], vm => some vm
  | c :: cs, vm =>
    match reallocate cfg fuel (c.mutate vm) c.pointer c.oldSize c.newSize c.result with
    | none => none
    | some out => runCalls cfg fuel cs out.1

/-- A build for examples: 64-bit sizes, `DEBUG_STRESS_GC` not defined. -/
def exampleConfig : Config :=
  { debugStressGC := false, sizeofInt := 4, sizeofValue := 16, sizeofEntry := 24,
    sizeofPointer := 8, sizeofObjString := 40, sizeofObjFunction := 80, sizeofObjNative := 24,
    sizeofObjClosure := 40, sizeofObjUpvalue := 48, sizeofObjClass := 48,
    sizeofObjInstance := 48, sizeofObjBoundMethod := 40 }

/-- A heap for examples: two native-function objects, an unreachable one at
address 100 followed in the object list by one at address 200. -/
def exampleHeap : Heap :=
  fun p =>
    if p = 100 then some { isMarked := false, next := some 200, body := ObjBody.native }
    else if p = 200 then some { isMarked := false, next := none, body := ObjBody.native }
    else none

/-- A state for examples, between two calls of `reallocate`: no object is
marked, the gray stack is empty, the object list is 100, 200, the only root is
the stack slot that holds object 200, the live blocks are the two objects and
an array of 452 bytes, `bytesAllocated` is the sum of their sizes and has
reached `nextGC`. -/
def exampleVM : VM :=
  { stack := [Value.obj 200], frames := [], openUpvalues := none, globals := initTable,
    globalsEntries := none, strings := initTable, stringsEntries := none,
    initString := none, compilerRoots := [], objects := some 100,
    grayCapacity := 0, grayStack := [], bytesAllocated := 500, nextGC := 500,
    heap := exampleHeap, blocks := [(100, 24), (200, 24), (300, 452)], log := [] }

/-- Two calls for examples: a block of 48 bytes is asked for and handed out at
address 400, then freed; the program changes nothing in between. -/
def exampleCalls : List Call :=
  [{ mutate := fun vm => vm, pointer := none, oldSize := 0, newSize := 48, result := 400 },
   { mutate := fun vm => vm, pointer := some 400, oldSize := 48, newSize := 0, result := 0 }]


/-- Slot `i` of an entries array is a tombstone: no key and a value that is
not nil. -/
def tombstoneAt (entries : List Entry) (i : Nat) : Bool :=
  match entries[i]? with
  | some e => e.key.isNone && !IS_NIL e.value
  | none => false

/-- The number of tombstone slots of an entries array. -/
def tombstones (entries : List Entry) : Nat :=
  entries.countP (fun e => e.key.isNone && !IS_NIL e.value)

/-- An operation on one table: a client step or the weak pass of the
collector, `tableRemoveWhite`. -/
inductive TableAction where
  | step (s : TableStep)
  | removeWhite

/-- One operation applied to a table. -/
def applyAction (mem : StringMem) (t : Table) : TableAction → Option Table
  | TableAction.step s => applyStep mem t s
  | TableAction.removeWhite => tableRemoveWhite mem t

/-- A sequence of operations applied in order. -/
def runActions (mem : StringMem) : List TableAction → Table → Option Table
  | [], t => some t
  | a :: as, t =>
    match applyAction mem t a with
    | none => none
    | some t1 => runActions mem as t1

/-- The example state as `collectGarbage` hands it to `sweep` during the call
`reallocate(NULL, 0, 500)`: object 200, which the stack holds, is marked,
object 100 is not, and `bytesAllocated` is 1000, above `nextGC`. -/
def exampleSweepVM : VM :=
  { exampleVM with
    bytesAllocated := 1000,
    heap := fun p =>
      if p = 100 then some { isMarked := false, next := some 200, body := ObjBody.native }
      else if p = 200 then some { isMarked := true, next := none, body := ObjBody.native }
      else none }

/-- A state for examples with one closure at address 500 that has one upvalue:
its upvalue array is the block of 8 bytes at address 700. -/
def exampleClosureVM : VM :=
  { stack := [], frames := [], openUpvalues := none, globals := initTable,
    globalsEntries := none, strings := initTable, stringsEntries := none,
    initString := none, compilerRoots := [], objects := some 500,
    grayCapacity := 0, grayStack := [], bytesAllocated := 48, nextGC := 1024,
    heap := fun p =>
      if p = 500 then
        some { isMarked := false, next := none,
               body := ObjBody.closure none (some 700) [none] 1 }
      else none,
    blocks := [(500, 40), (700, 8)], log := [] }

/-! ## The mark phase: reachability and the record of blackened objects -/

/-- Whether the object at an address has `isMarked` set; `false` where no
object is. -/
def isMarkedAt (heap : Heap) (p : Ptr) : Bool :=
  match heap p with
  | some o => o.isMarked
  | none => false

/-- The keys and values of a list of entries as object references, in the
order in which `markTable` visits them. -/
def entryEdges : List Entry → List (Option Ptr)
  | [] => []
  | e :: es => e.key :: AS_OBJ e.value :: entryEdges es

/-- The references a table holds: the key and the value of each of its
`capacity` slots. -/
def tableEdges (t : Table) : List (Option Ptr) :=
  entryEdges (t.entries.take t.capacity)

/-- The out-edges of an object by type, in the words of the specification:
bound method to receiver and method; class to name and every key and value of
methods; instance to class and every key and value of fields; closure to
function and each upvalue; function to name and every constant; upvalue to its
closed value; string and native to nothing. -/
def outEdges : ObjBody → List (Option Ptr)
  | ObjBody.boundMethod receiver method => [AS_OBJ receiver, method]
  | ObjBody.klass name methods _ => name :: tableEdges methods
  | ObjBody.instance klass fields _ => klass :: tableEdges fields
  | ObjBody.closure function _ slots upvalueCount => function :: slots.take upvalueCount
  | ObjBody.function name chunk =>
    name :: (chunk.constants.elems.take chunk.constants.count).map AS_OBJ
  | ObjBody.upvalue closed _ => [AS_OBJ closed]
  | ObjBody.native => []
  | ObjBody.string _ _ _ _ => []

/-- Whether the arrays of an object have the elements their counters announce:
`upvalueCount` upvalue slots in a closure, `count` constants in the chunk of a
function, `capacity` entries in the table of a class or an instance. -/
def arraysInBounds : ObjBody → Bool
  | ObjBody.klass _ methods _ => decide (methods.capacity ≤ methods.entries.length)
  | ObjBody.instance _ fields _ => decide (fields.capacity ≤ fields.entries.length)
  | ObjBody.closure _ _ slots upvalueCount => decide (upvalueCount ≤ slots.length)
  | ObjBody.function _ chunk =>
    decide (chunk.constants.count ≤ chunk.constants.elems.length)
  | _ => true

/-- The list of open upvalues from a head pointer along the `next` fields,
within a bound on its length; `none` when the bound is too small or an element
is not an upvalue object. -/
def openUpvalueList (heap : Heap) : Nat → Option Ptr → Option (List Ptr)
  | _, none => some []
  | 0, some _ => none
  | fuel + 1, some p =>
    match heap p with
    | none => none
    | some o =>
      match o.body with
      | ObjBody.upvalue _ next =>
        match openUpvalueList heap fuel next with
        | none => none
        | some us => some (p :: us)
      | _ => none

/-- The roots in the words of the specification: the stack slots below
`stackTop`, the closure of each frame, the open upvalues, the keys and values
of the globals table, the compiler roots and `initString`. -/
def rootEdges (vm : VM) (openUpvalues : List Ptr) : List (Option Ptr) :=
  vm.stack.map AS_OBJ ++ (vm.frames ++ (openUpvalues.map some ++
    (tableEdges vm.globals ++ (vm.compilerRoots ++ [vm.initString]))))

/-- Reachability from a list of roots along the out-edges of the objects of a
heap. -/
inductive Reachable (heap : Heap) (roots : List (Option Ptr)) : Ptr → Prop where
  | root {p : Ptr} (h : some p ∈ roots) : Reachable heap roots p
  | edge {p q : Ptr} {o : Obj} (hp : Reachable heap roots p) (ho : heap p = some o)
      (hq : some q ∈ outEdges o.body) : Reachable heap roots q

/-- The calls `markObject` on each reference of a list, in order. -/
def markList : Marking → List (Option Ptr) → Option Marking
  | m, [] => some m
  | m, p :: ps =>
    match markObject m p with
    | none => none
    | some m1 => markList m1 ps

/-- The objects `traceReferences` pops and passes to `blackenObject`, in
order: the loop of `traceReferences` with the record of its pops as result. -/
def blackened : Nat → Marking → List Ptr
  | fuel, m =>
    match m.grayStack with
    | [] => []
    | obj :: rest =>
      match fuel with
      | 0 => []
      | fuel1 + 1 =>
        match blackenObject { m with grayStack := rest } obj with
        | none => [obj]
        | some m1 => obj :: blackened fuel1 m1

/-- The number of addresses of a list at which no marked object is. -/
def whiteCount (objs : List Ptr) (heap : Heap) : Nat :=
  objs.countP (fun p => !isMarkedAt heap p)

/-- The mark-phase part of a state, as `collectGarbage` hands it to
`markRoots`. -/
def VM.marking (vm : VM) : Marking :=
  { heap := vm.heap, grayCapacity := vm.grayCapacity, grayStack := vm.grayStack }

/-- Whether a reference is `NULL` or the address of an object of the heap. -/
def refLive (heap : Heap) : Option Ptr → Bool
  | none => true
  | some r => (heap r).isSome

/-- Whether the object at an address, if there is one, has its arrays in
bounds and each out-edge `NULL` or the address of an object. -/
def objClosed (heap : Heap) (p : Ptr) : Bool :=
  match heap p with
  | none => true
  | some o => arraysInBounds o.body && (outEdges o.body).all (refLive heap)

/-- A heap whose references stay inside it: at each address of the list the
arrays of the object are in bounds and each out-edge is `NULL` or the address
of an object. -/
def HeapClosed (objs : List Ptr) (heap : Heap) : Prop :=
  ∀ p ∈ objs, objClosed heap p = true

instance (objs : List Ptr) (heap : Heap) : Decidable (HeapClosed objs heap) := by
  unfold HeapClosed
  infer_instance

/-- Two heaps with the same objects at the same addresses, up to the mark
bits. -/
def SameObjects (h h' : Heap) : Prop :=
  ∀ p, Option.map Obj.body (h' p) = Option.map Obj.body (h p) ∧
    Option.map Obj.next (h' p) = Option.map Obj.next (h p)

/-- Every marked object that is not on the gray stack has each of its
out-edges marked. -/
def BlackClosed (m : Marking) : Prop :=
  ∀ p o, m.heap p = some o → o.isMarked = true → p ∉ m.grayStack →
    ∀ q, some q ∈ outEdges o.body → isMarkedAt m.heap q = true

/-- A heap for examples with one object of each type.  The closure at 40 has
the function at 20 and the upvalue at 50; the function has the name at 10 and
the string at 30 among its constants; the native at 60, the instance at 70 and
its class at 80 are referred to by no root. -/
def exampleGraphHeap : Heap :=
  fun p =>
    if p = 10 then
      some { isMarked := false, next := none, body := ObjBody.string 1 (some 11) [102] 7 }
    else if p = 20 then
      some { isMarked := false, next := some 10,
             body := ObjBody.function (some 10)
               { count := 0, capacity := 0, code := none, lines := none,
                 constants := { capacity := 2, count := 2, values := some 21,
                                elems := [Value.obj 30, Value.number 5] } } }
    else if p = 30 then
      some { isMarked := false, next := some 20, body := ObjBody.string 1 (some 31) [103] 9 }
    else if p = 40 then
      some { isMarked := false, next := some 30,
             body := ObjBody.closure (some 20) (some 41) [some 50] 1 }
    else if p = 50 then
      some { isMarked := false, next := some 40, body := ObjBody.upvalue Value.nil none }
    else if p = 60 then
      some { isMarked := false, next := some 50, body := ObjBody.native }
    else if p = 70 then
      some { isMarked := false, next := some 60,
             body := ObjBody.instance (some 80)
               { count := 1, capacity := 2,
                 entries := [{ key := none, value := Value.nil },
                             { key := some 10, value := Value.obj 60 }] } (some 71) }
    else if p = 80 then
      some { isMarked := false, next := some 70, body := ObjBody.klass (some 10) initTable none }
    else none

/-- The addresses of the objects of the example heap. -/
def exampleGraphObjs : List Ptr :=
  [10, 20, 30, 40, 50, 60, 70, 80]

/-- A state for examples over the example heap, at the start of a collection:
the stack holds a number and the closure at 40, the one frame runs that
closure, the upvalue at 50 is open, the globals bind the string at 30 to the
closure, the compiler is compiling the function at 20 and `initString` is
`NULL`. -/
def exampleGraphVM : VM :=
  { stack := [Value.number 1, Value.obj 40], frames := [some 40], openUpvalues := some 50,
    globals := { count := 1, capacity := 2,
                 entries := [{ key := some 30, value := Value.obj 40 },
                             { key := none, value := Value.nil }] },
    globalsEntries := some 90, strings := initTable, stringsEntries := none,
    initString := none, compilerRoots := [some 20],
    objects := some 80, grayCapacity := 0, grayStack := [], bytesAllocated := 0,
    nextGC := 1024, heap := exampleGraphHeap, blocks := [], log := [] }

/-- A state for examples in the middle of a mark phase: the instance at 70 of
the example heap is marked and is the one entry of the gray stack. -/
def exampleGrayMarking : Marking :=
  { heap := exampleGraphHeap.set 70
      (some { isMarked := true, next := some 60,
              body := ObjBody.instance (some 80)
                { count := 1, capacity := 2,
                  entries := [{ key := none, value := Value.nil },
                              { key := some 10, value := Value.obj 60 }] } (some 71) }),
    grayCapacity := 8, grayStack := [70] }

/-! ## `adjustCapacity` with its allocation -/

/-- The table a `Table*` points to: the globals or the intern table of the
`vm`, the methods of a class or the fields of an instance. -/
inductive TableRef where
  | globals
  | strings
  | methods (klass : Ptr)
  | fields (obj : Ptr)
deriving DecidableEq

/-- The table behind a `Table*`: its `count`, `capacity` and the contents of
its `entries` array, and the address of that array. -/
def readTable (vm : VM) : TableRef → Option (Table × Option Ptr)
  | TableRef.globals => some (vm.globals, vm.globalsEntries)
  | TableRef.strings => some (vm.strings, vm.stringsEntries)
  | TableRef.methods p =>
    match vm.heap p with
    | none => none
    | some o =>
      match o.body with
      | ObjBody.klass _ methods entries => some (methods, entries)
      | _ => none
  | TableRef.fields p =>
    match vm.heap p with
    | none => none
    | some o =>
      match o.body with
      | ObjBody.instance _ fields entries => some (fields, entries)
      | _ => none

/-- The stores through a `Table*`: the table behind it gets the given fields
and the given address of its `entries` array. -/
def writeTable (vm : VM) (t : Table) (entries : Option Ptr) : TableRef → Option VM
  | TableRef.globals => some { vm with globals := t, globalsEntries := entries }
  | TableRef.strings => some { vm with strings := t, stringsEntries := entries }
  | TableRef.methods p =>
    match vm.heap p with
    | none => none
    | some o =>
      match o.body with
      | ObjBody.klass name _ _ =>
        some { vm with heap := vm.heap.set p (some { o with body := ObjBody.klass name t entries }) }
      | _ => none
  | TableRef.fields p =>
    match vm.heap p with
    | none => none
    | some o =>
      match o.body with
      | ObjBody.instance klass _ _ =>
        some { vm with
          heap := vm.heap.set p (some { o with body := ObjBody.instance klass t entries }) }
      | _ => none

/-- Modelled from the spec: the macro `ALLOCATE(type, count)` of `memory.h`,
which is not among the sources; the spec has every allocation go through the
size-tracking allocator, which may start a collection, so it is
`reallocate(NULL, 0, sizeof(type) * count)`.  `result` is the address the
allocation hands back. -/
def ALLOCATE (collect : VM → Option VM) (cfg : Config) (vm : VM) (size count : Nat)
    (result : Ptr) : Option (VM × Option Ptr) :=
  reallocateWith collect cfg vm none 0 (size * count % 2 ^ 64) result

/-- The function `adjustCapacity` on the table behind a `Table*`: the new
array is allocated, which may start a collection; the two loops run on the
table as it is then; `count` has been stored in the table when the old array
is released; then `entries` and `capacity` are stored. -/
def adjustCapacity (cfg : Config) (fuel : Nat) (vm : VM) (table : TableRef) (capacity : Nat)
    (result : Ptr) : Option VM :=
  match ALLOCATE (collectGarbage cfg fuel) cfg vm cfg.sizeofEntry capacity result with
  | none => none
  | some (vm1, entries) =>
    match readTable vm1 table with
    | none => none
    | some (t, oldEntries) =>
      match adjustCapacityLoops (stringView vm1.heap) t capacity with
      | none => none
      | some t1 =>
        match writeTable vm1 { t with count := t1.count } oldEntries table with
        | none => none
        | some vm2 =>
          match FREE_ARRAY (collectGarbage cfg fuel) cfg vm2 cfg.sizeofEntry oldEntries
              t.capacity with
          | none => none
          | some vm3 =>
            match readTable vm3 table with
            | none => none
            | some (t3, _) =>
              writeTable vm3 { count := t3.count, capacity := capacity, entries := t1.entries }
                entries table

/-- A table after weak passes of the collector over it: capacity, count and
the number of slots are as before, and each slot is as before or is a
tombstone where a key was. -/
def Thinned (t t' : Table) : Prop :=
  t'.capacity = t.capacity ∧ t'.count = t.count ∧ t'.entries.length = t.entries.length
    ∧ ∀ (i : Nat) (e' : Entry), t'.entries[i]? = some e' →
        t.entries[i]? = some e'
          ∨ (e' = { key := none, value := Value.bool true }
              ∧ ∃ e, t.entries[i]? = some e ∧ e.key ≠ none)

/-- What code that only collects and frees leaves of the tables: the globals
and the addresses of the two arrays are as before, the intern table is as
before up to weak passes, and an object that is still there has the fields it
had. -/
def KeepsTables (vm vm' : VM) : Prop :=
  vm'.globals = vm.globals ∧ vm'.globalsEntries = vm.globalsEntries
    ∧ vm'.stringsEntries = vm.stringsEntries ∧ Thinned vm.strings vm'.strings
    ∧ ∀ q o', vm'.heap q = some o' → ∃ o, vm.heap q = some o ∧ o'.body = o.body

/-- The function `tablePut` on the table behind a `Table*`, with the call of
`adjustCapacity` and its allocation when the table grows; `result` is the
address the allocation hands back.  After the growth test it is `tablePut` on
the table as `adjustCapacity` left it. -/
def tablePutAt (cfg : Config) (fuel : Nat) (vm : VM) (table : TableRef) (key : Ptr)
    (value : Value) (result : Ptr) : Option (VM × Bool) :=
  match readTable vm table with
  | none => none
  | some (t, _) =>
    match (if 4 * (t.count + 1) > 3 * t.capacity then
        adjustCapacity cfg fuel vm table (GROW_CAPACITY t.capacity) result else some vm) with
    | none => none
    | some vm1 =>
      match readTable vm1 table with
      | none => none
      | some (t1, entries) =>
        match findEntry (stringView vm1.heap) t1.entries t1.capacity key with
        | none => none
        | some i =>
          match t1.entries[i]? with
          | none => none
          | some entry =>
            let isNewKey := entry.key.isNone
            match writeTable vm1
                { count := if isNewKey && IS_NIL entry.value then t1.count + 1 else t1.count,
                  capacity := t1.capacity,
                  entries := t1.entries.set i { key := some key, value := value } }
                entries table with
            | none => none
            | some vm2 => some (vm2, isNewKey)

/-! ## Arithmetic of the probe sequence -/

theorem land_mask_eq_mod {capacity : Nat} (hp : ∃ m, m < capacity ∧ capacity = 2 ^ m)
    (x : Nat) : x &&& (capacity - 1) = x % capacity := by
  obtain ⟨m, _, rfl⟩ := hp
  exact Nat.and_pow_two_sub_one_eq_mod x m

theorem pow2_pos {capacity : Nat} (hp : ∃ m, m < capacity ∧ capacity = 2 ^ m) :
    0 < capacity := by
  obtain ⟨m, hm, _⟩ := hp
  omega

theorem mod_lt_two {c x : Nat} (hx : x < 2 * c) :
    x % c = if x < c then x else x - c := by
  split
  · next h => exact Nat.mod_eq_of_lt h
  · next h =>
    have h1 : x = (x - c) + c := by omega
    rw [h1, Nat.add_mod_right, Nat.mod_eq_of_lt (by omega)]
    omega

/-- The probe that starts at `h` reaches slot `i` after `(i + c - h) % c` steps. -/
theorem probe_reach {c h i : Nat} (hh : h < c) (hi : i < c) :
    (h + (i + c - h) % c) % c = i := by
  rw [mod_lt_two (x := i + c - h) (by omega)]
  split
  · rw [mod_lt_two (by omega)]; split <;> omega
  · rw [mod_lt_two (by omega)]; split <;> omega

/-- Within one round the probe meets slot `i` only at step `(i + c - h) % c`. -/
theorem probe_unique {c h i n : Nat} (hh : h < c) (hi : i < c) (hn : n < c)
    (h1 : (h + n) % c = i) : n = (i + c - h) % c := by
  rw [mod_lt_two (x := h + n) (by omega)] at h1
  rw [mod_lt_two (x := i + c - h) (by omega)]
  split at h1 <;> split <;> omega

theorem probe_dist_lt {c h i : Nat} (hc : 0 < c) : (i + c - h) % c < c :=
  Nat.mod_lt _ hc

theorem probe_succ {c s n : Nat} : ((s + 1) % c + n) % c = (s + (n + 1)) % c := by
  rw [Nat.mod_add_mod]; congr 1; omega

/-! ## The probe loop of `findEntry` -/

theorem keyAt_eq_some {entries : List Entry} {i : Nat} {k : Ptr}
    (h : keyAt entries i = some k) : ∃ e, entries[i]? = some e ∧ e.key = some k := by
  unfold keyAt at h
  cases he : entries[i]? with
  | none => simp [he] at h
  | some e => exact ⟨e, rfl, by simpa [he] using h⟩

theorem slotUsed_eq_true {entries : List Entry} {i : Nat}
    (h : slotUsed entries i = true) : ∃ e, entries[i]? = some e ∧ usedE e = true := by
  unfold slotUsed at h
  cases he : entries[i]? with
  | none => simp [he] at h
  | some e => exact ⟨e, rfl, by simpa [he] using h⟩

/-- The probe loop: when the next `d` slots are passed over (not empty and not
holding `key`) and the slot after them stops the loop (it is empty or holds
`key`), the loop returns within `d + 1` probes: the slot of `key` if the
stopping slot holds it, else the tombstone recorded before or, failing that,
the first slot without a key on the way. -/
theorem findEntryLoop_spec {entries : List Entry} {capacity : Nat} (key : Ptr)
    (hp : ∃ m, m < capacity ∧ capacity = 2 ^ m) :
    ∀ (d fuel s : Nat) (tomb : Option Nat), d < fuel → s < capacity →
      (∀ n, n < d → slotUsed entries ((s + n) % capacity) = true
        ∧ keyAt entries ((s + n) % capacity) ≠ some key) →
      (∃ e, entries[(s + d) % capacity]? = some e ∧ (usedE e = false ∨ e.key = some key)) →
      ∃ r, findEntryLoop entries capacity key fuel s tomb = some r ∧
        (keyAt entries ((s + d) % capacity) = some key → r = (s + d) % capacity) ∧
        (keyAt entries ((s + d) % capacity) ≠ some key →
          (∀ t, tomb = some t → r = t) ∧
          (tomb = none → ∃ n, n ≤ d ∧ r = (s + n) % capacity ∧ keyAt entries r = none
            ∧ ∀ n', n' < n → keyAt entries ((s + n') % capacity) ≠ none)) := by
  intro d
  induction d with
  | zero =>
    intro fuel s tomb hf hs _ hstop
    obtain ⟨e, he, hstop⟩ := hstop
    have hs0 : (s + 0) % capacity = s := by simpa using Nat.mod_eq_of_lt hs
    rw [hs0] at he ⊢
    obtain ⟨f, rfl⟩ : ∃ f, fuel = f + 1 := ⟨fuel - 1, by omega⟩
    have hk : keyAt entries s = e.key := by simp [keyAt, he]
    rcases hstop with hu | hkey
    · -- the slot is empty
      have hkn : e.key = none := by
        cases hkk : e.key with
        | none => rfl
        | some k => simp [usedE, hkk] at hu
      have hnil : IS_NIL e.value = true := by
        simpa [usedE, hkn] using hu
      cases tomb with
      | none =>
        refine ⟨s, by simp [findEntryLoop, he, hkn, hnil], ?_, ?_⟩
        · intro _; rfl
        · intro _
          refine ⟨(by intro t ht; cases ht), fun _ => ⟨0, le_refl _, hs0.symm, ?_, ?_⟩⟩
          · rw [hk, hkn]
          · intro n' hn'; omega
      | some t =>
        refine ⟨t, by simp [findEntryLoop, he, hkn, hnil], ?_, ?_⟩
        · intro h; rw [hk, hkn] at h; cases h
        · intro _
          exact ⟨(by intro t' ht; cases ht; rfl), (by intro h; cases h)⟩
    · -- the slot holds the key
      refine ⟨s, by simp [findEntryLoop, he, hkey], fun _ => rfl, ?_⟩
      intro h; exact absurd (hk.trans hkey) h
  | succ d ih =>
    intro fuel s tomb hf hs hpass hstop
    obtain ⟨f, rfl⟩ : ∃ f, fuel = f + 1 := ⟨fuel - 1, by omega⟩
    have hs0 : (s + 0) % capacity = s := by simpa using Nat.mod_eq_of_lt hs
    have hnext : (s + 1) &&& (capacity - 1) = (s + 1) % capacity := land_mask_eq_mod hp _
    have hs1 : (s + 1) % capacity < capacity := Nat.mod_lt _ (pow2_pos hp)
    obtain ⟨hu0, hk0⟩ := hpass 0 (by omega)
    rw [hs0] at hu0 hk0
    obtain ⟨e, he, hue⟩ := slotUsed_eq_true hu0
    have hk : keyAt entries s = e.key := by simp [keyAt, he]
    have hpass1 : ∀ n, n < d → slotUsed entries (((s + 1) % capacity + n) % capacity) = true
        ∧ keyAt entries (((s + 1) % capacity + n) % capacity) ≠ some key := by
      intro n hn
      rw [probe_succ]
      exact hpass (n + 1) (by omega)
    have hstop1 : ∃ e, entries[((s + 1) % capacity + d) % capacity]? = some e
        ∧ (usedE e = false ∨ e.key = some key) := by
      rw [probe_succ]; exact hstop
    cases hkk : e.key with
    | none =>
      have hnil : IS_NIL e.value = false := by
        simpa [usedE, hkk] using hue
      cases tomb with
      | none =>
        obtain ⟨r, hr, h1, h2⟩ := ih f ((s + 1) % capacity) (some s) (by omega) hs1 hpass1 hstop1
        rw [probe_succ] at h1 h2
        refine ⟨r, by simp [findEntryLoop, he, hkk, hnil, hnext, hr], h1, ?_⟩
        intro hne
        obtain ⟨h3, _⟩ := h2 hne
        have hrs : r = s := h3 s rfl
        refine ⟨(by intro t ht; cases ht), fun _ => ⟨0, by omega, hrs.trans hs0.symm, ?_, ?_⟩⟩
        · rw [hrs, hk, hkk]
        · intro n' hn'; omega
      | some t =>
        obtain ⟨r, hr, h1, h2⟩ := ih f ((s + 1) % capacity) (some t) (by omega) hs1 hpass1 hstop1
        rw [probe_succ] at h1 h2
        refine ⟨r, by simp [findEntryLoop, he, hkk, hnil, hnext, hr], h1, ?_⟩
        intro hne
        obtain ⟨h3, _⟩ := h2 hne
        exact ⟨(by intro t' ht; cases ht; exact h3 t rfl), (by intro h; cases h)⟩
    | some k' =>
      have hne' : k' ≠ key := by
        intro h; apply hk0; rw [hk, hkk, h]
      obtain ⟨r, hr, h1, h2⟩ := ih f ((s + 1) % capacity) tomb (by omega) hs1 hpass1 hstop1
      rw [probe_succ] at h1 h2
      refine ⟨r, by simp [findEntryLoop, he, hkk, hne', hnext, hr], h1, ?_⟩
      intro hne
      obtain ⟨h3, h4⟩ := h2 hne
      refine ⟨h3, fun ht => ?_⟩
      obtain ⟨n, hn, hrn, hkr, hall⟩ := h4 ht
      rw [probe_succ] at hrn
      refine ⟨n + 1, by omega, hrn, hkr, ?_⟩
      intro n' hn'
      cases n' with
      | zero => rw [hs0, hk, hkk]; simp
      | succ n'' =>
        have := hall n'' (by omega)
        rwa [probe_succ] at this

/-! ## `findEntry` on an array that satisfies the invariant -/

theorem exists_unused_slot {entries : List Entry}
    (h : entries.countP usedE < entries.length) :
    ∃ i e, i < entries.length ∧ entries[i]? = some e ∧ usedE e = false := by
  by_contra hcon
  have hall : ∀ e ∈ entries, usedE e = true := by
    intro e he
    by_contra hne
    obtain ⟨i, hi, hie⟩ := List.getElem_of_mem he
    exact hcon ⟨i, e, hi, by simp [List.getElem?_eq_getElem hi, hie], by simpa using hne⟩
  have := List.countP_eq_length.mpr hall
  omega

theorem home_lt (mem : StringMem) {capacity : Nat}
    (hp : ∃ m, m < capacity ∧ capacity = 2 ^ m) (k : Ptr) : home mem capacity k < capacity := by
  unfold home
  rw [land_mask_eq_mod hp]
  exact Nat.mod_lt _ (pow2_pos hp)

theorem keyAt_lt {entries : List Entry} {i : Nat} {k : Ptr}
    (h : keyAt entries i = some k) : i < entries.length := by
  obtain ⟨e, he, _⟩ := keyAt_eq_some h
  by_contra hlt
  rw [List.getElem?_eq_none (by omega)] at he
  cases he

/-- On an array that satisfies the invariant `findEntry` returns: the slot of
`key` if some slot holds it; otherwise no slot holds `key`, and the slot
returned has no key and is reached from the home slot of `key` over slots that
are not empty. -/
theorem findEntry_cases {mem : StringMem} {entries : List Entry} {capacity : Nat}
    (hinv : EntriesInv mem entries capacity) (key : Ptr) :
    ∃ r, findEntry mem entries capacity key = some r ∧ r < capacity ∧
      (keyAt entries r = some key ∨
        ((∀ i, keyAt entries i ≠ some key) ∧ keyAt entries r = none ∧
          ∀ n, n < (r + capacity - home mem capacity key) % capacity →
            slotUsed entries ((home mem capacity key + n) % capacity) = true)) := by
  obtain ⟨hlen, hp, hroom, hdist, hchain⟩ := hinv
  have hc := pow2_pos hp
  have hh := home_lt mem hp key
  generalize hhd : home mem capacity key = h at hh
  -- the first step at which the probe stops
  have hex : ∃ n, ∃ e, entries[(h + n) % capacity]? = some e
      ∧ (usedE e = false ∨ e.key = some key) := by
    obtain ⟨i, e, hi, hie, hue⟩ := exists_unused_slot (by omega : entries.countP usedE < entries.length)
    refine ⟨(i + capacity - h) % capacity, e, ?_, Or.inl hue⟩
    rw [probe_reach hh (by omega)]; exact hie
  classical
  let d := Nat.find hex
  have hd : ∃ e, entries[(h + d) % capacity]? = some e
      ∧ (usedE e = false ∨ e.key = some key) := Nat.find_spec hex
  have hmin : ∀ n, n < d → slotUsed entries ((h + n) % capacity) = true
      ∧ keyAt entries ((h + n) % capacity) ≠ some key := by
    intro n hn
    have hnot := Nat.find_min hex hn
    have hlt : (h + n) % capacity < entries.length := by
      rw [hlen]; exact Nat.mod_lt _ hc
    have he : entries[(h + n) % capacity]? = some entries[(h + n) % capacity] :=
      List.getElem?_eq_getElem hlt
    constructor
    · simp only [slotUsed, he]
      by_contra hu
      exact hnot ⟨_, he, Or.inl (by simpa using hu)⟩
    · simp only [keyAt, he]
      intro hk
      exact hnot ⟨_, he, Or.inr hk⟩
  have hdlt : d < capacity := by
    obtain ⟨i, e, hi, hie, hue⟩ := exists_unused_slot (by omega : entries.countP usedE < entries.length)
    have : d ≤ (i + capacity - h) % capacity := by
      apply Nat.find_min' hex
      refine ⟨e, ?_, Or.inl hue⟩
      rw [probe_reach hh (by omega)]; exact hie
    have := probe_dist_lt (c := capacity) (h := h) (i := i) hc
    omega
  obtain ⟨r, hr, h1, h2⟩ := findEntryLoop_spec key hp d capacity h none hdlt hh hmin hd
  have hfe : findEntry mem entries capacity key = some r := by
    unfold findEntry; unfold home at hhd; rw [hhd]; exact hr
  obtain ⟨e, hde, hstop⟩ := hd
  have hkd : keyAt entries ((h + d) % capacity) = e.key := by simp [keyAt, hde]
  by_cases hkey : e.key = some key
  · have hrd := h1 (hkd.trans hkey)
    refine ⟨r, hfe, ?_, Or.inl ?_⟩
    · rw [hrd]; exact Nat.mod_lt _ hc
    · rw [hrd, hkd, hkey]
  · have hue : usedE e = false := by
      rcases hstop with hu | hk
      · exact hu
      · exact absurd hk hkey
    obtain ⟨_, h3⟩ := h2 (by rw [hkd]; exact hkey)
    obtain ⟨n, hn, hrn, hkr, _⟩ := h3 rfl
    have hrlt : r < capacity := by rw [hrn]; exact Nat.mod_lt _ hc
    refine ⟨r, hfe, hrlt, Or.inr ⟨?_, hkr, ?_⟩⟩
    · -- the key is in no slot: its chain would cross the empty slot
      intro i hki
      have hi : i < capacity := by rw [← hlen]; exact keyAt_lt hki
      have hdle : d ≤ (i + capacity - h) % capacity := by
        apply Nat.find_min' hex
        obtain ⟨e', he', hk'⟩ := keyAt_eq_some hki
        refine ⟨e', ?_, Or.inr hk'⟩
        rw [probe_reach hh hi]; exact he'
      have hdne : d ≠ (i + capacity - h) % capacity := by
        intro heq
        have : (h + d) % capacity = i := by rw [heq]; exact probe_reach hh hi
        rw [this] at hkd
        rw [hkd] at hki
        exact hkey hki
      have := hchain i hi key hki d (by rw [hhd]; omega)
      rw [hhd] at this
      simp [slotUsed, hde, hue] at this
    · intro m hm
      have hnr : n = (r + capacity - h) % capacity :=
        probe_unique hh hrlt (by omega) hrn.symm
      exact (hmin m (by omega)).1

theorem findEntry_found {mem : StringMem} {entries : List Entry} {capacity : Nat}
    (hinv : EntriesInv mem entries capacity) {key : Ptr} {i : Nat}
    (hk : keyAt entries i = some key) : findEntry mem entries capacity key = some i := by
  obtain ⟨r, hr, hrlt, hcase⟩ := findEntry_cases hinv key
  obtain ⟨hlen, _, _, hdist, _⟩ := hinv
  rcases hcase with hkr | ⟨habs, _, _⟩
  · have hi : i < capacity := by rw [← hlen]; exact keyAt_lt hk
    have := hdist r hrlt i hi key hkr hk
    rw [hr, this]
  · exact absurd hk (habs i)

/-! ## The mapping of a table: `lookup` and `tableGet` -/

theorem entry_eta {e : Entry} {k : Option Ptr} (h : e.key = k) :
    e = { key := k, value := e.value } := by
  cases e; cases h; rfl

theorem lookup_eq_none_iff {t : Table} {k : Ptr} :
    lookup t k = none ↔ ∀ i, keyAt t.entries i ≠ some k := by
  unfold lookup
  rw [Option.map_eq_none', List.find?_eq_none]
  constructor
  · intro h i hk
    obtain ⟨e, he, hek⟩ := keyAt_eq_some hk
    exact h e (List.getElem?_mem he) (by simp [hek])
  · intro h e he hk
    obtain ⟨i, hi⟩ := List.getElem?_of_mem he
    apply h i
    simp only [keyAt, hi]
    simpa using hk

theorem lookup_of_slot {t : Table} {k : Ptr} {i : Nat} {e : Entry}
    (hdist : KeysDistinct t.entries t.capacity) (hlen : t.entries.length = t.capacity)
    (he : t.entries[i]? = some e) (hk : e.key = some k) : lookup t k = some e.value := by
  unfold lookup
  cases hf : t.entries.find? (fun e => e.key == some k) with
  | none =>
    rw [List.find?_eq_none] at hf
    exact absurd (by simp [hk]) (hf e (List.getElem?_mem he))
  | some e' =>
    have hk' : e'.key = some k := by simpa using List.find?_some hf
    obtain ⟨j, hj⟩ := List.getElem?_of_mem (List.mem_of_find?_eq_some hf)
    have hki : keyAt t.entries i = some k := by simp [keyAt, he, hk]
    have hkj : keyAt t.entries j = some k := by simp [keyAt, hj, hk']
    have hij := hdist i (by rw [← hlen]; exact keyAt_lt hki) j
      (by rw [← hlen]; exact keyAt_lt hkj) k hki hkj
    subst hij
    rw [he] at hj
    cases hj
    rfl

theorem lookup_eq_some_iff {t : Table} {k : Ptr} {v : Value}
    (hdist : KeysDistinct t.entries t.capacity) (hlen : t.entries.length = t.capacity) :
    lookup t k = some v ↔ ∃ i : Nat, t.entries[i]? = some (Entry.mk (some k) v) := by
  constructor
  · intro h
    unfold lookup at h
    cases hf : t.entries.find? (fun e => e.key == some k) with
    | none => rw [hf] at h; cases h
    | some e' =>
      rw [hf] at h
      have hk' : e'.key = some k := by simpa using List.find?_some hf
      obtain ⟨j, hj⟩ := List.getElem?_of_mem (List.mem_of_find?_eq_some hf)
      refine ⟨j, ?_⟩
      rw [hj]
      simp only [Option.map_some', Option.some.injEq] at h
      rw [← h, ← entry_eta hk']
  · rintro ⟨i, hi⟩
    exact lookup_of_slot hdist hlen hi rfl

theorem keyAt_isSome_used {entries : List Entry} {i : Nat} {k : Ptr}
    (h : keyAt entries i = some k) : 0 < entries.countP usedE := by
  obtain ⟨e, he, hek⟩ := keyAt_eq_some h
  rw [List.countP_pos_iff]
  exact ⟨e, List.getElem?_mem he, by simp [usedE, hek]⟩

theorem TableInv.len {mem : StringMem} {t : Table} (h : TableInv mem t) :
    t.entries.length = t.capacity := by
  rcases h.2 with ⟨h0, he⟩ | h1
  · rw [he, h0]; rfl
  · exact h1.1

theorem TableInv.distinct {mem : StringMem} {t : Table} (h : TableInv mem t) :
    KeysDistinct t.entries t.capacity := by
  rcases h.2 with ⟨h0, _⟩ | h1
  · intro i hi; omega
  · exact h1.2.2.2.1

theorem TableInv.entriesInv {mem : StringMem} {t : Table} (h : TableInv mem t)
    (hc : t.count ≠ 0) : EntriesInv mem t.entries t.capacity := by
  rcases h.2 with ⟨_, he⟩ | h1
  · exfalso; apply hc; rw [h.1, he]; rfl
  · exact h1

/-- On a table that satisfies the invariant `tableGet` returns, and what it
returns is the binding of the key in the table. -/
theorem tableGet_eq_lookup {mem : StringMem} {t : Table} (hinv : TableInv mem t) (k : Ptr) :
    tableGet mem t k = some (lookup t k) := by
  unfold tableGet
  by_cases hc : t.count = 0
  · rw [if_pos hc]
    have : lookup t k = none := by
      rw [lookup_eq_none_iff]
      intro i hk
      have := keyAt_isSome_used hk
      rw [← hinv.1] at this
      omega
    rw [this]
  · rw [if_neg hc]
    have hE := hinv.entriesInv hc
    obtain ⟨r, hr, hrlt, hcase⟩ := findEntry_cases hE k
    have hrl : r < t.entries.length := by rw [hinv.len]; exact hrlt
    have he : t.entries[r]? = some t.entries[r] := List.getElem?_eq_getElem hrl
    rw [hr]
    simp only [he]
    rcases hcase with hkr | ⟨habs, hkn, _⟩
    · have hk : (t.entries[r]).key = some k := by simpa [keyAt, he] using hkr
      rw [hk, lookup_of_slot hinv.distinct hinv.len he hk]
    · have hk : (t.entries[r]).key = none := by simpa [keyAt, he] using hkn
      rw [hk, lookup_eq_none_iff.mpr habs]

/-! ## Writing one slot -/

theorem getElem?_set_lt {entries : List Entry} {r : Nat} (e : Entry) (hr : r < entries.length)
    (j : Nat) : (entries.set r e)[j]? = if j = r then some e else entries[j]? := by
  rw [List.getElem?_set]
  by_cases h : r = j
  · subst h; simp [hr]
  · have : ¬ j = r := fun h' => h h'.symm
    simp [h, this]

theorem keyAt_set {entries : List Entry} {r : Nat} (e : Entry) (hr : r < entries.length)
    (j : Nat) : keyAt (entries.set r e) j = if j = r then e.key else keyAt entries j := by
  unfold keyAt
  rw [List.getElem?_set]
  by_cases h : r = j
  · subst h; simp [hr]
  · have : ¬ j = r := fun h' => h h'.symm
    simp [h, this]

theorem slotUsed_set {entries : List Entry} {r : Nat} (e : Entry) (hr : r < entries.length)
    (j : Nat) : slotUsed (entries.set r e) j = if j = r then usedE e else slotUsed entries j := by
  unfold slotUsed
  rw [List.getElem?_set]
  by_cases h : r = j
  · subst h; simp [hr]
  · have : ¬ j = r := fun h' => h h'.symm
    simp [h, this]

theorem countP_usedE_set {entries : List Entry} {r : Nat} {e : Entry} (e' : Entry)
    (he : entries[r]? = some e) (hu : usedE e' = true) :
    (entries.set r e').countP usedE
      = if usedE e = true then entries.countP usedE else entries.countP usedE + 1 := by
  have hr : r < entries.length := by
    by_contra h
    rw [List.getElem?_eq_none (by omega)] at he
    cases he
  have hre : entries[r] = e := by
    rw [List.getElem?_eq_getElem hr] at he
    exact Option.some.inj he
  rw [List.countP_set usedE entries r e' hr, hre]
  have hle := List.boole_getElem_le_countP usedE entries r hr
  rw [hre] at hle
  by_cases h : usedE e = true
  · simp only [h, hu, if_true] at hle ⊢
    omega
  · simp [h, hu]

/-- Storing `key` in the slot `findEntry` returned keeps the invariant of the
array, provided a slot stays empty. -/
theorem entriesInv_set_key {mem : StringMem} {entries : List Entry} {capacity : Nat}
    (hinv : EntriesInv mem entries capacity) {key : Ptr} {r : Nat} (v : Value)
    (hr : r < capacity)
    (hcase : keyAt entries r = some key ∨
      ((∀ i, keyAt entries i ≠ some key) ∧ keyAt entries r = none ∧
        ∀ n, n < (r + capacity - home mem capacity key) % capacity →
          slotUsed entries ((home mem capacity key + n) % capacity) = true))
    (hroom : (entries.set r { key := some key, value := v }).countP usedE < capacity) :
    EntriesInv mem (entries.set r { key := some key, value := v }) capacity := by
  obtain ⟨hlen, hp, _, hdist, hchain⟩ := hinv
  have hrl : r < entries.length := by omega
  have hmono : ∀ j, slotUsed entries j = true →
      slotUsed (entries.set r { key := some key, value := v }) j = true := by
    intro j hj
    rw [slotUsed_set _ hrl]
    split
    · simp [usedE]
    · exact hj
  have hold : ∀ i k, i ≠ r → keyAt (entries.set r { key := some key, value := v }) i = some k →
      keyAt entries i = some k := by
    intro i k hir hk
    rwa [keyAt_set _ hrl, if_neg hir] at hk
  have hkeyr : ∀ i, keyAt (entries.set r { key := some key, value := v }) i = some key →
      i = r := by
    intro i hk
    by_contra hir
    have hki := hold i key hir hk
    rcases hcase with hkr | ⟨habs, _, _⟩
    · exact hir (hdist i (by rw [← hlen]; exact keyAt_lt hki) r hr key hki hkr)
    · exact habs i hki
  refine ⟨by simp [hlen], hp, hroom, ?_, ?_⟩
  · intro i hi j hj k hki hkj
    by_cases hk : k = key
    · subst hk
      rw [hkeyr i hki, hkeyr j hkj]
    · have hir : i ≠ r := by
        intro h; subst h
        rw [Option.mem_def, keyAt_set _ hrl, if_pos rfl] at hki
        exact hk (Option.some.inj hki).symm
      have hjr : j ≠ r := by
        intro h; subst h
        rw [keyAt_set _ hrl, if_pos rfl] at hkj
        exact hk (Option.some.inj hkj).symm
      exact hdist i hi j hj k (hold i k hir hki) (hold j k hjr hkj)
  · intro i hi k hki n hn
    apply hmono
    by_cases hir : i = r
    · subst hir
      have hk : k = key := by
        rw [Option.mem_def, keyAt_set _ hrl, if_pos rfl] at hki
        exact (Option.some.inj hki).symm
      subst hk
      rcases hcase with hkr | ⟨_, _, hpre⟩
      · exact hchain i hi k hkr n hn
      · exact hpre n hn
    · exact hchain i hi k (hold i k hir hki) n hn

/-- Turning the slot of a key into a tombstone keeps the invariant. -/
theorem entriesInv_set_tombstone {mem : StringMem} {entries : List Entry} {capacity : Nat}
    (hinv : EntriesInv mem entries capacity) {key : Ptr} {r : Nat}
    (hk : keyAt entries r = some key) :
    EntriesInv mem (entries.set r { key := none, value := Value.bool true }) capacity
      ∧ (entries.set r { key := none, value := Value.bool true }).countP usedE
          = entries.countP usedE := by
  obtain ⟨hlen, hp, hroom, hdist, hchain⟩ := hinv
  have hrl : r < entries.length := keyAt_lt hk
  obtain ⟨e, he, hek⟩ := keyAt_eq_some hk
  have hcount : (entries.set r { key := none, value := Value.bool true }).countP usedE
      = entries.countP usedE := by
    rw [countP_usedE_set _ he (by simp [usedE, IS_NIL])]
    simp [usedE, hek]
  have hused : ∀ j, slotUsed (entries.set r { key := none, value := Value.bool true }) j
      = slotUsed entries j := by
    intro j
    rw [slotUsed_set _ hrl]
    split
    · next h => subst h; simp [slotUsed, he, usedE, hek, IS_NIL]
    · rfl
  have hold : ∀ i k, keyAt (entries.set r { key := none, value := Value.bool true }) i = some k →
      keyAt entries i = some k := by
    intro i k hki
    rw [keyAt_set _ hrl] at hki
    split at hki
    · cases hki
    · exact hki
  refine ⟨⟨by simp [hlen], hp, by rw [hcount]; exact hroom, ?_, ?_⟩, hcount⟩
  · intro i hi j hj k hki hkj
    exact hdist i hi j hj k (hold i k hki) (hold j k hkj)
  · intro i hi k hki n hn
    rw [hused]
    exact hchain i hi k (hold i k hki) n hn

/-! ## Counted loops -/

/-- Invariant rule for a counted loop whose body never fails under the invariant. -/
theorem forLoop_inv {σ : Type} (body : Nat → σ → Option σ) (P : Nat → σ → Prop) :
    ∀ (n : Nat) (s : σ), P 0 s →
      (∀ i s, i < n → P i s → ∃ s', body i s = some s' ∧ P (i + 1) s') →
      ∃ s', forLoop body n s = some s' ∧ P n s' := by
  intro n
  induction n with
  | zero => intro s h0 _; exact ⟨s, rfl, h0⟩
  | succ n ih =>
    intro s h0 hstep
    obtain ⟨s1, hs1, hP1⟩ := ih s h0 (fun i s hi hP => hstep i s (by omega) hP)
    obtain ⟨s2, hs2, hP2⟩ := hstep n s1 (by omega) hP1
    exact ⟨s2, by simp [forLoop, hs1, hs2], hP2⟩

/-! ## `adjustCapacity` -/

theorem entriesInv_replicate (mem : StringMem) {capacity : Nat}
    (hp : ∃ m, m < capacity ∧ capacity = 2 ^ m) :
    EntriesInv mem (List.replicate capacity { key := none, value := Value.nil }) capacity := by
  have hc := pow2_pos hp
  have hk : ∀ i, keyAt (List.replicate capacity ({ key := none, value := Value.nil } : Entry)) i
      = none := by
    intro i
    by_cases h : i < capacity <;> simp [keyAt, List.getElem?_replicate, h]
  refine ⟨by simp, hp, ?_, ?_, ?_⟩
  · have : (List.replicate capacity ({ key := none, value := Value.nil } : Entry)).countP usedE
        = 0 := by
      rw [List.countP_eq_zero]
      intro a ha
      rw [List.mem_replicate] at ha
      rw [ha.2]
      simp [usedE, IS_NIL]
    omega
  · intro i _ j _ k hki
    rw [Option.mem_def, hk] at hki
    cases hki
  · intro i _ k hki
    rw [Option.mem_def, hk] at hki
    cases hki

theorem occupied_take_le (entries : List Entry) (i : Nat) :
    occupied (entries.take i) ≤ occupied entries :=
  List.Sublist.countP_le _ (List.take_sublist i entries)

theorem occupied_take_succ {entries : List Entry} {i : Nat} {e : Entry}
    (he : entries[i]? = some e) :
    occupied (entries.take (i + 1))
      = occupied (entries.take i) + (if e.key.isSome then 1 else 0) := by
  unfold occupied
  rw [List.take_succ, he, List.countP_append]
  simp [List.countP_cons]

theorem adjust_step {mem : StringMem} {old : List Entry} {capacity : Nat}
    (hdist : KeysDistinct old old.length)
    (hroom : occupied old < capacity) (i : Nat) (st : List Entry × Nat)
    (hi : i < old.length) (hP : AdjustInv mem old capacity i st) :
    ∃ st', (match old[i]? with
      | none => none
      | some entry =>
        match entry.key with
        | none => some st
        | some k =>
          match findEntry mem st.1 capacity k with
          | none => none
          | some dest =>
            some (st.1.set dest { key := some k, value := entry.value }, st.2 + 1)) = some st'
      ∧ AdjustInv mem old capacity (i + 1) st' := by
  obtain ⟨hE, hcnt, hocc, hnt, hcont⟩ := hP
  have he : old[i]? = some old[i] := List.getElem?_eq_getElem hi
  generalize old[i] = e at he
  rw [he]
  have hocc1 := occupied_take_succ he
  cases hk : e.key with
  | none =>
    refine ⟨st, by simp [hk], hE, hcnt, ?_, hnt, ?_⟩
    · rw [hocc1, hk, hocc]; simp
    · intro k v
      rw [hcont k v]
      constructor
      · rintro ⟨j, hj, hje⟩; exact ⟨j, by omega, hje⟩
      · rintro ⟨j, hj, hje⟩
        refine ⟨j, ?_, hje⟩
        by_contra hji
        have : j = i := by omega
        subst this
        rw [he] at hje
        cases hje
        cases hk
  | some k =>
    -- the key is not yet in the new array
    have habs : ∀ r, keyAt st.1 r ≠ some k := by
      intro r hkr
      obtain ⟨e', he', hek'⟩ := keyAt_eq_some hkr
      have : ∃ j : Nat, st.1[j]? = some (Entry.mk (some k) e'.value) :=
        ⟨r, by rw [he', ← entry_eta hek']⟩
      obtain ⟨j, hj, hje⟩ := (hcont k e'.value).mp this
      have hkj : keyAt old j = some k := by simp [keyAt, hje]
      have hki : keyAt old i = some k := by simp [keyAt, he, hk]
      have := hdist j (by omega) i hi k hkj hki
      omega
    obtain ⟨r, hr, hrlt, hcase⟩ := findEntry_cases hE k
    have hrl : r < st.1.length := by rw [hE.1]; exact hrlt
    have her : st.1[r]? = some st.1[r] := List.getElem?_eq_getElem hrl
    have hkr : keyAt st.1 r = none := by
      rcases hcase with h | ⟨_, h, _⟩
      · exact absurd h (habs r)
      · exact h
    have hkr' : (st.1[r]).key = none := by simpa [keyAt, her] using hkr
    have hunused : usedE st.1[r] = false := by
      simp [usedE, hkr', hnt r _ her hkr', IS_NIL]
    have hcount : (st.1.set r { key := some k, value := e.value }).countP usedE = st.2 + 1 := by
      rw [countP_usedE_set _ her (by simp [usedE]), hunused, hcnt]
      simp
    have hle := occupied_take_le old (i + 1)
    have hocc2 : st.2 + 1 = occupied (old.take (i + 1)) := by
      rw [hocc1, hk, hocc]; simp
    refine ⟨(st.1.set r { key := some k, value := e.value }, st.2 + 1), by simp [hk, hr], ?_⟩
    refine ⟨entriesInv_set_key hE e.value hrlt hcase (by rw [hcount]; omega), hcount, hocc2,
      ?_, ?_⟩
    · intro j e' hj hkn
      simp only at hj
      rw [getElem?_set_lt _ hrl] at hj
      split at hj
      · cases hj; cases hkn
      · exact hnt j e' hj hkn
    · intro k' v'
      simp only
      constructor
      · rintro ⟨j, hj⟩
        rw [getElem?_set_lt _ hrl] at hj
        split at hj
        · cases hj
          refine ⟨i, by omega, ?_⟩
          rw [he, ← entry_eta hk]
        · obtain ⟨j', hj', hje'⟩ := (hcont k' v').mp ⟨j, hj⟩
          exact ⟨j', by omega, hje'⟩
      · rintro ⟨j, hj, hje⟩
        by_cases hji : j = i
        · subst hji
          rw [he] at hje
          refine ⟨r, ?_⟩
          rw [getElem?_set_lt _ hrl, if_pos rfl]
          have he' := Option.some.inj hje
          rw [he'] at hk
          cases hk
          rw [he']
        · obtain ⟨j', hj'⟩ := (hcont k' v').mpr ⟨j, by omega, hje⟩
          refine ⟨j', ?_⟩
          have : j' ≠ r := by
            intro h; subst h
            rw [her] at hj'
            have := congrArg Entry.key (Option.some.inj hj')
            rw [hkr'] at this
            cases this
          rw [getElem?_set_lt _ hrl, if_neg this]
          exact hj'

/-- The function `adjustCapacity` on a table whose keys are distinct, for a new
capacity that is a power of two above the number of occupied slots: it returns a
table of that capacity which satisfies the invariant, has no tombstone, counts
its occupied slots and binds every key as before. -/
theorem adjustCapacityLoops_spec (mem : StringMem) {t : Table} {capacity : Nat}
    (hlen : t.entries.length = t.capacity)
    (hdist : KeysDistinct t.entries t.capacity)
    (hp : ∃ m, m < capacity ∧ capacity = 2 ^ m)
    (hroom : occupied t.entries < capacity) :
    ∃ t', adjustCapacityLoops mem t capacity = some t' ∧ t'.capacity = capacity
      ∧ TableInv mem t' ∧ EntriesInv mem t'.entries capacity
      ∧ t'.count = occupied t.entries
      ∧ (∀ (j : Nat) (e : Entry), t'.entries[j]? = some e → e.key = none → e.value = Value.nil)
      ∧ ∀ k, lookup t' k = lookup t k := by
  have hdist' : KeysDistinct t.entries t.entries.length := by rw [hlen]; exact hdist
  have h0 : AdjustInv mem t.entries capacity 0
      (List.replicate capacity { key := none, value := Value.nil }, 0) := by
    have hE := entriesInv_replicate mem hp
    refine ⟨hE, ?_, by simp [occupied], ?_, ?_⟩
    · simp only [List.countP_eq_zero]
      intro a ha
      rw [List.mem_replicate] at ha
      rw [ha.2]; simp [usedE, IS_NIL]
    · intro j e hj _
      have := List.getElem?_mem hj
      rw [List.mem_replicate] at this
      rw [this.2]
    · intro k v
      constructor
      · rintro ⟨j, hj⟩
        have := List.getElem?_mem hj
        rw [List.mem_replicate] at this
        cases this.2
      · rintro ⟨j, hj, _⟩; omega
  obtain ⟨st, hst, hE, hcnt, hocc, hnt, hcont⟩ :=
    forLoop_inv _ (AdjustInv mem t.entries capacity) t.capacity _ h0
      (fun i s hi hP => adjust_step hdist' hroom i s (by omega) hP)
  refine ⟨{ count := st.2, capacity := capacity, entries := st.1 }, ?_, rfl,
    ⟨hcnt.symm, Or.inr hE⟩, hE, ?_, hnt, ?_⟩
  · unfold adjustCapacityLoops
    rw [hst]
  · simp only
    rw [hocc, ← hlen, List.take_length]
  · intro k
    apply Option.ext
    intro v
    rw [Option.mem_def, Option.mem_def]
    rw [lookup_eq_some_iff (t := { count := st.2, capacity := capacity, entries := st.1 })
      hE.2.2.2.1 hE.1, lookup_eq_some_iff hdist hlen]
    simp only
    rw [hcont k v]
    constructor
    · rintro ⟨j, _, hj⟩; exact ⟨j, hj⟩
    · rintro ⟨j, hj⟩
      refine ⟨j, ?_, hj⟩
      have hk : keyAt t.entries j = some k := by simp [keyAt, hj]
      rw [← hlen]; exact keyAt_lt hk

/-! ## `tablePut` and `tableDelete` -/

theorem occupied_le_used (entries : List Entry) : occupied entries ≤ entries.countP usedE := by
  unfold occupied
  apply List.countP_mono_left
  intro e _ he
  simp [usedE, he]

theorem grow_pow2 {capacity : Nat}
    (h : capacity = 0 ∨ ∃ m, m < capacity ∧ capacity = 2 ^ m) :
    ∃ m, m < GROW_CAPACITY capacity ∧ GROW_CAPACITY capacity = 2 ^ m := by
  unfold GROW_CAPACITY
  split
  · exact ⟨3, by omega, by norm_num⟩
  · next hge =>
    rcases h with h0 | ⟨m, hm, hc⟩
    · omega
    · exact ⟨m + 1, by omega, by rw [hc, pow_succ]⟩

theorem lookup_set_key {t : Table} (t' : Table) {key : Ptr} {v : Value} {r : Nat}
    (hlen : t.entries.length = t.capacity) (hdist : KeysDistinct t.entries t.capacity)
    (hdist' : KeysDistinct t'.entries t'.capacity) (hcap : t'.capacity = t.capacity)
    (hent : t'.entries = t.entries.set r { key := some key, value := v })
    (hr : r < t.capacity)
    (hcase : keyAt t.entries r = some key ∨
      ((∀ i, keyAt t.entries i ≠ some key) ∧ keyAt t.entries r = none))
    (k' : Ptr) : lookup t' k' = if k' = key then some v else lookup t k' := by
  have hrl : r < t.entries.length := by omega
  have hlen' : t'.entries.length = t'.capacity := by rw [hent, hcap]; simpa using hlen
  have hkr : keyAt t.entries r ≠ some k' ∨ k' = key := by
    rcases hcase with h | ⟨_, h⟩
    · by_cases hk : k' = key
      · exact Or.inr hk
      · left; rw [h]; intro h'; exact hk (Option.some.inj h').symm
    · left; rw [h]; intro h'; cases h'
  apply Option.ext
  intro v'
  rw [Option.mem_def, Option.mem_def, lookup_eq_some_iff hdist' hlen', hent]
  by_cases hk : k' = key
  · subst hk
    rw [if_pos rfl]
    constructor
    · rintro ⟨j, hj⟩
      rw [getElem?_set_lt _ hrl] at hj
      split at hj
      · cases hj; rfl
      · exfalso
        have hkj : keyAt t.entries j = some k' := by simp [keyAt, hj]
        rcases hcase with h | ⟨h, _⟩
        · have := hdist j (by rw [← hlen]; exact keyAt_lt hkj) r hr k' hkj h
          contradiction
        · exact h j hkj
    · intro h
      cases h
      exact ⟨r, by rw [getElem?_set_lt _ hrl, if_pos rfl]⟩
  · rw [if_neg hk, lookup_eq_some_iff hdist hlen]
    constructor
    · rintro ⟨j, hj⟩
      rw [getElem?_set_lt _ hrl] at hj
      split at hj
      · cases hj; exact absurd rfl hk
      · exact ⟨j, hj⟩
    · rintro ⟨j, hj⟩
      refine ⟨j, ?_⟩
      have hjr : j ≠ r := by
        intro h; subst h
        rcases hkr with h | h
        · apply h; simp [keyAt, hj]
        · exact hk h
      rw [getElem?_set_lt _ hrl, if_neg hjr]
      exact hj

theorem lookup_set_tombstone {t : Table} (t' : Table) {key : Ptr} {r : Nat}
    (hlen : t.entries.length = t.capacity) (hdist : KeysDistinct t.entries t.capacity)
    (hdist' : KeysDistinct t'.entries t'.capacity) (hcap : t'.capacity = t.capacity)
    (hent : t'.entries = t.entries.set r { key := none, value := Value.bool true })
    (hk : keyAt t.entries r = some key)
    (k' : Ptr) : lookup t' k' = if k' = key then none else lookup t k' := by
  have hrl : r < t.entries.length := keyAt_lt hk
  have hlen' : t'.entries.length = t'.capacity := by rw [hent, hcap]; simpa using hlen
  apply Option.ext
  intro v'
  rw [Option.mem_def, Option.mem_def, lookup_eq_some_iff hdist' hlen', hent]
  by_cases hkk : k' = key
  · subst hkk
    rw [if_pos rfl]
    constructor
    · rintro ⟨j, hj⟩
      rw [getElem?_set_lt _ hrl] at hj
      split at hj
      · cases hj
      · exfalso
        have hkj : keyAt t.entries j = some k' := by simp [keyAt, hj]
        have := hdist j (by rw [← hlen]; exact keyAt_lt hkj) r (by omega) k' hkj hk
        contradiction
    · intro h; cases h
  · rw [if_neg hkk, lookup_eq_some_iff hdist hlen]
    constructor
    · rintro ⟨j, hj⟩
      rw [getElem?_set_lt _ hrl] at hj
      split at hj
      · cases hj
      · exact ⟨j, hj⟩
    · rintro ⟨j, hj⟩
      refine ⟨j, ?_⟩
      have hjr : j ≠ r := by
        intro h; subst h
        have : keyAt t.entries j = some k' := by simp [keyAt, hj]
        rw [hk] at this
        exact hkk (Option.some.inj this).symm
      rw [getElem?_set_lt _ hrl, if_neg hjr]
      exact hj

/-- The first step of `tablePut`: after the growth test the table has room
for one more entry and binds every key as before. -/
theorem tablePut_grow {mem : StringMem} {t : Table} (hwf : WellFormed mem t) :
    ∃ t1, (if 4 * (t.count + 1) > 3 * t.capacity then
        adjustCapacityLoops mem t (GROW_CAPACITY t.capacity) else some t) = some t1
      ∧ TableInv mem t1 ∧ EntriesInv mem t1.entries t1.capacity
      ∧ 4 * (t1.count + 1) ≤ 3 * t1.capacity
      ∧ (t1.capacity = t.capacity ∨ t1.capacity = GROW_CAPACITY t.capacity)
      ∧ ∀ k, lookup t1 k = lookup t k := by
  obtain ⟨hinv, hload⟩ := hwf
  by_cases hg : 4 * (t.count + 1) > 3 * t.capacity
  · rw [if_pos hg]
    have hpow : t.capacity = 0 ∨ ∃ m, m < t.capacity ∧ t.capacity = 2 ^ m := by
      rcases hinv.2 with ⟨h0, _⟩ | h1
      · exact Or.inl h0
      · exact Or.inr h1.2.1
    have hocc := occupied_le_used t.entries
    rw [← hinv.1] at hocc
    have hroom : occupied t.entries < GROW_CAPACITY t.capacity := by
      unfold GROW_CAPACITY; split <;> omega
    obtain ⟨t1, ht1, hcap, hinv1, hE1, hcount, _, hlook⟩ :=
      adjustCapacityLoops_spec mem hinv.len hinv.distinct (grow_pow2 hpow) hroom
    refine ⟨t1, ht1, hinv1, by rw [hcap]; exact hE1, ?_, Or.inr hcap, hlook⟩
    rw [hcap, hcount]
    unfold GROW_CAPACITY; split <;> omega
  · rw [if_neg hg]
    refine ⟨t, rfl, hinv, ?_, by omega, Or.inl rfl, fun _ => rfl⟩
    rcases hinv.2 with ⟨h0, _⟩ | h1
    · omega
    · exact h1

/-- The function `tablePut` on a well-formed table: it returns, the table it
leaves is well formed with a non-zero capacity, the flag tells whether the key
was unbound before, and afterwards the key is bound to the value while every
other key is bound as before. -/
theorem tablePut_spec {mem : StringMem} {t : Table} (hwf : WellFormed mem t)
    (key : Ptr) (v : Value) :
    ∃ t' b, tablePut mem t key v = some (t', b) ∧ WellFormed mem t'
      ∧ EntriesInv mem t'.entries t'.capacity
      ∧ (t'.capacity = t.capacity ∨ t'.capacity = GROW_CAPACITY t.capacity)
      ∧ (b = true ↔ lookup t key = none)
      ∧ ∀ k', lookup t' k' = if k' = key then some v else lookup t k' := by
  obtain ⟨t1, ht1, hinv1, hE1, hload1, hcap1, hlook1⟩ := tablePut_grow hwf
  obtain ⟨r, hr, hrlt, hcase⟩ := findEntry_cases hE1 key
  have hrl : r < t1.entries.length := by rw [hE1.1]; exact hrlt
  have her : t1.entries[r]? = some t1.entries[r] := List.getElem?_eq_getElem hrl
  generalize t1.entries[r] = e at her
  have hkr : keyAt t1.entries r = e.key := by simp [keyAt, her]
  have hput : tablePut mem t key v = some
      ({ count := if e.key.isNone && IS_NIL e.value then t1.count + 1 else t1.count,
         capacity := t1.capacity,
         entries := t1.entries.set r { key := some key, value := v } }, e.key.isNone) := by
    unfold tablePut
    rw [ht1]
    simp only [hr, her]
  have hcount : (t1.entries.set r { key := some key, value := v }).countP usedE
      = if e.key.isNone && IS_NIL e.value then t1.count + 1 else t1.count := by
    rw [countP_usedE_set _ her (by simp [usedE]), ← hinv1.1]
    cases hek : e.key <;> cases hnil : IS_NIL e.value <;> simp [usedE, hek, hnil]
  have hroom : (t1.entries.set r { key := some key, value := v }).countP usedE
      < t1.capacity := by
    rw [hcount]; split <;> omega
  have hE' := entriesInv_set_key hE1 v hrlt hcase hroom
  have hcase' : keyAt t1.entries r = some key ∨
      ((∀ i, keyAt t1.entries i ≠ some key) ∧ keyAt t1.entries r = none) := by
    rcases hcase with h | ⟨h1, h2, _⟩
    · exact Or.inl h
    · exact Or.inr ⟨h1, h2⟩
  refine ⟨_, _, hput, ⟨⟨hcount.symm, Or.inr hE'⟩, ?_⟩, hE', hcap1, ?_, ?_⟩
  · simp only; split <;> omega
  · rw [← hlook1]
    rcases hcase' with h | ⟨h1, h2⟩
    · rw [hkr] at h
      have hl := lookup_of_slot hinv1.distinct hinv1.len her h
      rw [h, hl]; simp
    · rw [hkr] at h2
      rw [h2, lookup_eq_none_iff.mpr h1]; simp
  · intro k'
    rw [← hlook1]
    exact lookup_set_key { count := _, capacity := t1.capacity, entries := _ }
      hinv1.len hinv1.distinct hE'.2.2.2.1 rfl rfl hrlt hcase' k'

/-- The function `tableDelete` on a table that satisfies the invariant: it
returns, the flag tells whether the key was bound, the table keeps the
invariant, its count and its capacity, it is left as it was when the flag is
false, and afterwards the key is unbound while every other key is bound as
before. -/
theorem tableDelete_spec {mem : StringMem} {t : Table} (hinv : TableInv mem t) (key : Ptr) :
    ∃ t' b, tableDelete mem t key = some (t', b) ∧ TableInv mem t'
      ∧ t'.count = t.count ∧ t'.capacity = t.capacity
      ∧ (b = true ↔ lookup t key ≠ none)
      ∧ (b = false → t' = t)
      ∧ ∀ k', lookup t' k' = if k' = key then none else lookup t k' := by
  unfold tableDelete
  by_cases hc : t.count = 0
  · rw [if_pos hc]
    have hnone : lookup t key = none := by
      rw [lookup_eq_none_iff]
      intro i hk
      have := keyAt_isSome_used hk
      rw [← hinv.1] at this
      omega
    refine ⟨t, false, rfl, hinv, rfl, rfl, by simp [hnone], fun _ => rfl, ?_⟩
    intro k'
    split
    · next h => rw [h, hnone]
    · rfl
  · rw [if_neg hc]
    have hE := hinv.entriesInv hc
    obtain ⟨r, hr, hrlt, hcase⟩ := findEntry_cases hE key
    have hrl : r < t.entries.length := by rw [hinv.len]; exact hrlt
    have her : t.entries[r]? = some t.entries[r] := List.getElem?_eq_getElem hrl
    generalize t.entries[r] = e at her
    have hkr : keyAt t.entries r = e.key := by simp [keyAt, her]
    rw [hr]
    simp only [her]
    rcases hcase with hk | ⟨habs, hkn, _⟩
    · rw [hkr] at hk
      rw [hk]
      have hk' : keyAt t.entries r = some key := by rw [hkr, hk]
      obtain ⟨hE', hcount⟩ := entriesInv_set_tombstone hE hk'
      have hl := lookup_of_slot hinv.distinct hinv.len her hk
      refine ⟨_, _, rfl, ⟨?_, Or.inr hE'⟩, rfl, rfl, by simp [hl], by simp, ?_⟩
      · simp only; rw [hcount]; exact hinv.1
      · intro k'
        exact lookup_set_tombstone { t with entries := _ }
          hinv.len hinv.distinct hE'.2.2.2.1 rfl rfl hk' k'
    · rw [hkr] at hkn
      rw [hkn]
      have hnone := lookup_eq_none_iff.mpr habs
      refine ⟨t, false, rfl, hinv, rfl, rfl, by simp [hnone], fun _ => rfl, ?_⟩
      intro k'
      split
      · next h => rw [h, hnone]
      · rfl

/-! ## Sequences of `tablePut` and `tableDelete` -/

theorem wellFormed_initTable (mem : StringMem) : WellFormed mem initTable :=
  ⟨⟨rfl, Or.inl ⟨rfl, rfl⟩⟩, by simp [initTable]⟩

theorem lookup_initTable (k : Ptr) : lookup initTable k = none := rfl

/-- A run of operations on a well-formed table returns a well-formed table in
which each key is bound by the most recent operation on it, or as at the start
when no operation was about it. -/
theorem runOps_spec (mem : StringMem) :
    ∀ (ops : List TableOp) (t : Table), WellFormed mem t →
      ∃ t', runOps mem ops t = some t' ∧ WellFormed mem t' ∧
        ∀ k, lookup t' k = match lastOpOn k ops with
          | some (TableOp.put _ v) => some v
          | some (TableOp.delete _) => none
          | none => lookup t k := by
  intro ops
  induction ops with
  | nil => intro t hwf; exact ⟨t, rfl, hwf, fun _ => rfl⟩
  | cons op ops ih =>
    intro t hwf
    have hstep : ∃ t1, applyOp mem t op = some t1 ∧ WellFormed mem t1 ∧
        ∀ k, lookup t1 k = if k = op.key then
            (match op with
              | TableOp.put _ v => some v
              | TableOp.delete _ => none)
          else lookup t k := by
      cases op with
      | put key v =>
        obtain ⟨t1, b, h1, hwf1, _, _, _, hl⟩ := tablePut_spec hwf key v
        exact ⟨t1, by simp [applyOp, h1], hwf1, hl⟩
      | delete key =>
        obtain ⟨t1, b, h1, hinv1, hcnt, hcap, _, _, hl⟩ := tableDelete_spec hwf.1 key
        refine ⟨t1, by simp [applyOp, h1], ⟨hinv1, ?_⟩, hl⟩
        rw [hcnt, hcap]; exact hwf.2
    obtain ⟨t1, h1, hwf1, hl1⟩ := hstep
    obtain ⟨t', h', hwf', hl'⟩ := ih t1 hwf1
    refine ⟨t', by simp [runOps, h1, h'], hwf', ?_⟩
    intro k
    rw [hl' k]
    simp only [lastOpOn]
    cases hlast : lastOpOn k ops with
    | some o => cases o <;> rfl
    | none =>
      simp only
      rw [hl1 k]
      by_cases hk : op.key = k
      · rw [if_pos hk, if_pos hk.symm]
        cases op <;> rfl
      · rw [if_neg hk, if_neg (fun h => hk h.symm)]

/-- C1. After any sequence of `tablePut` and `tableDelete` on a table from
`initTable`, `tableGet` of a key returns, and it yields the value of the most
recent `tablePut` of that key when no `tableDelete` of it came after, and
returns false when the key was never put or was deleted last; tombstones of
other keys do not hide it. -/
theorem tableGet_after_puts_and_deletes (mem : StringMem) (ops : List TableOp) (k : Ptr) :
    ∃ t, runOps mem ops initTable = some t ∧ tableGet mem t k = some (specGet ops k) := by
  obtain ⟨t, ht, hwf, hl⟩ := runOps_spec mem ops initTable (wellFormed_initTable mem)
  refine ⟨t, ht, ?_⟩
  rw [tableGet_eq_lookup hwf.1, hl k, lookup_initTable]
  unfold specGet
  cases lastOpOn k ops with
  | none => rfl
  | some o => cases o <;> rfl

/-- C3. On a well-formed table `tablePut` returns, and the flag it returns is
true exactly when `tableGet` of the key would have returned false just before,
whichever kind of slot (empty or tombstone) the new key takes. -/
theorem tablePut_returns_isNewKey (mem : StringMem) (t : Table) (key : Ptr) (v : Value)
    (hwf : WellFormed mem t) :
    ∃ t' b, tablePut mem t key v = some (t', b)
      ∧ (b = true ↔ tableGet mem t key = some none) := by
  obtain ⟨t', b, h, _, _, _, hb, _⟩ := tablePut_spec hwf key v
  refine ⟨t', b, h, ?_⟩
  rw [tableGet_eq_lookup hwf.1, hb]
  constructor
  · intro h; rw [h]
  · intro h; exact Option.some.inj h

/-- C4. On a well-formed table `tableDelete` returns, the flag it returns is
true exactly when `tableGet` of the key would have returned true just before,
and when the flag is false the table is left as it was. -/
theorem tableDelete_returns_existed (mem : StringMem) (t : Table) (key : Ptr)
    (hwf : WellFormed mem t) :
    ∃ t' b, tableDelete mem t key = some (t', b)
      ∧ (b = true ↔ ∃ v, tableGet mem t key = some (some v))
      ∧ (b = false → t' = t) := by
  obtain ⟨t', b, h, _, _, _, hb, hsame, _⟩ := tableDelete_spec hwf.1 key
  refine ⟨t', b, h, ?_, hsame⟩
  rw [tableGet_eq_lookup hwf.1, hb]
  cases lookup t key with
  | none => simp
  | some v => simp

theorem wellFormed_exampleTable : WellFormed exampleMem exampleTable := by decide

/-- C3, at an instance: putting key 17, whose probe starts at the tombstone in
slot 1 of the example table. -/
theorem tablePut_returns_isNewKey_witness :
    WellFormed exampleMem exampleTable
      ∧ ∃ t' b, tablePut exampleMem exampleTable 17 (Value.number 3) = some (t', b)
        ∧ (b = true ↔ tableGet exampleMem exampleTable 17 = some none) :=
  ⟨by decide,
    tablePut_returns_isNewKey exampleMem exampleTable 17 (Value.number 3) (by decide)⟩

/-- C4, at an instance: deleting key 9 of the example table. -/
theorem tableDelete_returns_existed_witness :
    WellFormed exampleMem exampleTable
      ∧ ∃ t' b, tableDelete exampleMem exampleTable 9 = some (t', b)
        ∧ (b = true ↔ ∃ v, tableGet exampleMem exampleTable 9 = some (some v))
        ∧ (b = false → t' = exampleTable) :=
  ⟨by decide, tableDelete_returns_existed exampleMem exampleTable 9 (by decide)⟩

/-! ## `tableAddAll` -/

/-- The function `tableAddAll` from a table whose array has `capacity` slots
into a well-formed table: it returns, leaves the source as it was and the
target well formed; when the keys of the source are distinct, every key of the
source is bound in the target as in the source and every other key as before. -/
theorem tableAddAll_spec (mem : StringMem) {src dst : Table}
    (hlen : src.entries.length = src.capacity) (hwf : WellFormed mem dst) :
    ∃ d', tableAddAll mem src dst = some (src, d') ∧ WellFormed mem d'
      ∧ (dst.capacity ≠ 0 → d'.capacity ≠ 0)
      ∧ (KeysDistinct src.entries src.capacity → ∀ k,
          (∀ j, keyAt src.entries j = some k → lookup d' k = lookup src k)
          ∧ ((∀ j, keyAt src.entries j ≠ some k) → lookup d' k = lookup dst k)) := by
  let P : Nat → Table → Prop := fun i d =>
    WellFormed mem d ∧ (dst.capacity ≠ 0 → d.capacity ≠ 0)
      ∧ (KeysDistinct src.entries src.capacity → ∀ k,
          (∀ j, j < i → keyAt src.entries j = some k → lookup d k = lookup src k)
          ∧ ((∀ j, j < i → keyAt src.entries j ≠ some k) → lookup d k = lookup dst k))
  have h0 : P 0 dst :=
    ⟨hwf, fun h => h, fun _ k => ⟨fun j hj => by omega, fun _ => rfl⟩⟩
  obtain ⟨d', hd', hwf', hcap', hl'⟩ := forLoop_inv (tableAddAllBody mem src) P
      src.capacity dst h0 (by
    intro i d hi ⟨hwfd, hcapd, hld⟩
    have he : src.entries[i]? = some src.entries[i] :=
      List.getElem?_eq_getElem (by omega)
    generalize src.entries[i] = e at he
    have hki : keyAt src.entries i = e.key := by simp [keyAt, he]
    unfold tableAddAllBody
    rw [he]
    cases hk : e.key with
    | none =>
      refine ⟨d, by simp [hk], hwfd, hcapd, fun hdist k => ⟨?_, ?_⟩⟩
      · intro j hj hkj
        have : j ≠ i := by
          intro h; subst h; rw [hki, hk] at hkj; cases hkj
        exact (hld hdist k).1 j (by omega) hkj
      · intro h
        exact (hld hdist k).2 (fun j hj => h j (by omega))
    | some ki =>
      obtain ⟨d1, b, h1, hwf1, hE1, _, _, hl1⟩ := tablePut_spec hwfd ki e.value
      refine ⟨d1, by simp [hk, h1], hwf1, fun _ => Nat.pos_iff_ne_zero.mp (pow2_pos hE1.2.1),
        fun hdist k => ⟨?_, ?_⟩⟩
      · intro j hj hkj
        rw [hl1 k]
        by_cases hkk : k = ki
        · subst hkk
          rw [if_pos rfl, lookup_of_slot hdist hlen he hk]
        · rw [if_neg hkk]
          have : j ≠ i := by
            intro h; subst h; rw [hki, hk] at hkj; exact hkk (Option.some.inj hkj).symm
          exact (hld hdist k).1 j (by omega) hkj
      · intro h
        have hkk : k ≠ ki := by
          intro hkk; subst hkk
          exact h i (by omega) (by rw [hki, hk])
        rw [hl1 k, if_neg hkk]
        exact (hld hdist k).2 (fun j hj => h j (by omega)))
  refine ⟨d', by simp [tableAddAll, hd'], hwf', hcap', fun hdist k => ⟨?_, ?_⟩⟩
  · intro j hkj
    exact (hl' hdist k).1 j (by rw [← hlen]; exact keyAt_lt hkj) hkj
  · intro h
    exact (hl' hdist k).2 (fun j _ => h j)

/-! ## Capacity and load factor along a run -/

theorem runSteps_spec (mem : StringMem) :
    ∀ (steps : List TableStep) (t : Table), WellFormed mem t →
      (∀ src, TableStep.addAll src ∈ steps → src.entries.length = src.capacity) →
      ∃ t', runSteps mem steps t = some t' ∧ WellFormed mem t'
        ∧ ((t.capacity ≠ 0 ∨ ∃ k v, TableStep.put k v ∈ steps) → t'.capacity ≠ 0) := by
  intro steps
  induction steps with
  | nil =>
    intro t hwf _
    refine ⟨t, rfl, hwf, ?_⟩
    rintro (h | ⟨k, v, h⟩)
    · exact h
    · cases h
  | cons st sts ih =>
    intro t hwf hsrc
    have hstep : ∃ t1, applyStep mem t st = some t1 ∧ WellFormed mem t1
        ∧ ((t.capacity ≠ 0 ∨ ∃ k v, st = TableStep.put k v) → t1.capacity ≠ 0) := by
      cases st with
      | put key v =>
        obtain ⟨t1, b, h1, hwf1, hE1, _⟩ := tablePut_spec hwf key v
        exact ⟨t1, by simp [applyStep, h1], hwf1,
          fun _ => Nat.pos_iff_ne_zero.mp (pow2_pos hE1.2.1)⟩
      | delete key =>
        obtain ⟨t1, b, h1, hinv1, hcnt, hcap, _⟩ := tableDelete_spec hwf.1 key
        refine ⟨t1, by simp [applyStep, h1], ⟨hinv1, by rw [hcnt, hcap]; exact hwf.2⟩, ?_⟩
        rintro (h | ⟨k, v, h⟩)
        · rw [hcap]; exact h
        · cases h
      | addAll src =>
        obtain ⟨t1, h1, hwf1, hcap, _⟩ :=
          tableAddAll_spec mem (hsrc src (List.mem_cons_self _ _)) hwf
        refine ⟨t1, by simp [applyStep, h1], hwf1, ?_⟩
        rintro (h | ⟨k, v, h⟩)
        · exact hcap h
        · cases h
    obtain ⟨t1, h1, hwf1, hcap1⟩ := hstep
    obtain ⟨t', h', hwf', hcap'⟩ := ih t1 hwf1
      (fun src hmem => hsrc src (List.mem_cons_of_mem _ hmem))
    refine ⟨t', by simp [runSteps, h1, h'], hwf', ?_⟩
    rintro (h | ⟨k, v, h⟩)
    · exact hcap' (Or.inl (hcap1 (Or.inl h)))
    · rcases List.mem_cons.mp h with h | h
      · exact hcap' (Or.inl (hcap1 (Or.inr ⟨k, v, h.symm⟩)))
      · exact hcap' (Or.inr ⟨k, v, h⟩)

/-- C5. With `GROW_CAPACITY` the growth rule of the spec, a table from
`initTable` has `count <= 0.75 * capacity` after every sequence of `tablePut`,
`tableDelete` and `tableAddAll` (from tables whose array has `capacity`
slots), and its capacity is a power of two once a `tablePut` is among them. -/
theorem capacity_power_of_two_and_load (mem : StringMem) (steps : List TableStep)
    (hsrc : ∀ src, TableStep.addAll src ∈ steps → src.entries.length = src.capacity) :
    ∃ t, runSteps mem steps initTable = some t ∧ 4 * t.count ≤ 3 * t.capacity
      ∧ ((∃ k v, TableStep.put k v ∈ steps) → ∃ m, t.capacity = 2 ^ m) := by
  obtain ⟨t, ht, hwf, hcap⟩ := runSteps_spec mem steps initTable (wellFormed_initTable mem) hsrc
  refine ⟨t, ht, hwf.2, fun hput => ?_⟩
  have hc := hcap (Or.inr hput)
  rcases hwf.1.2 with ⟨h0, _⟩ | hE
  · exact absurd h0 hc
  · obtain ⟨m, _, hm⟩ := hE.2.1
    exact ⟨m, hm⟩

/-- C5, at an instance: a put, a delete, an add-all from the example table and
a second put. -/
theorem capacity_power_of_two_and_load_witness :
    ∃ t, runSteps exampleMem [TableStep.put 1 Value.nil, TableStep.delete 1,
        TableStep.addAll exampleTable, TableStep.put 12 (Value.bool true)] initTable = some t
      ∧ 4 * t.count ≤ 3 * t.capacity
      ∧ ((∃ k v, TableStep.put k v ∈ [TableStep.put 1 Value.nil, TableStep.delete 1,
          TableStep.addAll exampleTable, TableStep.put 12 (Value.bool true)]) →
        ∃ m, t.capacity = 2 ^ m) :=
  capacity_power_of_two_and_load exampleMem _ (by
    intro src h
    simp only [List.mem_cons, List.mem_singleton, TableStep.addAll.injEq, reduceCtorEq,
      false_or, or_false, List.not_mem_nil] at h
    subst h
    rfl)

/-- C7. For two distinct well-formed tables `tableAddAll(from, to)` returns and
leaves `from` as it was; afterwards `tableGet(to, k)` yields the value `from`
binds to `k` for every key of `from`, and what it yielded before for every key
that `from` does not hold. -/
theorem tableAddAll_copies_bindings (mem : StringMem) (src dst : Table)
    (hs : WellFormed mem src) (hd : WellFormed mem dst) :
    ∃ d', tableAddAll mem src dst = some (src, d') ∧ ∀ k,
      (∀ v, tableGet mem src k = some (some v) → tableGet mem d' k = some (some v))
      ∧ (tableGet mem src k = some none → tableGet mem d' k = tableGet mem dst k) := by
  obtain ⟨d', h, hwf', _, hl⟩ := tableAddAll_spec mem hs.1.len hd
  refine ⟨d', h, fun k => ?_⟩
  obtain ⟨h1, h2⟩ := hl hs.1.distinct k
  rw [tableGet_eq_lookup hs.1, tableGet_eq_lookup hwf'.1, tableGet_eq_lookup hd.1]
  constructor
  · intro v hv
    have hv' : lookup src k = some v := Option.some.inj hv
    have hex : ∃ j, keyAt src.entries j = some k := by
      by_contra hne
      have := lookup_eq_none_iff.mpr (fun j hj => hne ⟨j, hj⟩)
      rw [this] at hv'
      cases hv'
    obtain ⟨j, hj⟩ := hex
    rw [h1 j hj, hv']
  · intro hn
    have hn' : lookup src k = none := Option.some.inj hn
    rw [h2 (lookup_eq_none_iff.mp hn')]

/-- C7, at an instance: the example table added to a table that binds key 9
and key 5. -/
theorem tableAddAll_copies_bindings_witness :
    WellFormed exampleMem exampleTable ∧ WellFormed exampleMem exampleTarget
      ∧ ∃ d', tableAddAll exampleMem exampleTable exampleTarget = some (exampleTable, d')
        ∧ ∀ k,
          (∀ v, tableGet exampleMem exampleTable k = some (some v) →
            tableGet exampleMem d' k = some (some v))
          ∧ (tableGet exampleMem exampleTable k = some none →
            tableGet exampleMem d' k = tableGet exampleMem exampleTarget k) :=
  ⟨by decide, by decide, tableAddAll_copies_bindings exampleMem exampleTable exampleTarget
    (by decide) (by decide)⟩

/-! ## `tableFindString` -/

/-- The probe loop of `tableFindString`: when the next `d` slots are passed over
(not empty, and holding no matching key) and the slot after them is empty or
holds a matching key, the loop returns the key of that slot. -/
theorem tableFindStringLoop_spec (mem : StringMem) {t : Table} (chars : List Nat)
    (length hash : Nat) (hp : ∃ m, m < t.capacity ∧ t.capacity = 2 ^ m) :
    ∀ (d fuel s : Nat), d < fuel → s < t.capacity →
      (∀ n, n < d → ∃ e, t.entries[(s + n) % t.capacity]? = some e ∧ usedE e = true
        ∧ ∀ k, e.key = some k → ¬ StringMatches mem chars length hash k) →
      (∃ e, t.entries[(s + d) % t.capacity]? = some e ∧ (usedE e = false
        ∨ ∃ k, e.key = some k ∧ StringMatches mem chars length hash k)) →
      tableFindStringLoop mem t chars length hash fuel s
        = some (keyAt t.entries ((s + d) % t.capacity)) := by
  intro d
  induction d with
  | zero =>
    intro fuel s hf hs _ hstop
    obtain ⟨e, he, hstop⟩ := hstop
    have hs0 : (s + 0) % t.capacity = s := by simpa using Nat.mod_eq_of_lt hs
    rw [hs0] at he ⊢
    obtain ⟨f, rfl⟩ : ∃ f, fuel = f + 1 := ⟨fuel - 1, by omega⟩
    have hk : keyAt t.entries s = e.key := by simp [keyAt, he]
    rw [hk]
    rcases hstop with hu | ⟨k, hek, hm⟩
    · have hkn : e.key = none := by
        cases hkk : e.key with
        | none => rfl
        | some k => simp [usedE, hkk] at hu
      have hnil : IS_NIL e.value = true := by
        simpa [usedE, hkn] using hu
      simp [tableFindStringLoop, he, hkn, hnil]
    · unfold StringMatches at hm
      simp [tableFindStringLoop, he, hek, hm]
  | succ d ih =>
    intro fuel s hf hs hpass hstop
    obtain ⟨f, rfl⟩ : ∃ f, fuel = f + 1 := ⟨fuel - 1, by omega⟩
    have hs0 : (s + 0) % t.capacity = s := by simpa using Nat.mod_eq_of_lt hs
    have hnext : (s + 1) &&& (t.capacity - 1) = (s + 1) % t.capacity := land_mask_eq_mod hp _
    have hs1 : (s + 1) % t.capacity < t.capacity := Nat.mod_lt _ (pow2_pos hp)
    obtain ⟨e, he, hue, hnm⟩ := hpass 0 (by omega)
    rw [hs0] at he
    have hrec := ih f ((s + 1) % t.capacity) (by omega) hs1
      (by intro n hn; rw [probe_succ]; exact hpass (n + 1) (by omega))
      (by rw [probe_succ]; exact hstop)
    rw [probe_succ] at hrec
    rw [← hrec]
    cases hkk : e.key with
    | none =>
      have hnil : IS_NIL e.value = false := by
        simpa [usedE, hkk] using hue
      simp [tableFindStringLoop, he, hkk, hnil, hnext]
    | some k =>
      have := hnm k hkk
      unfold StringMatches at this
      simp only [tableFindStringLoop, he, hkk, hnext]
      rw [if_neg this]

/-- The function `tableFindString` on a table that satisfies the invariant: it
returns; a key it returns is held by the table and matches in length, hash
and bytes; it returns `NULL` only when the table holds no matching key. -/
theorem tableFindString_spec {mem : StringMem} {t : Table} (hinv : TableInv mem t)
    (chars : List Nat) (length hash : Nat) :
    ∃ res, tableFindString mem t chars length hash = some res
      ∧ (∀ k, res = some k → (∃ i, keyAt t.entries i = some k)
          ∧ StringMatches mem chars length hash k)
      ∧ (res = none → ∀ i k, keyAt t.entries i = some k →
          ¬ StringMatches mem chars length hash k) := by
  unfold tableFindString
  by_cases hc : t.count = 0
  · rw [if_pos hc]
    refine ⟨none, rfl, (by intro k h; cases h), ?_⟩
    intro _ i k hk
    have := keyAt_isSome_used hk
    rw [← hinv.1] at this
    omega
  · rw [if_neg hc]
    obtain ⟨hlen, hp, hroom, hdist, hchain⟩ := hinv.entriesInv hc
    have hc' := pow2_pos hp
    have hh : hash &&& (t.capacity - 1) < t.capacity := by
      rw [land_mask_eq_mod hp]; exact Nat.mod_lt _ hc'
    generalize hhd : hash &&& (t.capacity - 1) = h at hh
    have hex : ∃ n, ∃ e, t.entries[(h + n) % t.capacity]? = some e ∧ (usedE e = false
        ∨ ∃ k, e.key = some k ∧ StringMatches mem chars length hash k) := by
      obtain ⟨i, e, hi, hie, hue⟩ :=
        exists_unused_slot (by omega : t.entries.countP usedE < t.entries.length)
      refine ⟨(i + t.capacity - h) % t.capacity, e, ?_, Or.inl hue⟩
      rw [probe_reach hh (by omega)]; exact hie
    classical
    let d := Nat.find hex
    have hd := Nat.find_spec hex
    have hmin : ∀ n, n < d → ∃ e, t.entries[(h + n) % t.capacity]? = some e
        ∧ usedE e = true ∧ ∀ k, e.key = some k → ¬ StringMatches mem chars length hash k := by
      intro n hn
      have hnot := Nat.find_min hex hn
      have hlt : (h + n) % t.capacity < t.entries.length := by
        rw [hlen]; exact Nat.mod_lt _ hc'
      have he : t.entries[(h + n) % t.capacity]? = some t.entries[(h + n) % t.capacity] :=
        List.getElem?_eq_getElem hlt
      refine ⟨_, he, ?_, ?_⟩
      · by_contra hu
        exact hnot ⟨_, he, Or.inl (by simpa using hu)⟩
      · intro k hk hm
        exact hnot ⟨_, he, Or.inr ⟨k, hk, hm⟩⟩
    have hdlt : d < t.capacity := by
      obtain ⟨i, e, hi, hie, hue⟩ :=
        exists_unused_slot (by omega : t.entries.countP usedE < t.entries.length)
      have : d ≤ (i + t.capacity - h) % t.capacity := by
        apply Nat.find_min' hex
        refine ⟨e, ?_, Or.inl hue⟩
        rw [probe_reach hh (by omega)]; exact hie
      have := probe_dist_lt (c := t.capacity) (h := h) (i := i) hc'
      omega
    have hres := tableFindStringLoop_spec mem chars length hash hp d t.capacity h hdlt hh hmin hd
    refine ⟨_, hres, ?_, ?_⟩
    · intro k hk
      have hk' : keyAt t.entries ((h + d) % t.capacity) = some k := hk
      refine ⟨⟨_, hk'⟩, ?_⟩
      obtain ⟨e, he, hstop⟩ := hd
      have hke : e.key = some k := by simpa [keyAt, he] using hk'
      rcases hstop with hu | ⟨k2, hk2, hm⟩
      · simp [usedE, hke] at hu
      · rw [hke] at hk2
        cases hk2
        exact hm
    · intro hnone i k hki hm
      have hi : i < t.capacity := by rw [← hlen]; exact keyAt_lt hki
      have hhome : home mem t.capacity k = h := by
        unfold home; rw [hm.2.1]; exact hhd
      have hdle : d ≤ (i + t.capacity - h) % t.capacity := by
        apply Nat.find_min' hex
        obtain ⟨e', he', hk'⟩ := keyAt_eq_some hki
        refine ⟨e', ?_, Or.inr ⟨k, hk', hm⟩⟩
        rw [probe_reach hh hi]; exact he'
      have hdne : d ≠ (i + t.capacity - h) % t.capacity := by
        intro heq
        have : (h + d) % t.capacity = i := by rw [heq]; exact probe_reach hh hi
        have hnone' : keyAt t.entries ((h + d) % t.capacity) = none := hnone
        rw [this, hki] at hnone'
        cases hnone'
      have hused := hchain i hi k hki d (by rw [hhome]; omega)
      rw [hhome] at hused
      obtain ⟨e, he, hstop⟩ := hd
      have hnone' : keyAt t.entries ((h + d) % t.capacity) = none := hnone
      rcases hstop with hu | ⟨k2, hk2, _⟩
      · simp [slotUsed, he, hu] at hused
      · simp [keyAt, he, hk2] at hnone'

/-- C6. On a well-formed table `tableFindString(table, chars, len, h)`
returns; a key it returns is an occupied key of the table whose length is
`len`, whose hash is `h` and whose first `len` bytes are those of `chars`;
and it returns `NULL` only when no occupied key of the table is such a key, so
a tombstone on the probe chain does not end the search. -/
theorem tableFindString_finds_matching_key (mem : StringMem) (t : Table) (chars : List Nat)
    (len h : Nat) (hwf : WellFormed mem t) :
    ∃ res, tableFindString mem t chars len h = some res
      ∧ (∀ k, res = some k → (∃ i, keyAt t.entries i = some k)
          ∧ (mem k).length = len ∧ (mem k).hash = h
          ∧ (mem k).chars.take len = chars.take len)
      ∧ (res = none → ∀ i k, keyAt t.entries i = some k →
          ¬ ((mem k).length = len ∧ (mem k).hash = h
            ∧ (mem k).chars.take len = chars.take len)) := by
  obtain ⟨res, hres, h1, h2⟩ := tableFindString_spec hwf.1 chars len h
  refine ⟨res, hres, ?_, ?_⟩
  · intro k hk
    obtain ⟨hex, hl, hh, hb⟩ := h1 k hk
    exact ⟨hex, hl, hh, by simpa [memcmpEq] using hb⟩
  · intro hn i k hki hm
    apply h2 hn i k hki
    exact ⟨hm.1, hm.2.1, by simpa [memcmpEq] using hm.2.2⟩

/-- C6, at an instance: the string of key 9, which the example table holds
behind the tombstone of slot 1. -/
theorem tableFindString_finds_matching_key_witness :
    WellFormed exampleMem exampleTable
      ∧ tableFindString exampleMem exampleTable [9] 1 9 = some (some 9)
      ∧ ∃ res, tableFindString exampleMem exampleTable [9] 1 9 = some res
        ∧ (∀ k, res = some k → (∃ i, keyAt exampleTable.entries i = some k)
            ∧ (exampleMem k).length = 1 ∧ (exampleMem k).hash = 9
            ∧ (exampleMem k).chars.take 1 = [9].take 1)
        ∧ (res = none → ∀ i k, keyAt exampleTable.entries i = some k →
            ¬ ((exampleMem k).length = 1 ∧ (exampleMem k).hash = 9
              ∧ (exampleMem k).chars.take 1 = [9].take 1)) :=
  ⟨by decide, by decide,
    tableFindString_finds_matching_key exampleMem exampleTable [9] 1 9 (by decide)⟩

/-! ## `tableRemoveWhite` -/

/-- Deleting a key that sits in slot `i` turns that slot into a tombstone. -/
theorem tableDelete_of_keyAt {mem : StringMem} {t : Table} (hinv : TableInv mem t)
    {i : Nat} {k : Ptr} (hk : keyAt t.entries i = some k) :
    tableDelete mem t k = some ({ t with
        entries := t.entries.set i { key := none, value := Value.bool true } }, true)
      ∧ TableInv mem { t with
        entries := t.entries.set i { key := none, value := Value.bool true } } := by
  have hc : t.count ≠ 0 := by
    have := keyAt_isSome_used hk
    rw [← hinv.1] at this
    omega
  have hE := hinv.entriesInv hc
  obtain ⟨e, he, hek⟩ := keyAt_eq_some hk
  obtain ⟨hE', hcount⟩ := entriesInv_set_tombstone hE hk
  constructor
  · unfold tableDelete
    rw [if_neg hc, findEntry_found hE hk]
    simp only [he, hek]
  · exact ⟨by simp only; rw [hcount]; exact hinv.1, Or.inr hE'⟩

/-- The function `tableRemoveWhite` on a table that satisfies the invariant:
it returns a table that satisfies the invariant, with the same count and
capacity, whose slots are those of the table with every slot of an unmarked
key turned into a tombstone. -/
theorem tableRemoveWhite_spec {mem : StringMem} {t : Table} (hinv : TableInv mem t) :
    ∃ t', tableRemoveWhite mem t = some t' ∧ TableInv mem t'
      ∧ t'.capacity = t.capacity ∧ t'.count = t.count
      ∧ ∀ i : Nat, t'.entries[i]? = (t.entries[i]?).map (sweptEntry mem) := by
  let P : Nat → Table → Prop := fun j tj =>
    TableInv mem tj ∧ tj.capacity = t.capacity ∧ tj.count = t.count
      ∧ ∀ i : Nat, tj.entries[i]?
          = if i < j then (t.entries[i]?).map (sweptEntry mem) else t.entries[i]?
  have h0 : P 0 t := ⟨hinv, rfl, rfl, fun i => by simp⟩
  obtain ⟨t', ht', hinv', hcap', hcnt', hent'⟩ := forLoop_inv (tableRemoveWhiteBody mem) P
      t.capacity t h0 (by
    intro j tj hj ⟨hinvj, hcapj, hcntj, hentj⟩
    have hjt : j < t.entries.length := by rw [hinv.len]; exact hj
    have he : t.entries[j]? = some t.entries[j] := List.getElem?_eq_getElem hjt
    generalize t.entries[j] = e at he
    have hej : tj.entries[j]? = some e := by rw [hentj j, if_neg (by omega), he]
    have hstay : sweptEntry mem e = e → P (j + 1) tj := by
      intro hs
      refine ⟨hinvj, hcapj, hcntj, fun i => ?_⟩
      rw [hentj i]
      by_cases hij : i = j
      · subst hij
        rw [if_neg (by omega), if_pos (by omega), he]
        simp [hs]
      · by_cases hlt : i < j
        · rw [if_pos hlt, if_pos (by omega)]
        · rw [if_neg hlt, if_neg (by omega)]
    unfold tableRemoveWhiteBody
    rw [hej]
    cases hk : e.key with
    | none =>
      exact ⟨tj, by simp [hk], hstay (by simp [sweptEntry, isWhite, hk])⟩
    | some k =>
      by_cases hm : (mem k).isMarked = false
      · have hkj : keyAt tj.entries j = some k := by simp [keyAt, hej, hk]
        obtain ⟨hdel, hinvd⟩ := tableDelete_of_keyAt hinvj hkj
        refine ⟨_, by simp [hk, hm, hdel], hinvd, hcapj, hcntj, fun i => ?_⟩
        have hjl : j < tj.entries.length := keyAt_lt hkj
        simp only
        rw [getElem?_set_lt _ hjl]
        by_cases hij : i = j
        · subst hij
          rw [if_pos rfl, if_pos (by omega), he]
          simp [sweptEntry, isWhite, hk, hm]
        · rw [if_neg hij, hentj i]
          by_cases hlt : i < j
          · rw [if_pos hlt, if_pos (by omega)]
          · rw [if_neg hlt, if_neg (by omega)]
      · exact ⟨tj, by simp [hk, hm], hstay (by simp [sweptEntry, isWhite, hk, hm])⟩)
  refine ⟨t', ht', hinv', hcap', hcnt', fun i => ?_⟩
  rw [hent' i]
  split
  · rfl
  · next h =>
    rw [List.getElem?_eq_none (by rw [hinv.len]; omega)]
    rfl

theorem sweptEntry_key_some {mem : StringMem} {e : Entry} {k : Ptr} {v : Value} :
    sweptEntry mem e = { key := some k, value := v }
      ↔ e = { key := some k, value := v } ∧ (mem k).isMarked = true := by
  constructor
  · intro h
    unfold sweptEntry at h
    by_cases hw : isWhite mem e = true
    · rw [if_pos hw] at h
      cases h
    · rw [if_neg hw] at h
      subst h
      exact ⟨rfl, by simpa [isWhite] using hw⟩
  · rintro ⟨rfl, hm⟩
    simp [sweptEntry, isWhite, hm]

/-- C10. On a well-formed table `tableRemoveWhite` returns; afterwards
`tableGet` succeeds exactly for the keys that were bound before and are
marked, with the value they had; every slot whose key was unmarked is a
tombstone, and no occupied slot holds an unmarked key. -/
theorem tableRemoveWhite_keeps_marked_keys (mem : StringMem) (t : Table)
    (hwf : WellFormed mem t) :
    ∃ t', tableRemoveWhite mem t = some t'
      ∧ (∀ k, tableGet mem t' k
          = if (mem k).isMarked = true then tableGet mem t k else some none)
      ∧ (∀ (i : Nat) (k : Ptr), keyAt t.entries i = some k → (mem k).isMarked = false →
          t'.entries[i]? = some { key := none, value := Value.bool true })
      ∧ (∀ (i : Nat) (k : Ptr), keyAt t'.entries i = some k → (mem k).isMarked = true) := by
  obtain ⟨t', ht', hinv', hcap', _, hent⟩ := tableRemoveWhite_spec hwf.1
  refine ⟨t', ht', ?_, ?_, ?_⟩
  · intro k
    rw [tableGet_eq_lookup hinv', tableGet_eq_lookup hwf.1]
    have hl : lookup t' k = if (mem k).isMarked = true then lookup t k else none := by
      apply Option.ext
      intro v
      rw [Option.mem_def, Option.mem_def, lookup_eq_some_iff hinv'.distinct hinv'.len]
      have hiff : (∃ i : Nat, t'.entries[i]? = some (Entry.mk (some k) v))
          ↔ (∃ i : Nat, t.entries[i]? = some (Entry.mk (some k) v))
            ∧ (mem k).isMarked = true := by
        constructor
        · rintro ⟨i, hi⟩
          rw [hent i] at hi
          cases he : t.entries[i]? with
          | none => rw [he] at hi; cases hi
          | some e =>
            rw [he] at hi
            have := sweptEntry_key_some.mp (Option.some.inj hi)
            exact ⟨⟨i, by rw [he, this.1]⟩, this.2⟩
        · rintro ⟨⟨i, hi⟩, hm⟩
          refine ⟨i, ?_⟩
          rw [hent i, hi]
          exact congrArg some (sweptEntry_key_some.mpr ⟨rfl, hm⟩)
      rw [hiff]
      by_cases hm : (mem k).isMarked = true
      · rw [if_pos hm, lookup_eq_some_iff hwf.1.distinct hwf.1.len]
        simp [hm]
      · rw [if_neg hm]
        simp [hm]
    rw [hl]
    split <;> rfl
  · intro i k hk hm
    obtain ⟨e, he, hek⟩ := keyAt_eq_some hk
    rw [hent i, he]
    simp [sweptEntry, isWhite, hek, hm]
  · intro i k hk
    obtain ⟨e', he', hek'⟩ := keyAt_eq_some hk
    rw [hent i] at he'
    cases he : t.entries[i]? with
    | none => rw [he] at he'; cases he'
    | some e =>
      rw [he] at he'
      have h1 : sweptEntry mem e = { key := some k, value := e'.value } := by
        rw [Option.some.inj he']; exact entry_eta hek'
      exact (sweptEntry_key_some.mp h1).2

/-- C10, at an instance: in the example table key 9 is unmarked and key 4 is
marked. -/
theorem tableRemoveWhite_keeps_marked_keys_witness :
    WellFormed exampleMem exampleTable
      ∧ ∃ t', tableRemoveWhite exampleMem exampleTable = some t'
        ∧ (∀ k, tableGet exampleMem t' k
            = if (exampleMem k).isMarked = true then tableGet exampleMem exampleTable k
              else some none)
        ∧ (∀ (i : Nat) (k : Ptr), keyAt exampleTable.entries i = some k →
            (exampleMem k).isMarked = false →
            t'.entries[i]? = some { key := none, value := Value.bool true })
        ∧ (∀ (i : Nat) (k : Ptr), keyAt t'.entries i = some k →
            (exampleMem k).isMarked = true) :=
  ⟨by decide, tableRemoveWhite_keeps_marked_keys exampleMem exampleTable (by decide)⟩


/-! ## The collector started while it sweeps -/

/-- C2, at the failing input.  In the example state no object is marked, the
gray stack is empty, `bytesAllocated` is the sum of the live sizes and does
not exceed `nextGC`, and object 200 is in the object list and in a stack slot.
The call `reallocate(NULL, 0, 500)` takes `bytesAllocated` above `nextGC` and
so calls `collectGarbage`.  The call returns (for every bound from 2 on); the
stack slot still holds object 200, yet object 200 has been passed to
`freeObject`, its block is no longer live and the object list is empty: the
`free` of object 100 leaves `bytesAllocated` above `nextGC`, so `reallocate`
starts a second collection in the middle of `sweep`; that collection clears
the mark of object 200, and the first `sweep` then frees it. -/
theorem reallocate_frees_object_on_stack :
    exampleVM.grayStack = []
      ∧ (∀ p o, exampleVM.heap p = some o → o.isMarked = false)
      ∧ Value.obj 200 ∈ exampleVM.stack
      ∧ exampleVM.bytesAllocated = sumBlocks exampleVM.blocks
      ∧ exampleVM.bytesAllocated ≤ exampleVM.nextGC
      ∧ ∀ fuel : Nat, (reallocate exampleConfig (fuel + 2) exampleVM none 0 500 400).map
          (fun out => (out.1.stack, out.1.objects, (out.1.heap 200).isSome, out.1.blocks,
            decide (Event.freeObject 200 ∈ out.1.log)))
        = some ([Value.obj 200], none, false, [(400, 500), (300, 452)], true) := by
  refine ⟨rfl, ?_, by decide, by decide, by decide, ?_⟩
  · intro p o h
    unfold exampleVM exampleHeap at h
    simp only at h
    split at h
    · cases h; rfl
    · split at h
      · cases h; rfl
      · cases h
  · intro fuel
    cases fuel with
    | zero => rfl
    | succ n => rfl

/-! ## `nextGC` after `reallocate` -/

theorem collectGarbage_nextGC {cfg : Config} {fuel : Nat} {vm vm' : VM}
    (h : collectGarbage cfg fuel vm = some vm') :
    vm'.nextGC = vm'.bytesAllocated * 2 % 2 ^ 64 := by
  cases fuel with
  | zero => cases h
  | succ n =>
    unfold collectGarbage at h
    split at h
    · cases h
    · split at h
      · cases h
      · split at h
        · cases h
        · split at h
          · cases h
          · cases h; rfl

theorem reallocateFinish_counters {vm vm' : VM} {pointer r : Option Ptr} {newSize : Nat}
    {result : Ptr} (h : reallocateFinish vm pointer newSize result = some (vm', r)) :
    vm'.bytesAllocated = vm.bytesAllocated ∧ vm'.nextGC = vm.nextGC ∧ vm'.log = vm.log := by
  unfold reallocateFinish at h
  repeat' split at h
  all_goals (cases h <;> exact ⟨rfl, rfl, rfl⟩)

/-- C9. When a call of `reallocate` returns and doubling the value
`bytesAllocated` then has does not overflow `size_t`, `nextGC >= bytesAllocated`
holds: either no collection was needed at the threshold test, or the
collection that ran has set `nextGC` to twice `bytesAllocated`. -/
theorem reallocate_nextGC_ge_bytesAllocated (cfg : Config) (fuel : Nat) (vm vm' : VM)
    (pointer r : Option Ptr) (oldSize newSize : Nat) (result : Ptr)
    (h : reallocate cfg fuel vm pointer oldSize newSize result = some (vm', r))
    (hno : vm'.bytesAllocated * 2 < 2 ^ 64) :
    vm'.nextGC ≥ vm'.bytesAllocated := by
  unfold reallocate reallocateWith at h
  split at h
  · cases h
  · next vm2 _ =>
    split at h
    · cases h
    · next vm3 h3 =>
      obtain ⟨hb, hn, _⟩ := reallocateFinish_counters h
      rw [hb, hn]
      rw [hb] at hno
      split at h3
      · have := collectGarbage_nextGC h3
        rw [this, Nat.mod_eq_of_lt hno]
        omega
      · cases h3
        omega
/-! ## Accounting of `bytesAllocated` -/

theorem netDelta_append (a b : List Event) : netDelta (a ++ b) = netDelta a + netDelta b := by
  induction a with
  | nil => simp [netDelta]
  | cons e a ih =>
    show e.delta + netDelta (a ++ b) = (e.delta + netDelta a) + netDelta b
    rw [ih]; omega

theorem blockSize_filter {blocks : List (Ptr × Nat)} {p q : Ptr} {s : Nat}
    (h : blockSize (blocks.filter (fun b => !(b.1 == p))) (some q) = some s) :
    blockSize blocks (some q) = some s := by
  induction blocks with
  | nil => simp [blockSize] at h
  | cons b bs ih =>
    by_cases hbp : b.1 = p
    · have hf : (b :: bs).filter (fun b => !(b.1 == p)) = bs.filter (fun b => !(b.1 == p)) := by
        simp [List.filter_cons, hbp]
      rw [hf] at h
      have hq : q ≠ p := by
        intro hqp
        subst hqp
        simp only [blockSize, Option.map_eq_some'] at h
        obtain ⟨x, hx, _⟩ := h
        have h1 := List.find?_some hx
        have h2 := List.mem_of_find?_eq_some hx
        rw [List.mem_filter] at h2
        simp_all
      have := ih h
      simp only [blockSize, List.find?_cons] at this ⊢
      have hbq : (b.1 == q) = false := by
        rw [hbp]; simpa using fun h' => hq h'.symm
      rw [hbq]
      exact this
    · have hf : (b :: bs).filter (fun b => !(b.1 == p))
          = b :: bs.filter (fun b => !(b.1 == p)) := by
        simp [List.filter_cons, hbp]
      rw [hf] at h
      simp only [blockSize, List.find?_cons] at h ⊢
      by_cases hbq : (b.1 == q) = true
      · rw [hbq] at h ⊢
        exact h
      · have hbq' : (b.1 == q) = false := by simpa using hbq
        rw [hbq'] at h ⊢
        exact ih h

theorem blocksDistinct_filter {blocks : List (Ptr × Nat)} (p : Ptr)
    (h : BlocksDistinct blocks) : BlocksDistinct (blocks.filter (fun b => !(b.1 == p))) :=
  List.Nodup.sublist (List.Sublist.map _ (List.filter_sublist blocks)) h

theorem not_mem_keys_filter (blocks : List (Ptr × Nat)) (p : Ptr) :
    p ∉ (blocks.filter (fun b => !(b.1 == p))).map Prod.fst := by
  intro h
  rw [List.mem_map] at h
  obtain ⟨b, hb, hbp⟩ := h
  rw [List.mem_filter] at hb
  simp [hbp] at hb

theorem not_mem_keys_of_blockSize_none {blocks : List (Ptr × Nat)} {p : Ptr}
    (h : blockSize blocks (some p) = none) : p ∉ blocks.map Prod.fst := by
  intro hm
  rw [List.mem_map] at hm
  obtain ⟨b, hb, hbp⟩ := hm
  simp only [blockSize, Option.map_eq_none', List.find?_eq_none] at h
  exact h b hb (by simp [hbp])

theorem filter_eq_self_of_not_mem {blocks : List (Ptr × Nat)} {p : Ptr}
    (h : p ∉ blocks.map Prod.fst) : blocks.filter (fun b => !(b.1 == p)) = blocks := by
  rw [List.filter_eq_self]
  intro b hb
  have : b.1 ≠ p := fun hbp => h (List.mem_map.mpr ⟨b, hb, hbp⟩)
  simpa using this

theorem sumBlocks_filter {blocks : List (Ptr × Nat)} {p : Ptr} {s : Nat}
    (hd : BlocksDistinct blocks) (h : blockSize blocks (some p) = some s) :
    sumBlocks (blocks.filter (fun b => !(b.1 == p))) + s = sumBlocks blocks := by
  induction blocks with
  | nil => simp [blockSize] at h
  | cons b bs ih =>
    have hd' : BlocksDistinct bs := (List.nodup_cons.mp hd).2
    have hnot : b.1 ∉ bs.map Prod.fst := (List.nodup_cons.mp hd).1
    by_cases hbp : b.1 = p
    · have hf : (b :: bs).filter (fun b => !(b.1 == p)) = bs := by
        rw [List.filter_cons]
        simp only [hbp, beq_self_eq_true, Bool.not_true, Bool.false_eq_true, if_false]
        exact filter_eq_self_of_not_mem (by rw [← hbp]; exact hnot)
      have hs : b.2 = s := by
        simpa [blockSize, List.find?_cons, hbp] using h
      rw [hf, ← hs]
      simp [sumBlocks]
      omega
    · have hf : (b :: bs).filter (fun b => !(b.1 == p))
          = b :: bs.filter (fun b => !(b.1 == p)) := by
        simp [List.filter_cons, hbp]
      have h' : blockSize bs (some p) = some s := by
        simpa [blockSize, List.find?_cons, hbp] using h
      have := ih hd' h'
      rw [hf]
      simp only [sumBlocks, List.map_cons, List.sum_cons] at this ⊢
      omega

theorem sumBlocks_cons (b : Ptr × Nat) (bs : List (Ptr × Nat)) :
    sumBlocks (b :: bs) = b.2 + sumBlocks bs := by
  simp [sumBlocks]

theorem FreeStep.of_same {vm vm' : VM} (hl : vm'.log = vm.log)
    (hb : vm'.bytesAllocated = vm.bytesAllocated) (hk : vm'.blocks = vm.blocks) :
    FreeStep vm vm' :=
  ⟨[], by simp [hl], by simp [netDelta, hb], by rw [hb]; exact fun h => h,
    by intro q s h; rwa [hk] at h, by intro h; rwa [hk], by intro _ _; simp [netDelta, hk],
    by intro e he; cases he⟩

theorem FreeStep.trans {a b c : VM} (h1 : FreeStep a b) (h2 : FreeStep b c) : FreeStep a c := by
  obtain ⟨e1, hl1, hb1, hlt1, hs1, hd1, hm1, hf1⟩ := h1
  obtain ⟨e2, hl2, hb2, hlt2, hs2, hd2, hm2, hf2⟩ := h2
  refine ⟨e1 ++ e2, by rw [hl2, hl1, List.append_assoc], ?_, fun h => hlt2 (hlt1 h),
    fun q s h => hs1 q s (hs2 q s h), fun h => hd2 (hd1 h), ?_,
    fun e he => (List.mem_append.1 he).elim (hf1 e) (hf2 e)⟩
  · rw [netDelta_append]
    omega
  · intro hd hok
    have ha := hm1 hd (fun e he => hok e (List.mem_append_left _ he))
    have hb := hm2 (hd1 hd) (fun e he => hok e (List.mem_append_right _ he))
    rw [netDelta_append]
    omega

/-- Appending to the record a call that asks for no change. -/
theorem FreeStep.of_event {vm vm' : VM} (e : Event) (he : e.delta = 0)
    (hf : isFreeEvent e = true) (hl : vm'.log = vm.log ++ [e])
    (hb : vm'.bytesAllocated = vm.bytesAllocated) (hk : vm'.blocks = vm.blocks) :
    FreeStep vm vm' :=
  ⟨[e], hl, by simp [netDelta, hb, he], by rw [hb]; exact fun h => h,
    by intro q s h; rwa [hk] at h, by intro h; rwa [hk],
    by intro _ _; simp [netDelta, hk, he],
    by intro e' he'; rw [List.mem_singleton] at he'; rw [he']; exact hf⟩

theorem reallocateEnter_nextGC (vm : VM) (pointer : Option Ptr) (oldSize newSize : Nat) :
    (reallocateEnter vm pointer oldSize newSize).nextGC = vm.nextGC := rfl

theorem reallocateEnter_bytes (vm : VM) (pointer : Option Ptr) (oldSize newSize : Nat) :
    ((reallocateEnter vm pointer oldSize newSize).bytesAllocated : Int) % 2 ^ 64
      = ((vm.bytesAllocated : Int) + ((newSize : Int) - (oldSize : Int))) % 2 ^ 64 := by
  simp only [reallocateEnter]
  omega

theorem reallocateEnter_lt (vm : VM) (pointer : Option Ptr) (oldSize newSize : Nat) :
    (reallocateEnter vm pointer oldSize newSize).bytesAllocated < 2 ^ 64 := by
  simp only [reallocateEnter]
  omega

/-- The state in which `reallocate` calls `free` or `realloc`: after the update
of `bytesAllocated` and the collections, which only free. -/
theorem reallocateWith_middle {collect : VM → Option VM} (hc : OnlyFrees collect)
    {cfg : Config} {vm : VM} {pointer : Option Ptr} {oldSize newSize : Nat} {result : Ptr}
    {out : VM × Option Ptr}
    (h : reallocateWith collect cfg vm pointer oldSize newSize result = some out) :
    ∃ vm3, FreeStep (reallocateEnter vm pointer oldSize newSize) vm3
      ∧ reallocateFinish vm3 pointer newSize result = some out := by
  unfold reallocateWith at h
  split at h
  · cases h
  · next vm2 h2 =>
    have hs2 : FreeStep (reallocateEnter vm pointer oldSize newSize) vm2 := by
      split at h2
      · exact hc _ _ h2
      · cases h2; exact FreeStep.of_same rfl rfl rfl
    split at h
    · cases h
    · next vm3 h3 =>
      refine ⟨vm3, hs2.trans ?_, h⟩
      split at h3
      · exact hc _ _ h3
      · cases h3; exact FreeStep.of_same rfl rfl rfl
theorem callSizeOK_reallocate {pointer : Option Ptr} {oldSize newSize : Nat}
    {bs : Option Nat} (h : callSizeOK (Event.reallocate pointer oldSize newSize bs) = true) :
    bs = some oldSize := by
  simpa [callSizeOK] using h

/-- A call of `reallocate` with `newSize = 0` only frees. -/
theorem reallocateWith_free {collect : VM → Option VM} (hc : OnlyFrees collect)
    {cfg : Config} {vm : VM} {pointer : Option Ptr} {oldSize : Nat} {result : Ptr}
    {out : VM × Option Ptr}
    (h : reallocateWith collect cfg vm pointer oldSize 0 result = some out) :
    FreeStep vm out.1 := by
  obtain ⟨vm3, ⟨evs, hlog, hbytes, hlt, hshrink, hdist, hsum, hfree⟩, hfin⟩ :=
    reallocateWith_middle hc h
  have henter := reallocateEnter_bytes vm pointer oldSize 0
  have hlog' : out.1.log = vm3.log ∧ out.1.bytesAllocated = vm3.bytesAllocated := by
    cases out with
    | mk vm' r =>
      obtain ⟨hb, _, hl⟩ := reallocateFinish_counters hfin
      exact ⟨hl, hb⟩
  refine ⟨Event.reallocate pointer oldSize 0 (blockSize vm.blocks pointer) :: evs, ?_, ?_, ?_, ?_,
    ?_, ?_, ?_⟩
  rotate_right
  · intro e he
    rcases List.mem_cons.1 he with he1 | he1
    · rw [he1]; rfl
    · exact hfree e he1
  · rw [hlog'.1, hlog]
    simp [reallocateEnter]
  · rw [hlog'.2]
    simp only [netDelta, Event.delta]
    push_cast at henter hbytes ⊢
    omega
  · intro _
    rw [hlog'.2]
    exact hlt (reallocateEnter_lt vm pointer oldSize 0)
  · intro q s hq
    have : blockSize vm3.blocks (some q) = some s := by
      unfold reallocateFinish at hfin
      rw [if_pos rfl] at hfin
      split at hfin
      · cases hfin; exact hq
      · split at hfin
        · cases hfin
        · cases hfin; exact blockSize_filter hq
    exact hshrink q s this
  · intro hd
    have hd3 := hdist hd
    unfold reallocateFinish at hfin
    rw [if_pos rfl] at hfin
    split at hfin
    · cases hfin; exact hd3
    · split at hfin
      · cases hfin
      · cases hfin; exact blocksDistinct_filter _ hd3
  · intro hd hok
    have hd3 := hdist hd
    have hs3 := hsum hd (fun e he => hok e (List.mem_cons_of_mem _ he))
    have hsz := callSizeOK_reallocate (hok _ (List.mem_cons_self _ _))
    simp only [netDelta, Event.delta]
    unfold reallocateFinish at hfin
    rw [if_pos rfl] at hfin
    split at hfin
    · cases hfin
      simp only [blockSize, Option.some.injEq] at hsz
      simp only at hs3 ⊢
      rw [hs3, ← hsz]
      simp [reallocateEnter]
    · next p =>
      split at hfin
      · cases hfin
      · next s' hs' =>
        cases hfin
        have h1 : blockSize vm.blocks (some p) = some s' := hshrink p s' hs'
        rw [hsz] at h1
        cases h1
        have := sumBlocks_filter hd3 hs'
        simp only at this hs3 ⊢
        simp only [reallocateEnter] at hs3
        push_cast
        omega

theorem FREE_onlyFrees {collect : VM → Option VM} (hc : OnlyFrees collect)
    {cfg : Config} {vm vm' : VM} {size : Nat} {pointer : Option Ptr}
    (h : FREE collect cfg vm size pointer = some vm') : FreeStep vm vm' := by
  unfold FREE at h
  rw [Option.map_eq_some'] at h
  obtain ⟨out, hout, rfl⟩ := h
  exact reallocateWith_free hc hout

theorem FREE_ARRAY_onlyFrees {collect : VM → Option VM} (hc : OnlyFrees collect)
    {cfg : Config} {vm vm' : VM} {size oldCount : Nat} {pointer : Option Ptr}
    (h : FREE_ARRAY collect cfg vm size pointer oldCount = some vm') : FreeStep vm vm' := by
  unfold FREE_ARRAY at h
  rw [Option.map_eq_some'] at h
  obtain ⟨out, hout, rfl⟩ := h
  exact reallocateWith_free hc hout

theorem freeChunk_onlyFrees {collect : VM → Option VM} (hc : OnlyFrees collect)
    {cfg : Config} {vm vm' : VM} {chunk : Chunk}
    (h : freeChunk collect cfg vm chunk = some vm') : FreeStep vm vm' := by
  unfold freeChunk at h
  simp only [Option.bind_eq_bind, Option.bind_eq_some] at h
  obtain ⟨vm1, h1, vm2, h2, h3⟩ := h
  exact ((FREE_ARRAY_onlyFrees hc h1).trans (FREE_ARRAY_onlyFrees hc h2)).trans
    (FREE_ARRAY_onlyFrees hc h3)

theorem freeObjectWith_onlyFrees {collect : VM → Option VM} (hc : OnlyFrees collect)
    {cfg : Config} {vm vm' : VM} {obj : Ptr}
    (h : freeObjectWith collect cfg vm obj = some vm') : FreeStep vm vm' := by
  unfold freeObjectWith at h
  split at h
  · cases h
  · next o _ =>
    have h0 : FreeStep vm { vm with log := vm.log ++ [Event.freeObject obj] } :=
      FreeStep.of_event (Event.freeObject obj) rfl rfl rfl rfl rfl
    refine h0.trans ?_
    simp only at h
    split at h
    · -- string
      split at h
      · cases h
      · next vm1 h1 => exact (FREE_ARRAY_onlyFrees hc h1).trans (FREE_onlyFrees hc h)
    · -- function
      split at h
      · cases h
      · next vm1 h1 => exact (freeChunk_onlyFrees hc h1).trans (FREE_onlyFrees hc h)
    · exact FREE_onlyFrees hc h
    · -- closure
      split at h
      · cases h
      · next vm1 h1 => exact (FREE_ARRAY_onlyFrees hc h1).trans (FREE_onlyFrees hc h)
    · exact FREE_onlyFrees hc h
    · -- class
      split at h
      · cases h
      · next vm1 h1 =>
        refine (FREE_ARRAY_onlyFrees hc h1).trans ?_
        split at h
        · cases h
        · split at h
          · have hf := FREE_onlyFrees hc h
            exact (FreeStep.of_same rfl rfl rfl).trans hf
          · cases h
    · -- instance
      split at h
      · cases h
      · next vm1 h1 =>
        refine (FREE_ARRAY_onlyFrees hc h1).trans ?_
        split at h
        · cases h
        · split at h
          · have hf := FREE_onlyFrees hc h
            exact (FreeStep.of_same rfl rfl rfl).trans hf
          · cases h
    · exact FREE_onlyFrees hc h

theorem sweepLoop_onlyFrees {collect : VM → Option VM} (hc : OnlyFrees collect)
    (cfg : Config) :
    ∀ (fuel : Nat) (vm vm' : VM) (prev object : Option Ptr),
      sweepLoop collect cfg fuel vm prev object = some vm' → FreeStep vm vm' := by
  intro fuel
  induction fuel with
  | zero =>
    intro vm vm' prev object h
    cases object with
    | none => simp only [sweepLoop] at h; cases h; exact FreeStep.of_same rfl rfl rfl
    | some p => simp [sweepLoop] at h
  | succ n ih =>
    intro vm vm' prev object h
    cases object with
    | none => simp only [sweepLoop] at h; cases h; exact FreeStep.of_same rfl rfl rfl
    | some p =>
      simp only [sweepLoop] at h
      split at h
      · cases h
      · next o _ =>
        split at h
        · have hr := ih _ _ _ _ h
          exact (FreeStep.of_same rfl rfl rfl).trans hr
        · split at h
          · cases h
          · next vm1 h1 =>
            have hs1 : FreeStep vm vm1 := by
              split at h1
              · split at h1
                · cases h1
                · cases h1; exact FreeStep.of_same rfl rfl rfl
              · cases h1; exact FreeStep.of_same rfl rfl rfl
            split at h
            · cases h
            · next vm2 h2 =>
              exact (hs1.trans (freeObjectWith_onlyFrees hc h2)).trans (ih _ _ _ _ h)

/-- The collector only frees: the calls of `reallocate` it makes all have
`newSize = 0`, and so do those of the collections started during `sweep`. -/
theorem collectGarbage_onlyFrees (cfg : Config) :
    ∀ fuel, OnlyFrees (collectGarbage cfg fuel) := by
  intro fuel
  induction fuel with
  | zero => intro v v' h; cases h
  | succ n ih =>
    intro v v' h
    unfold collectGarbage at h
    split at h
    · cases h
    · split at h
      · cases h
      · split at h
        · cases h
        · split at h
          · cases h
          · next vm4 h4 =>
            cases h
            have h0 : FreeStep v { v with log := v.log ++ [Event.collectGarbage] } :=
              FreeStep.of_event Event.collectGarbage rfl rfl rfl rfl rfl
            have h1 := sweepLoop_onlyFrees ih cfg _ _ _ _ _ h4
            exact (h0.trans ((FreeStep.of_same rfl rfl rfl).trans h1)).trans
              (FreeStep.of_same rfl rfl rfl)
/-- What one call of `reallocate` does to the allocator: the record of calls
grows by `evs`, `bytesAllocated` is a `size_t` that has changed by what those
calls ask for, and when each of them passed the size of its block the sum of
the live sizes has changed by the same amount. -/
theorem reallocate_account {cfg : Config} {fuel : Nat} {vm : VM} {pointer : Option Ptr}
    {oldSize newSize : Nat} {result : Ptr} {out : VM × Option Ptr}
    (h : reallocate cfg fuel vm pointer oldSize newSize result = some out) :
    ∃ evs, out.1.log = vm.log ++ evs
      ∧ (out.1.bytesAllocated : Int) % 2 ^ 64
          = ((vm.bytesAllocated : Int) + netDelta evs) % 2 ^ 64
      ∧ out.1.bytesAllocated < 2 ^ 64
      ∧ (BlocksDistinct vm.blocks → (∀ e ∈ evs, callSizeOK e = true) →
          BlocksDistinct out.1.blocks
          ∧ (sumBlocks out.1.blocks : Int) = (sumBlocks vm.blocks : Int) + netDelta evs) := by
  have hc := collectGarbage_onlyFrees cfg fuel
  by_cases hnew : newSize = 0
  · subst hnew
    obtain ⟨evs, hl, hb, hlt, _, hd, hs, _⟩ := reallocateWith_free hc h
    obtain ⟨vm3, ⟨_, _, _, hlt3, _, _, _, _⟩, hfin⟩ := reallocateWith_middle hc h
    refine ⟨evs, hl, hb, ?_, fun hdis hok => ⟨hd hdis, hs hdis hok⟩⟩
    cases out with
    | mk vm' r =>
      rw [(reallocateFinish_counters hfin).1]
      exact hlt3 (reallocateEnter_lt _ _ _ _)
  · obtain ⟨vm3, ⟨evs, hlog, hbytes, hlt, hshrink, hdist, hsum, _⟩, hfin⟩ :=
      reallocateWith_middle hc h
    have henter := reallocateEnter_bytes vm pointer oldSize newSize
    cases out with
    | mk vm' r =>
    obtain ⟨hb', _, hl'⟩ := reallocateFinish_counters hfin
    refine ⟨Event.reallocate pointer oldSize newSize (blockSize vm.blocks pointer) :: evs,
      ?_, ?_, ?_, ?_⟩
    · simp only
      rw [hl', hlog]
      simp [reallocateEnter]
    · simp only [netDelta, Event.delta]
      rw [hb']
      push_cast at henter hbytes ⊢
      omega
    · simp only
      rw [hb']
      exact hlt (reallocateEnter_lt _ _ _ _)
    · intro hd hok
      have hd3 : BlocksDistinct vm3.blocks := hdist hd
      have hs3 := hsum hd (fun e he => hok e (List.mem_cons_of_mem _ he))
      have hsz := callSizeOK_reallocate (hok _ (List.mem_cons_self _ _))
      simp only [netDelta, Event.delta]
      simp only [reallocateEnter] at hs3
      unfold reallocateFinish at hfin
      rw [if_neg hnew] at hfin
      split at hfin
      · -- a fresh block
        split at hfin
        · cases hfin
        · next hfresh =>
          cases hfin
          simp only [blockSize, Option.some.injEq] at hsz
          refine ⟨List.nodup_cons.mpr ⟨not_mem_keys_of_blockSize_none hfresh, hd3⟩, ?_⟩
          simp only [sumBlocks_cons]
          push_cast
          omega
      · next p =>
        split at hfin
        · cases hfin
        · next s' hs' =>
          have h1 : blockSize vm.blocks (some p) = some s' := hshrink p s' hs'
          rw [hsz] at h1
          cases h1
          have hfil := sumBlocks_filter hd3 hs'
          have hdf := blocksDistinct_filter p hd3
          split at hfin
          · -- the block stays where it is
            cases hfin
            refine ⟨List.nodup_cons.mpr ⟨not_mem_keys_filter _ _, hdf⟩, ?_⟩
            simp only [sumBlocks_cons]
            push_cast
            omega
          · -- the block moves to a fresh address
            split at hfin
            · cases hfin
            · next hfresh =>
              cases hfin
              have hnot : result ∉ (vm3.blocks.filter (fun b => !(b.1 == p))).map Prod.fst := by
                intro hm
                apply not_mem_keys_of_blockSize_none hfresh
                exact (List.Sublist.map _ (List.filter_sublist vm3.blocks)).subset hm
              refine ⟨List.nodup_cons.mpr ⟨hnot, hdf⟩, ?_⟩
              simp only [sumBlocks_cons]
              push_cast
              omega

theorem runCalls_account (cfg : Config) (fuel : Nat) :
    ∀ (calls : List Call) (vm vm' : VM), (∀ c ∈ calls, c.KeepsAllocator) →
      runCalls cfg fuel calls vm = some vm' →
      ∃ evs, vm'.log = vm.log ++ evs
        ∧ (vm'.bytesAllocated : Int) % 2 ^ 64
            = ((vm.bytesAllocated : Int) + netDelta evs) % 2 ^ 64
        ∧ (vm.bytesAllocated < 2 ^ 64 → vm'.bytesAllocated < 2 ^ 64)
        ∧ (BlocksDistinct vm.blocks → (∀ e ∈ evs, callSizeOK e = true) →
            BlocksDistinct vm'.blocks
            ∧ (sumBlocks vm'.blocks : Int) = (sumBlocks vm.blocks : Int) + netDelta evs) := by
  intro calls
  induction calls with
  | nil =>
    intro vm vm' _ h
    cases h
    exact ⟨[], by simp, by simp [netDelta], fun h => h, fun hd _ => ⟨hd, by simp [netDelta]⟩⟩
  | cons c cs ih =>
    intro vm vm' hkeep h
    simp only [runCalls] at h
    split at h
    · cases h
    · next out hout =>
      obtain ⟨hkb, hkk, hkl⟩ := hkeep c (List.mem_cons_self _ _) vm
      obtain ⟨e1, hl1, hb1, hlt1, hs1⟩ := reallocate_account hout
      obtain ⟨e2, hl2, hb2, _, hs2⟩ := ih out.1 vm'
        (fun c' hc' => hkeep c' (List.mem_cons_of_mem _ hc')) h
      rw [hkl] at hl1
      rw [hkb] at hb1
      rw [hkk] at hs1
      refine ⟨e1 ++ e2, by rw [hl2, hl1, List.append_assoc], ?_, ?_, ?_⟩
      · rw [netDelta_append]; omega
      · intro _
        have hlt2 := (ih out.1 vm'
          (fun c' hc' => hkeep c' (List.mem_cons_of_mem _ hc')) h).choose_spec.2.2.1
        exact hlt2 hlt1
      · intro hd hok
        obtain ⟨hd1, hsum1⟩ := hs1 hd (fun e he => hok e (List.mem_append_left _ he))
        obtain ⟨hd2, hsum2⟩ := hs2 hd1 (fun e he => hok e (List.mem_append_right _ he))
        refine ⟨hd2, ?_⟩
        rw [netDelta_append]; omega

theorem runCalls_append (cfg : Config) (fuel : Nat) (a b : List Call) :
    ∀ vm : VM, runCalls cfg fuel (a ++ b) vm = (runCalls cfg fuel a vm).bind (runCalls cfg fuel b) := by
  induction a with
  | nil => intro vm; rfl
  | cons c cs ih =>
    intro vm
    simp only [List.cons_append, runCalls]
    cases reallocate cfg fuel (c.mutate vm) c.pointer c.oldSize c.newSize c.result with
    | none => rfl
    | some out => exact ih out.1

/-- What one call of `reallocate` adds to the record of calls: the call
itself, then the calls of the collections it starts, none of which asks for
memory. -/
theorem reallocate_log {cfg : Config} {fuel : Nat} {vm : VM} {pointer : Option Ptr}
    {oldSize newSize : Nat} {result : Ptr} {out : VM × Option Ptr}
    (h : reallocate cfg fuel vm pointer oldSize newSize result = some out) :
    ∃ frees, out.1.log = vm.log ++
        Event.reallocate pointer oldSize newSize (blockSize vm.blocks pointer) :: frees
      ∧ ∀ e ∈ frees, isFreeEvent e = true := by
  obtain ⟨vm3, ⟨frees, hlog, _, _, _, _, _, hfree⟩, hfin⟩ :=
    reallocateWith_middle (collectGarbage_onlyFrees cfg fuel) h
  cases out with
  | mk vm' r =>
    refine ⟨frees, ?_, hfree⟩
    rw [(reallocateFinish_counters hfin).2.2, hlog]
    simp [reallocateEnter]

/-- A call of `reallocate` that starts no collection records itself only. -/
theorem reallocate_log_quiet {cfg : Config} {fuel : Nat} {vm : VM} {pointer : Option Ptr}
    {oldSize newSize : Nat} {result : Ptr} {out : VM × Option Ptr}
    (hstress : cfg.debugStressGC = false ∨ newSize ≤ oldSize)
    (hq : (reallocateEnter vm pointer oldSize newSize).bytesAllocated ≤ vm.nextGC)
    (h : reallocate cfg fuel vm pointer oldSize newSize result = some out) :
    out.1.log = vm.log ++
      [Event.reallocate pointer oldSize newSize (blockSize vm.blocks pointer)] := by
  have hq' : ¬ (reallocateEnter vm pointer oldSize newSize).bytesAllocated
      > (reallocateEnter vm pointer oldSize newSize).nextGC := by
    rw [reallocateEnter_nextGC]
    exact Nat.not_lt.2 hq
  have hs' : ¬ (newSize > oldSize ∧ cfg.debugStressGC = true) := by
    rintro ⟨h1, h2⟩
    rcases hstress with hs | hs
    · rw [hs] at h2; cases h2
    · exact absurd h1 (Nat.not_lt.2 hs)
  unfold reallocate reallocateWith at h
  rw [if_neg hs'] at h
  simp only at h
  rw [if_neg hq'] at h
  simp only at h
  obtain ⟨vm', r⟩ := out
  rw [(reallocateFinish_counters h).2.2]
  rfl

theorem netDelta_nonpos_of_free : ∀ frees : List Event,
    (∀ e ∈ frees, isFreeEvent e = true) → netDelta frees ≤ 0 := by
  intro frees
  induction frees with
  | nil => intro _; simp [netDelta]
  | cons e es ih =>
    intro h
    have h1 := ih (fun e' he' => h e' (List.mem_cons_of_mem _ he'))
    have h2 := h e (List.mem_cons_self _ _)
    simp only [netDelta]
    cases e with
    | reallocate p o n b =>
      simp only [isFreeEvent, beq_iff_eq] at h2
      subst h2
      simp only [Event.delta]
      push_cast
      omega
    | collectGarbage => simp only [Event.delta]; omega
    | freeObject _ => simp only [Event.delta]; omega

/-- C8. Take a sequence of calls of `reallocate`, the program being free to
change the heap and the roots between them, and any one call `c` of it, made
in state `vm1` and left in state `vm2`.  The call records itself, followed by
the calls of the collections it starts, all of them frees, and none when the
call starts no collection; `bytesAllocated` after the call is its value before
plus `newSize` minus `oldSize`, net of those frees, in `size_t` arithmetic.
And when each recorded call so far passed as
`oldSize` the size its block had then (0 for `NULL`), and at the start no
address was that of two live blocks and `bytesAllocated` was the sum of the
sizes of the live blocks, then `bytesAllocated` is the sum of the sizes of the
live blocks before the call, and after it too when the call and the frees of
its collections pass the sizes of their blocks; that sum has changed by
`newSize` minus `oldSize`, net of the frees. -/
theorem bytesAllocated_tracks_live_blocks (cfg : Config) (fuel : Nat) (pre : List Call)
    (c : Call) (post : List Call) (vm vm' : VM)
    (hkeep : ∀ c' ∈ pre ++ c :: post, c'.KeepsAllocator)
    (hrun : runCalls cfg fuel (pre ++ c :: post) vm = some vm') :
    ∃ (vm1 vm2 : VM) (r : Option Ptr) (evs frees : List Event),
      runCalls cfg fuel pre vm = some vm1
      ∧ reallocate cfg fuel (c.mutate vm1) c.pointer c.oldSize c.newSize c.result = some (vm2, r)
      ∧ runCalls cfg fuel post vm2 = some vm'
      ∧ vm1.log = vm.log ++ evs
      ∧ vm2.log = vm1.log ++
          Event.reallocate c.pointer c.oldSize c.newSize (blockSize vm1.blocks c.pointer) :: frees
      ∧ (∀ e ∈ frees, isFreeEvent e = true) ∧ netDelta frees ≤ 0
      ∧ ((cfg.debugStressGC = false ∨ c.newSize ≤ c.oldSize) →
          (reallocateEnter (c.mutate vm1) c.pointer c.oldSize c.newSize).bytesAllocated
            ≤ (c.mutate vm1).nextGC → frees = [])
      ∧ (vm2.bytesAllocated : Int)
          = ((vm1.bytesAllocated : Int) + ((c.newSize : Int) - (c.oldSize : Int))
              + netDelta frees) % 2 ^ 64
      ∧ ((∀ e ∈ evs, callSizeOK e = true) → BlocksDistinct vm.blocks →
          vm.bytesAllocated = sumBlocks vm.blocks % 2 ^ 64 →
          vm1.bytesAllocated = sumBlocks vm1.blocks % 2 ^ 64 ∧ BlocksDistinct vm1.blocks
          ∧ (blockSize vm1.blocks c.pointer = some c.oldSize →
              (∀ e ∈ frees, callSizeOK e = true) →
              vm2.bytesAllocated = sumBlocks vm2.blocks % 2 ^ 64 ∧ BlocksDistinct vm2.blocks
              ∧ (sumBlocks vm2.blocks : Int) = (sumBlocks vm1.blocks : Int)
                  + ((c.newSize : Int) - (c.oldSize : Int)) + netDelta frees)) := by
  rw [runCalls_append] at hrun
  cases h1 : runCalls cfg fuel pre vm with
  | none => rw [h1] at hrun; cases hrun
  | some vm1 =>
    rw [h1] at hrun
    simp only [Option.bind, runCalls] at hrun
    cases h2 : reallocate cfg fuel (c.mutate vm1) c.pointer c.oldSize c.newSize c.result with
    | none => rw [h2] at hrun; cases hrun
    | some out =>
      rw [h2] at hrun
      simp only at hrun
      obtain ⟨vm2, r⟩ := out
      obtain ⟨hkb, hkk, hkl⟩ := hkeep c (List.mem_append_right _ (List.mem_cons_self _ _)) vm1
      obtain ⟨evs, hl1, hb1, hlt1, hs1⟩ := runCalls_account cfg fuel pre vm vm1
        (fun c' hc' => hkeep c' (List.mem_append_left _ hc')) h1
      obtain ⟨evs2, hl2, hb2, hlt2, hs2⟩ := reallocate_account h2
      obtain ⟨frees, hl2', hfree⟩ := reallocate_log h2
      have hev : evs2 = Event.reallocate c.pointer c.oldSize c.newSize
          (blockSize (c.mutate vm1).blocks c.pointer) :: frees :=
        List.append_cancel_left (hl2.symm.trans hl2')
      subst hev
      rw [hkk] at hl2 hs2
      rw [hkl] at hl2
      rw [hkb] at hb2
      simp only [netDelta, Event.delta] at hb2 hs2
      refine ⟨vm1, vm2, r, evs, frees, rfl, h2, hrun, hl1, hl2, hfree,
        netDelta_nonpos_of_free frees hfree, ?_, ?_, ?_⟩
      · intro hstress hq
        have hlq := reallocate_log_quiet hstress hq h2
        rw [hkl, hkk] at hlq
        have := List.append_cancel_left (hl2.symm.trans hlq)
        simpa using this
      · have hlt2' : vm2.bytesAllocated < 2 ^ 64 := hlt2
        have hb2' : (vm2.bytesAllocated : Int) % 2 ^ 64
            = ((vm1.bytesAllocated : Int)
                + ((c.newSize : Int) - (c.oldSize : Int) + netDelta frees)) % 2 ^ 64 := hb2
        omega
      · intro hsz hd hb
        obtain ⟨hd1, hsum1⟩ := hs1 hd hsz
        have hlt1' : vm1.bytesAllocated < 2 ^ 64 := hlt1 (by rw [hb]; omega)
        have hv1 : vm1.bytesAllocated = sumBlocks vm1.blocks % 2 ^ 64 := by
          have h0 : (vm.bytesAllocated : Int) = (sumBlocks vm.blocks : Int) % 2 ^ 64 := by
            rw [hb]; push_cast; rfl
          have h3 : ((vm1.bytesAllocated : Nat) : Int)
              = ((sumBlocks vm1.blocks % 2 ^ 64 : Nat) : Int) := by
            push_cast
            omega
          exact Int.ofNat_inj.mp h3
        refine ⟨hv1, hd1, ?_⟩
        intro hcall hfsz
        obtain ⟨hd2, hsum2⟩ := hs2 hd1 (by
          intro e he
          rcases List.mem_cons.1 he with he1 | he1
          · rw [he1]
            simp only [callSizeOK, hcall, beq_self_eq_true]
          · exact hfsz e he1)
        have hlt2' : vm2.bytesAllocated < 2 ^ 64 := hlt2
        have hsum2' : (sumBlocks vm2.blocks : Int) = (sumBlocks vm1.blocks : Int)
            + ((c.newSize : Int) - (c.oldSize : Int) + netDelta frees) := hsum2
        have hb2' : (vm2.bytesAllocated : Int) % 2 ^ 64
            = ((vm1.bytesAllocated : Int)
                + ((c.newSize : Int) - (c.oldSize : Int) + netDelta frees)) % 2 ^ 64 := hb2
        refine ⟨?_, hd2, by omega⟩
        have h3 : ((vm2.bytesAllocated : Nat) : Int)
            = ((sumBlocks vm2.blocks % 2 ^ 64 : Nat) : Int) := by
          have hv1' : (vm1.bytesAllocated : Int) = (sumBlocks vm1.blocks : Int) % 2 ^ 64 := by
            rw [hv1]; push_cast; rfl
          push_cast
          omega
        exact Int.ofNat_inj.mp h3

/-- C8, at an instance: the first of the two example calls from the example
state, which asks for 48 bytes and starts a collection; `bytesAllocated` goes
from 500 to 500, the 48 bytes being offset by the objects freed, and the sum of
the live blocks with it. -/
theorem bytesAllocated_tracks_live_blocks_witness :
    ∃ (vm1 vm2 : VM) (r : Option Ptr) (frees : List Event),
      runCalls exampleConfig 3 [] exampleVM = some vm1
      ∧ reallocate exampleConfig 3 vm1 none 0 48 400 = some (vm2, r)
      ∧ vm2.log = vm1.log ++ Event.reallocate none 0 48 (some 0) :: frees
      ∧ (∀ e ∈ frees, isFreeEvent e = true) ∧ netDelta frees ≤ 0
      ∧ (vm2.bytesAllocated : Int)
          = ((vm1.bytesAllocated : Int) + ((48 : Int) - 0) + netDelta frees) % 2 ^ 64
      ∧ vm1.bytesAllocated = sumBlocks vm1.blocks % 2 ^ 64
      ∧ vm2.bytesAllocated = sumBlocks vm2.blocks % 2 ^ 64
      ∧ (sumBlocks vm2.blocks : Int) = (sumBlocks vm1.blocks : Int) + ((48 : Int) - 0)
          + netDelta frees := by
  have hev : (runCalls exampleConfig 3 exampleCalls exampleVM).map
      (fun vm => vm.log.all callSizeOK) = some true := by decide
  cases h : runCalls exampleConfig 3 exampleCalls exampleVM with
  | none => rw [h] at hev; cases hev
  | some vm' =>
    have hkeep : ∀ c ∈ [] ++ exampleCalls, c.KeepsAllocator := by
      intro c hc
      simp only [exampleCalls, List.nil_append, List.mem_cons, List.mem_singleton,
        List.not_mem_nil, or_false] at hc
      rcases hc with rfl | rfl <;> exact fun vm => ⟨rfl, rfl, rfl⟩
    obtain ⟨vm1, vm2, r, evs, frees, h1, h2, h3, h4, h5, h6, h7, _, h8, h9⟩ :=
      bytesAllocated_tracks_live_blocks exampleConfig 3 [] _ _ exampleVM vm' hkeep h
    have hvm1 : vm1 = exampleVM := by
      simp only [runCalls, Option.some.injEq] at h1
      exact h1.symm
    subst hvm1
    have hevs : evs = [] := by
      have := h4
      simpa using this
    subst hevs
    obtain ⟨ha, _, hb⟩ := h9 (by intro e he; cases he) (by decide) (by decide)
    have hfr : (reallocate exampleConfig 3 exampleVM none 0 48 400).map
        (fun out => out.1.log.all callSizeOK) = some true := by decide
    have h2' : reallocate exampleConfig 3 exampleVM none 0 48 400 = some (vm2, r) := h2
    rw [h2'] at hfr
    have hall : vm2.log.all callSizeOK = true := by simpa using hfr
    rw [List.all_eq_true] at hall
    have h5' : vm2.log = exampleVM.log ++ Event.reallocate none 0 48 (some 0) :: frees := h5
    obtain ⟨hc1, _, hc2⟩ := hb rfl (fun e he => hall e (by
      rw [h5']
      exact List.mem_append_right _ (List.mem_cons_of_mem _ he)))
    exact ⟨exampleVM, vm2, r, frees, rfl, h2', h5', h6, h7, h8, ha, hc1, hc2⟩

/-- C9, at an instance: a call from the example state that asks for 48 bytes
and starts a collection. -/
theorem reallocate_nextGC_ge_bytesAllocated_witness :
    ∃ vm' r, reallocate exampleConfig 3 exampleVM none 0 48 400 = some (vm', r)
      ∧ vm'.bytesAllocated * 2 < 2 ^ 64 ∧ vm'.nextGC ≥ vm'.bytesAllocated := by
  have hev : (reallocate exampleConfig 3 exampleVM none 0 48 400).map
      (fun out => out.1.bytesAllocated) = some 500 := by decide
  cases h : reallocate exampleConfig 3 exampleVM none 0 48 400 with
  | none => rw [h] at hev; cases hev
  | some out =>
    rw [h] at hev
    have hb : out.1.bytesAllocated = 500 := by simpa using hev
    have hno : out.1.bytesAllocated * 2 < 2 ^ 64 := by rw [hb]; norm_num
    exact ⟨out.1, out.2, rfl, hno,
      reallocate_nextGC_ge_bytesAllocated exampleConfig 3 exampleVM out.1 none out.2 0 48 400
        h hno⟩
/-! ## `nextGC` after `collectGarbage` -/

/-- C11. When `collectGarbage` returns, the state is the one `sweep` left with
`nextGC` set, and `nextGC` is twice the `bytesAllocated` that `sweep` left,
modulo `2 ^ 64`. -/
theorem collectGarbage_sets_nextGC (cfg : Config) (fuel : Nat) (vm vm' : VM)
    (h : collectGarbage cfg fuel vm = some vm') :
    (∃ vmMarked vmSwept, sweepWith (collectGarbage cfg (fuel - 1)) cfg fuel vmMarked
        = some vmSwept
      ∧ vm' = { vmSwept with nextGC := vmSwept.bytesAllocated * 2 % 2 ^ 64 })
      ∧ vm'.nextGC = 2 * vm'.bytesAllocated % 2 ^ 64 := by
  cases fuel with
  | zero => cases h
  | succ n =>
    unfold collectGarbage at h
    split at h
    · cases h
    · split at h
      · cases h
      · split at h
        · cases h
        · split at h
          · cases h
          · next vm4 h4 =>
            cases h
            refine ⟨⟨_, vm4, h4, rfl⟩, ?_⟩
            simp only
            rw [Nat.mul_comm]

/-- C11, at an instance: a collection from the example state. -/
theorem collectGarbage_sets_nextGC_witness :
    ∃ vm', collectGarbage exampleConfig 3 exampleVM = some vm'
      ∧ vm'.bytesAllocated = 476 ∧ vm'.nextGC = 2 * vm'.bytesAllocated % 2 ^ 64 := by
  have hev : (collectGarbage exampleConfig 3 exampleVM).map (fun v => v.bytesAllocated)
      = some 476 := by decide
  cases h : collectGarbage exampleConfig 3 exampleVM with
  | none => rw [h] at hev; cases hev
  | some vm' =>
    rw [h] at hev
    exact ⟨vm', rfl, by simpa using hev,
      (collectGarbage_sets_nextGC exampleConfig 3 exampleVM vm' h).2⟩

/-! ## `adjustCapacity` and `tableDelete`, slot by slot -/

/-- C15. On a well-formed table that holds key `k` in slot `i`, `tableDelete`
returns true and turns slot `i` into a tombstone; every other slot, the
capacity and the count are as before, and `tableGet` of every other key
returns what it returned before. -/
theorem tableDelete_writes_one_tombstone (mem : StringMem) (t : Table) (k : Ptr) (i : Nat)
    (hwf : WellFormed mem t) (hk : keyAt t.entries i = some k) :
    ∃ t', tableDelete mem t k = some (t', true)
      ∧ t'.entries[i]? = some { key := none, value := Value.bool true }
      ∧ (∀ j : Nat, j ≠ i → t'.entries[j]? = t.entries[j]?)
      ∧ t'.entries.length = t.entries.length
      ∧ t'.capacity = t.capacity ∧ t'.count = t.count
      ∧ ∀ k', k' ≠ k → tableGet mem t' k' = tableGet mem t k' := by
  obtain ⟨hdel, hinv'⟩ := tableDelete_of_keyAt hwf.1 hk
  have hil : i < t.entries.length := keyAt_lt hk
  refine ⟨_, hdel, ?_, ?_, by simp, rfl, rfl, ?_⟩
  · simp only
    rw [getElem?_set_lt _ hil, if_pos rfl]
  · intro j hj
    simp only
    rw [getElem?_set_lt _ hil, if_neg hj]
  · intro k' hkk
    rw [tableGet_eq_lookup hinv', tableGet_eq_lookup hwf.1]
    have := lookup_set_tombstone
      { t with entries := t.entries.set i { key := none, value := Value.bool true } }
      hwf.1.len hwf.1.distinct hinv'.distinct rfl rfl hk k'
    rw [this, if_neg hkk]

/-- C15, at an instance: deleting key 9, which the example table holds in
slot 2. -/
theorem tableDelete_writes_one_tombstone_witness :
    WellFormed exampleMem exampleTable ∧ keyAt exampleTable.entries 2 = some 9
      ∧ ∃ t', tableDelete exampleMem exampleTable 9 = some (t', true)
        ∧ t'.entries[2]? = some { key := none, value := Value.bool true }
        ∧ (∀ j : Nat, j ≠ 2 → t'.entries[j]? = exampleTable.entries[j]?)
        ∧ t'.entries.length = exampleTable.entries.length
        ∧ t'.capacity = exampleTable.capacity ∧ t'.count = exampleTable.count
        ∧ ∀ k', k' ≠ 9 → tableGet exampleMem t' k' = tableGet exampleMem exampleTable k' :=
  ⟨by decide, by decide,
    tableDelete_writes_one_tombstone exampleMem exampleTable 9 2 (by decide) (by decide)⟩

/-! ## `findEntry` on any array with an empty slot -/

theorem findEntryLoop_mono {entries : List Entry} {capacity : Nat} {key : Ptr} :
    ∀ (fuel s : Nat) (tomb : Option Nat) (r : Nat),
      findEntryLoop entries capacity key fuel s tomb = some r →
      ∀ k, findEntryLoop entries capacity key (fuel + k) s tomb = some r := by
  intro fuel
  induction fuel with
  | zero => intro s tomb r h; simp [findEntryLoop] at h
  | succ f ih =>
    intro s tomb r h k
    have hk : f + 1 + k = (f + k) + 1 := by omega
    rw [hk]
    simp only [findEntryLoop] at h ⊢
    split at h
    · cases h
    · next e he =>
      split at h
      · split at h
        · next hc => rw [if_pos hc]; exact h
        · next hc => rw [if_neg hc]; exact ih _ _ _ h k
      · split at h
        · next hc => rw [if_pos hc]; exact h
        · next hc => rw [if_neg hc]; exact ih _ _ _ h k

/-- C18. On an entries array of `capacity` slots, `capacity` a power of two,
with at least one empty slot, `findEntry` returns after at most `capacity`
probes (`d + 1` of them, where `d` is the first step of the probe sequence from
`hash & (capacity - 1)` at which the slot is empty or holds the key).  It
returns the slot that holds the key when step `d` meets the key; otherwise the
slot of step `d` is empty and it returns a slot without key: the first
tombstone of the steps before `d` if there is one, else that empty slot. -/
theorem findEntry_returns_key_or_first_free (mem : StringMem) (entries : List Entry)
    (capacity : Nat) (key : Ptr)
    (hlen : entries.length = capacity) (hp : ∃ m, capacity = 2 ^ m)
    (hempty : ∃ (i : Nat) (e : Entry), entries[i]? = some e ∧ e.key = none
      ∧ e.value = Value.nil) :
    ∃ d r, d < capacity
      ∧ findEntryLoop entries capacity key (d + 1) (home mem capacity key) none = some r
      ∧ findEntry mem entries capacity key = some r
      ∧ (∀ n, n < d → slotUsed entries ((home mem capacity key + n) % capacity) = true
          ∧ keyAt entries ((home mem capacity key + n) % capacity) ≠ some key)
      ∧ (keyAt entries ((home mem capacity key + d) % capacity) = some key →
          r = (home mem capacity key + d) % capacity)
      ∧ (keyAt entries ((home mem capacity key + d) % capacity) ≠ some key →
          slotUsed entries ((home mem capacity key + d) % capacity) = false
          ∧ keyAt entries r = none
          ∧ ((∃ n, n < d
                ∧ tombstoneAt entries ((home mem capacity key + n) % capacity) = true
                ∧ (∀ n', n' < n →
                    tombstoneAt entries ((home mem capacity key + n') % capacity) = false)
                ∧ r = (home mem capacity key + n) % capacity)
              ∨ ((∀ n, n < d →
                    tombstoneAt entries ((home mem capacity key + n) % capacity) = false)
                ∧ r = (home mem capacity key + d) % capacity))) := by
  have hp' : ∃ m, m < capacity ∧ capacity = 2 ^ m := by
    obtain ⟨m, hm⟩ := hp
    exact ⟨m, by rw [hm]; exact Nat.lt_two_pow m, hm⟩
  have hc := pow2_pos hp'
  have hh := home_lt mem hp' key
  have hfe : findEntry mem entries capacity key
      = findEntryLoop entries capacity key capacity (home mem capacity key) none := rfl
  rw [hfe]
  generalize home mem capacity key = h at hh ⊢
  obtain ⟨i, e0, hie, hk0, hv0⟩ := hempty
  have hi : i < capacity := by
    by_contra hge
    rw [List.getElem?_eq_none (by omega)] at hie
    cases hie
  have hu0 : usedE e0 = false := by simp [usedE, hk0, hv0, IS_NIL]
  have hex : ∃ n, ∃ e, entries[(h + n) % capacity]? = some e
      ∧ (usedE e = false ∨ e.key = some key) :=
    ⟨(i + capacity - h) % capacity, e0, by rw [probe_reach hh hi]; exact hie, Or.inl hu0⟩
  classical
  have hd := Nat.find_spec hex
  have hdle : Nat.find hex ≤ (i + capacity - h) % capacity :=
    Nat.find_min' hex ⟨e0, by rw [probe_reach hh hi]; exact hie, Or.inl hu0⟩
  have hmin : ∀ n, n < Nat.find hex → slotUsed entries ((h + n) % capacity) = true
      ∧ keyAt entries ((h + n) % capacity) ≠ some key := by
    intro n hn
    have hnot := Nat.find_min hex hn
    have hlt : (h + n) % capacity < entries.length := by
      rw [hlen]; exact Nat.mod_lt _ hc
    have he : entries[(h + n) % capacity]? = some entries[(h + n) % capacity] :=
      List.getElem?_eq_getElem hlt
    constructor
    · simp only [slotUsed, he]
      by_contra hu
      exact hnot ⟨_, he, Or.inl (by simpa using hu)⟩
    · simp only [keyAt, he]
      intro hk
      exact hnot ⟨_, he, Or.inr hk⟩
  generalize Nat.find hex = d at hd hdle hmin
  have hdlt : d < capacity := by
    have := probe_dist_lt (c := capacity) (h := h) (i := i) hc
    omega
  obtain ⟨r, hr, h1, h2⟩ := findEntryLoop_spec key hp' d (d + 1) h none (by omega) hh hmin hd
  have hr' := findEntryLoop_mono _ _ _ _ hr (capacity - (d + 1))
  rw [show d + 1 + (capacity - (d + 1)) = capacity by omega] at hr'
  refine ⟨d, r, hdlt, hr, hr', hmin, h1, ?_⟩
  intro hne
  obtain ⟨e, hde, hstop⟩ := hd
  have hkd : keyAt entries ((h + d) % capacity) = e.key := by simp [keyAt, hde]
  have hue : usedE e = false := by
    rcases hstop with hu | hk
    · exact hu
    · exact absurd (hkd.trans hk) hne
  obtain ⟨_, h3⟩ := h2 hne
  obtain ⟨n, hn, hrn, hkr, hall⟩ := h3 rfl
  refine ⟨by simp [slotUsed, hde, hue], hkr, ?_⟩
  have hnotomb : ∀ n', n' < n → tombstoneAt entries ((h + n') % capacity) = false := by
    intro n' hn'
    have hk' := hall n' hn'
    unfold tombstoneAt
    unfold keyAt at hk'
    split
    · next e' he' =>
      rw [he'] at hk'
      cases hkk : e'.key with
      | none => exact absurd hkk hk'
      | some k' => simp
    · rfl
  by_cases hnd : n = d
  · right
    subst hnd
    exact ⟨hnotomb, hrn⟩
  · left
    have hnlt : n < d := by omega
    refine ⟨n, hnlt, ?_, hnotomb, hrn⟩
    obtain ⟨e', he', hue'⟩ := slotUsed_eq_true (hmin n hnlt).1
    have hkn : e'.key = none := by
      rw [hrn] at hkr
      simpa [keyAt, he'] using hkr
    simp only [tombstoneAt, he']
    simpa [usedE, hkn] using hue'

/-- C18, at an instance: in the example table the probe of key 17 starts at the
tombstone of slot 1, passes key 9 in slot 2 and stops at the empty slot 3; the
tombstone is returned. -/
theorem findEntry_returns_key_or_first_free_witness :
    findEntry exampleMem exampleTable.entries 8 17 = some 1
      ∧ ∃ d r, d < 8
        ∧ findEntryLoop exampleTable.entries 8 17 (d + 1) (home exampleMem 8 17) none = some r
        ∧ findEntry exampleMem exampleTable.entries 8 17 = some r
        ∧ (∀ n, n < d → slotUsed exampleTable.entries ((home exampleMem 8 17 + n) % 8) = true
            ∧ keyAt exampleTable.entries ((home exampleMem 8 17 + n) % 8) ≠ some 17)
        ∧ (keyAt exampleTable.entries ((home exampleMem 8 17 + d) % 8) = some 17 →
            r = (home exampleMem 8 17 + d) % 8)
        ∧ (keyAt exampleTable.entries ((home exampleMem 8 17 + d) % 8) ≠ some 17 →
            slotUsed exampleTable.entries ((home exampleMem 8 17 + d) % 8) = false
            ∧ keyAt exampleTable.entries r = none
            ∧ ((∃ n, n < d
                  ∧ tombstoneAt exampleTable.entries ((home exampleMem 8 17 + n) % 8) = true
                  ∧ (∀ n', n' < n →
                      tombstoneAt exampleTable.entries ((home exampleMem 8 17 + n') % 8)
                        = false)
                  ∧ r = (home exampleMem 8 17 + n) % 8)
                ∨ ((∀ n, n < d →
                      tombstoneAt exampleTable.entries ((home exampleMem 8 17 + n) % 8)
                        = false)
                  ∧ r = (home exampleMem 8 17 + d) % 8))) :=
  ⟨by decide,
    findEntry_returns_key_or_first_free exampleMem exampleTable.entries 8 17 (by decide)
      ⟨3, by norm_num⟩ ⟨0, { key := none, value := Value.nil }, by decide, rfl, rfl⟩⟩

/-! ## The count field -/

theorem used_eq_occupied_add_tombstones (entries : List Entry) :
    entries.countP usedE = occupied entries + tombstones entries := by
  unfold occupied tombstones
  induction entries with
  | nil => rfl
  | cons e es ih =>
    simp only [List.countP_cons, ih]
    cases hk : e.key <;> cases hv : IS_NIL e.value <;> simp [usedE, hk, hv] <;> omega

/-- What `tablePut` does to the count of a well-formed table: a rehash, when
the growth test asks for one, resets it to the number of occupied slots; then
it goes up by one when the slot `findEntry` returns is empty and stays as it
is when that slot is a tombstone or holds the key. -/
theorem tablePut_count {mem : StringMem} {t : Table} (hwf : WellFormed mem t)
    (key : Ptr) (v : Value) :
    ∃ t1 r e t' b, tablePut mem t key v = some (t', b)
      ∧ ((¬ 4 * (t.count + 1) > 3 * t.capacity ∧ t1 = t)
          ∨ (4 * (t.count + 1) > 3 * t.capacity
              ∧ adjustCapacityLoops mem t (GROW_CAPACITY t.capacity) = some t1
              ∧ t1.count = occupied t.entries))
      ∧ findEntry mem t1.entries t1.capacity key = some r ∧ t1.entries[r]? = some e
      ∧ t'.count = (if e.key = none ∧ e.value = Value.nil then t1.count + 1 else t1.count) := by
  obtain ⟨t1, ht1, hinv1, hE1, _, _, _⟩ := tablePut_grow hwf
  obtain ⟨r, hr, hrlt, _⟩ := findEntry_cases hE1 key
  have hrl : r < t1.entries.length := by rw [hE1.1]; exact hrlt
  have her : t1.entries[r]? = some t1.entries[r] := List.getElem?_eq_getElem hrl
  generalize t1.entries[r] = e at her
  have hput : tablePut mem t key v = some
      ({ count := if e.key.isNone && IS_NIL e.value then t1.count + 1 else t1.count,
         capacity := t1.capacity,
         entries := t1.entries.set r { key := some key, value := v } }, e.key.isNone) := by
    unfold tablePut
    rw [ht1]
    simp only [hr, her]
  refine ⟨t1, r, e, _, _, hput, ?_, hr, her, ?_⟩
  · by_cases hg : 4 * (t.count + 1) > 3 * t.capacity
    · right
      rw [if_pos hg] at ht1
      have hpow : t.capacity = 0 ∨ ∃ m, m < t.capacity ∧ t.capacity = 2 ^ m := by
        rcases hwf.1.2 with ⟨h0, _⟩ | h1
        · exact Or.inl h0
        · exact Or.inr h1.2.1
      have hocc := occupied_le_used t.entries
      rw [← hwf.1.1] at hocc
      have hload := hwf.2
      have hroom : occupied t.entries < GROW_CAPACITY t.capacity := by
        unfold GROW_CAPACITY; split <;> omega
      obtain ⟨t1', ht1', _, _, _, hcount, _, _⟩ :=
        adjustCapacityLoops_spec mem hwf.1.len hwf.1.distinct (grow_pow2 hpow) hroom
      rw [ht1'] at ht1
      cases ht1
      exact ⟨hg, ht1', hcount⟩
    · left
      rw [if_neg hg] at ht1
      cases ht1
      exact ⟨hg, rfl⟩
  · simp only
    cases hk : e.key <;> cases hv : e.value <;> simp [IS_NIL]

theorem runActions_spec (mem : StringMem) :
    ∀ (actions : List TableAction) (t : Table), WellFormed mem t →
      (∀ src, TableAction.step (TableStep.addAll src) ∈ actions →
        src.entries.length = src.capacity) →
      ∃ t', runActions mem actions t = some t' ∧ WellFormed mem t' := by
  intro actions
  induction actions with
  | nil => intro t hwf _; exact ⟨t, rfl, hwf⟩
  | cons a as ih =>
    intro t hwf hsrc
    have hstep : ∃ t1, applyAction mem t a = some t1 ∧ WellFormed mem t1 := by
      cases a with
      | step s =>
        obtain ⟨t1, h1, hwf1, _⟩ := runSteps_spec mem [s] t hwf (by
          intro src hmem
          rw [List.mem_singleton] at hmem
          subst hmem
          exact hsrc src (List.mem_cons_self _ _))
        refine ⟨t1, ?_, hwf1⟩
        simp only [runSteps] at h1
        split at h1
        · cases h1
        · next t2 h2 => cases h1; exact h2
      | removeWhite =>
        obtain ⟨t1, h1, hinv1, hcap, hcnt, _⟩ := tableRemoveWhite_spec hwf.1
        exact ⟨t1, h1, hinv1, by rw [hcap, hcnt]; exact hwf.2⟩
    obtain ⟨t1, h1, hwf1⟩ := hstep
    obtain ⟨t', h', hwf'⟩ := ih t1 hwf1
      (fun src hmem => hsrc src (List.mem_cons_of_mem _ hmem))
    exact ⟨t', by simp [runActions, h1, h'], hwf'⟩

/-- C19. A table reached from `initTable` by `tablePut`, `tableDelete`,
`tableAddAll` (from tables whose array has `capacity` slots) and
`tableRemoveWhite` has a count equal to its number of occupied slots plus its
number of tombstones, so a count of zero means that no slot holds a key.  On
such a table `tableDelete` leaves the count as it is, and `tablePut` first
resets it to the number of occupied slots when it rehashes, then adds one
exactly when the slot it fills is empty (no key and a nil value). -/
theorem count_is_occupied_plus_tombstones (mem : StringMem) (actions : List TableAction)
    (hsrc : ∀ src, TableAction.step (TableStep.addAll src) ∈ actions →
      src.entries.length = src.capacity) :
    ∃ t, runActions mem actions initTable = some t
      ∧ t.count = occupied t.entries + tombstones t.entries
      ∧ (t.count = 0 → ∀ i, keyAt t.entries i = none)
      ∧ (∀ k, ∃ t' b, tableDelete mem t k = some (t', b) ∧ t'.count = t.count)
      ∧ (∀ k v, ∃ t1 r e t' b, tablePut mem t k v = some (t', b)
          ∧ ((¬ 4 * (t.count + 1) > 3 * t.capacity ∧ t1 = t)
              ∨ (4 * (t.count + 1) > 3 * t.capacity
                  ∧ adjustCapacityLoops mem t (GROW_CAPACITY t.capacity) = some t1
                  ∧ t1.count = occupied t.entries))
          ∧ findEntry mem t1.entries t1.capacity k = some r ∧ t1.entries[r]? = some e
          ∧ t'.count
              = (if e.key = none ∧ e.value = Value.nil then t1.count + 1 else t1.count)) := by
  obtain ⟨t, ht, hwf⟩ := runActions_spec mem actions initTable (wellFormed_initTable mem) hsrc
  refine ⟨t, ht, ?_, ?_, ?_, fun k v => tablePut_count hwf k v⟩
  · rw [hwf.1.1, used_eq_occupied_add_tombstones]
  · intro h0 i
    cases hk : keyAt t.entries i with
    | none => rfl
    | some k =>
      have := keyAt_isSome_used hk
      rw [← hwf.1.1] at this
      omega
  · intro k
    obtain ⟨t', b, h, _, hc, _⟩ := tableDelete_spec hwf.1 k
    exact ⟨t', b, h, hc⟩

/-- C19, at an instance: two puts, a delete, the weak pass, an add-all from the
example table and a last put. -/
theorem count_is_occupied_plus_tombstones_witness :
    ∃ t, runActions exampleMem [TableAction.step (TableStep.put 1 Value.nil),
        TableAction.step (TableStep.put 2 Value.nil), TableAction.step (TableStep.delete 2),
        TableAction.removeWhite, TableAction.step (TableStep.addAll exampleTable),
        TableAction.step (TableStep.put 12 (Value.bool true))] initTable = some t
      ∧ t.count = occupied t.entries + tombstones t.entries
      ∧ (t.count = 0 → ∀ i, keyAt t.entries i = none) := by
  obtain ⟨t, h1, h2, h3, _⟩ := count_is_occupied_plus_tombstones exampleMem
    [TableAction.step (TableStep.put 1 Value.nil),
      TableAction.step (TableStep.put 2 Value.nil), TableAction.step (TableStep.delete 2),
      TableAction.removeWhite, TableAction.step (TableStep.addAll exampleTable),
      TableAction.step (TableStep.put 12 (Value.bool true))] (by
    intro src h
    simp only [List.mem_cons, List.mem_singleton, TableAction.step.injEq,
      TableStep.addAll.injEq, reduceCtorEq, false_or, or_false, List.not_mem_nil] at h
    subst h
    rfl)
  exact ⟨t, h1, h2, h3⟩

/-! ## The defects of `reallocate` and `freeObject`, evaluated -/

/-- C17, at the failing input.  A call of `reallocate` that does not grow its
block still calls `collectGarbage` when it leaves `bytesAllocated` above
`nextGC`: its result is that of the collector followed by `free` or `realloc`.
In the run of `reallocate(NULL, 0, 500)` from the example state the record of
calls shows it: the call `reallocate(100, 24, 0)` that `freeObject` makes while
`sweep` runs is followed by a second entry into `collectGarbage`. -/
theorem reallocate_free_enters_collectGarbage :
    (∀ (collect : VM → Option VM) (cfg : Config) (vm : VM) (pointer : Option Ptr)
        (oldSize newSize : Nat) (result : Ptr), newSize ≤ oldSize →
        (reallocateEnter vm pointer oldSize newSize).bytesAllocated > vm.nextGC →
        reallocateWith collect cfg vm pointer oldSize newSize result
          = match collect (reallocateEnter vm pointer oldSize newSize) with
            | none => none
            | some vm3 => reallocateFinish vm3 pointer newSize result)
      ∧ ∀ fuel : Nat, (reallocate exampleConfig (fuel + 2) exampleVM none 0 500 400).map
          (fun out => out.1.log)
        = some [Event.reallocate none 0 500 (some 0), Event.collectGarbage,
            Event.freeObject 100, Event.reallocate (some 100) 24 0 (some 24),
            Event.collectGarbage,
            Event.freeObject 200, Event.reallocate (some 200) 24 0 (some 24)] := by
  constructor
  · intro collect cfg vm pointer oldSize newSize result hle hgt
    unfold reallocateWith
    rw [if_neg (by omega)]
    simp only
    rw [if_pos (by simpa [reallocateEnter] using hgt)]
  · intro fuel
    cases fuel with
    | zero => rfl
    | succ n => rfl

/-- C13, at the failing input.  `sweep` is entered with the object list
100, 200, object 200 marked and object 100 not.  It returns (for every bound
from 2 on) with an empty object list, and `freeObject` has been called on
object 200 as well as on object 100: the `free` of object 100 leaves
`bytesAllocated` above `nextGC`, `reallocate` runs a collection that clears the
mark of object 200, and the loop of `sweep` then finds it unmarked. -/
theorem sweep_frees_marked_object :
    exampleSweepVM.objects = some 100
      ∧ (exampleSweepVM.heap 100).map (fun o => (o.isMarked, o.next)) = some (false, some 200)
      ∧ (exampleSweepVM.heap 200).map (fun o => (o.isMarked, o.next)) = some (true, none)
      ∧ ∀ fuel : Nat,
        (sweepWith (collectGarbage exampleConfig (fuel + 1)) exampleConfig (fuel + 2)
            exampleSweepVM).map
          (fun vm => (vm.objects, (vm.heap 200).isSome, vm.log))
        = some (none, false,
            [Event.freeObject 100, Event.reallocate (some 100) 24 0 (some 24),
              Event.collectGarbage,
              Event.freeObject 200, Event.reallocate (some 200) 24 0 (some 24)]) := by
  refine ⟨rfl, rfl, rfl, ?_⟩
  intro fuel
  cases fuel with
  | zero => rfl
  | succ n => rfl

/-- A pointer that is not a live block before a call of `reallocate` is not one
when the call comes to `free` or `realloc`. -/
theorem reallocateWith_free_of_bad_pointer {collect : VM → Option VM} (hc : OnlyFrees collect)
    (cfg : Config) (vm : VM) (p : Ptr) (oldSize : Nat) (result : Ptr)
    (hbad : blockSize vm.blocks (some p) = none) :
    reallocateWith collect cfg vm (some p) oldSize 0 result = none := by
  cases h : reallocateWith collect cfg vm (some p) oldSize 0 result with
  | none => rfl
  | some out =>
    exfalso
    obtain ⟨vm3, ⟨_, _, _, _, hshrink, _, _, _⟩, hfin⟩ := reallocateWith_middle hc h
    unfold reallocateFinish at hfin
    rw [if_pos rfl] at hfin
    simp only at hfin
    split at hfin
    · cases hfin
    · next s hs =>
      have := hshrink p s hs
      simp only [reallocateEnter] at this
      rw [hbad] at this
      cases this

/-- C16, at the failing input.  For a closure with `upvalueCount` not zero,
`freeObject` passes to the allocator the integer `upvalueCount` cast to a
pointer, not `closure->upvalues`: whenever that address is not a live block the
call is a `free` of a pointer that was never allocated and does not return.
In the example state the closure at 500 owns the array at 700 and has one
upvalue; `freeObject` calls `free` on address 1. -/
theorem freeObject_closure_passes_count_as_pointer :
    (∀ (cfg : Config) (fuel : Nat) (vm : VM) (obj : Ptr) (o : Obj) (function upvalues : Option Ptr)
        (slots : List (Option Ptr)) (upvalueCount : Nat),
        vm.heap obj = some o → o.body = ObjBody.closure function upvalues slots upvalueCount →
        upvalueCount ≠ 0 → blockSize vm.blocks (some upvalueCount) = none →
        freeObjectWith (collectGarbage cfg fuel) cfg vm obj = none)
      ∧ blockSize exampleClosureVM.blocks (some 700) = some 8
      ∧ ∀ fuel : Nat,
        (freeObjectWith (collectGarbage exampleConfig fuel) exampleConfig exampleClosureVM 500).isNone
          = true := by
  have hgen : ∀ (cfg : Config) (fuel : Nat) (vm : VM) (obj : Ptr) (o : Obj)
      (function upvalues : Option Ptr) (slots : List (Option Ptr)) (upvalueCount : Nat),
      vm.heap obj = some o → o.body = ObjBody.closure function upvalues slots upvalueCount →
      upvalueCount ≠ 0 → blockSize vm.blocks (some upvalueCount) = none →
      freeObjectWith (collectGarbage cfg fuel) cfg vm obj = none := by
    intro cfg fuel vm obj o function upvalues slots upvalueCount ho hb hn hbad
    unfold freeObjectWith
    rw [ho]
    simp only [hb]
    have : FREE_ARRAY (collectGarbage cfg fuel) cfg
        { vm with log := vm.log ++ [Event.freeObject obj] } cfg.sizeofPointer
        (intToPtr upvalueCount) upvalueCount = none := by
      unfold FREE_ARRAY
      rw [intToPtr, if_neg hn,
        reallocateWith_free_of_bad_pointer (collectGarbage_onlyFrees cfg fuel) cfg
          { vm with log := vm.log ++ [Event.freeObject obj] } _ _ _ hbad]
      rfl
    rw [this]
  refine ⟨hgen, by decide, fun fuel => ?_⟩
  rw [hgen exampleConfig fuel exampleClosureVM 500 _ none (some 700) [none] 1 rfl rfl
    (by decide) (by decide)]
  rfl

/-! ## The mark phase -/

theorem markList_append (a b : List (Option Ptr)) :
    ∀ m : Marking, markList m (a ++ b) = (markList m a).bind (fun m1 => markList m1 b) := by
  induction a with
  | nil => intro m; rfl
  | cons p ps ih =>
    intro m
    simp only [List.cons_append, markList]
    cases markObject m p with
    | none => rfl
    | some m1 => exact ih m1

theorem markValue_eq_markObject (m : Marking) (v : Value) :
    markValue m v = markObject m (AS_OBJ v) := by
  unfold markValue
  cases AS_OBJ v <;> rfl

theorem markList_singleton (m : Marking) (p : Option Ptr) :
    markList m [p] = markObject m p := by
  simp only [markList]
  cases markObject m p <;> rfl

theorem forLoop_markObject (l : List (Option Ptr)) (body : Nat → Marking → Option Marking)
    (hbody : ∀ i m1, body i m1 = match l[i]? with
      | none => none
      | some u => markObject m1 u) :
    ∀ (n : Nat) (m : Marking), n ≤ l.length →
      forLoop body n m = markList m (l.take n) := by
  intro n
  induction n with
  | zero => intro m _; rfl
  | succ n ih =>
    intro m hn
    have hlt : n < l.length := hn
    rw [forLoop, ih m (Nat.le_of_lt hlt), List.take_succ, markList_append,
      List.getElem?_eq_getElem hlt]
    cases markList m (List.take n l) with
    | none => rfl
    | some m1 =>
      show body n m1 = markList m1 [l[n]]
      rw [hbody, List.getElem?_eq_getElem hlt]
      exact (markList_singleton m1 _).symm

theorem forLoop_markValue (l : List Value) (body : Nat → Marking → Option Marking)
    (hbody : ∀ i m1, body i m1 = match l[i]? with
      | none => none
      | some v => markValue m1 v) :
    ∀ (n : Nat) (m : Marking), n ≤ l.length →
      forLoop body n m = markList m ((l.take n).map AS_OBJ) := by
  intro n
  induction n with
  | zero => intro m _; rfl
  | succ n ih =>
    intro m hn
    have hlt : n < l.length := hn
    rw [forLoop, ih m (Nat.le_of_lt hlt), List.take_succ, List.map_append, markList_append,
      List.getElem?_eq_getElem hlt]
    cases markList m (List.map AS_OBJ (List.take n l)) with
    | none => rfl
    | some m1 =>
      show body n m1 = markList m1 [AS_OBJ l[n]]
      rw [hbody, List.getElem?_eq_getElem hlt]
      simp only []
      rw [markList_singleton, markValue_eq_markObject]

theorem entryEdges_append (a b : List Entry) :
    entryEdges (a ++ b) = entryEdges a ++ entryEdges b := by
  induction a with
  | nil => rfl
  | cons e es ih =>
    show e.key :: AS_OBJ e.value :: entryEdges (es ++ b) = _
    rw [ih]
    rfl

theorem forLoop_markEntry (l : List Entry) (body : Nat → Marking → Option Marking)
    (hbody : ∀ i m1, body i m1 = match l[i]? with
      | none => none
      | some entry =>
        match markObject m1 entry.key with
        | none => none
        | some m2 => markValue m2 entry.value) :
    ∀ (n : Nat) (m : Marking), n ≤ l.length →
      forLoop body n m = markList m (entryEdges (l.take n)) := by
  intro n
  induction n with
  | zero => intro m _; rfl
  | succ n ih =>
    intro m hn
    have hlt : n < l.length := hn
    rw [forLoop, ih m (Nat.le_of_lt hlt), List.take_succ, entryEdges_append, markList_append,
      List.getElem?_eq_getElem hlt]
    cases markList m (entryEdges (List.take n l)) with
    | none => rfl
    | some m1 =>
      show body n m1 = markList m1 [l[n].key, AS_OBJ l[n].value]
      rw [hbody, List.getElem?_eq_getElem hlt]
      simp only [markList]
      cases markObject m1 l[n].key with
      | none => rfl
      | some m2 =>
        simp only []
        rw [markValue_eq_markObject]
        cases markObject m2 (AS_OBJ l[n].value) <;> rfl

theorem markTable_eq_markList (m : Marking) (t : Table) (h : t.capacity ≤ t.entries.length) :
    markTable m t = markList m (tableEdges t) :=
  forLoop_markEntry t.entries _ (fun _ _ => rfl) t.capacity m h

theorem markArray_eq_markList (m : Marking) (arr : ValueArray)
    (h : arr.count ≤ arr.elems.length) :
    markArray m arr = markList m ((arr.elems.take arr.count).map AS_OBJ) :=
  forLoop_markValue arr.elems _ (fun _ _ => rfl) arr.count m h

theorem markList_cons (m : Marking) (p : Option Ptr) (ps : List (Option Ptr)) :
    markList m (p :: ps) = (markObject m p).bind (fun m1 => markList m1 ps) := by
  simp only [markList]
  cases markObject m p <;> rfl

theorem blackenObject_eq_markList (m : Marking) (obj : Ptr) (o : Obj)
    (ho : m.heap obj = some o) (hb : arraysInBounds o.body = true) :
    blackenObject m obj = markList m (outEdges o.body) := by
  unfold blackenObject
  rw [ho]
  simp only []
  cases hbody : o.body with
  | boundMethod receiver method =>
    simp only [outEdges, markList_cons, markValue_eq_markObject]
    cases markObject m (AS_OBJ receiver) with
    | none => rfl
    | some m1 =>
      simp only [Option.bind]
      cases markObject m1 method <;> rfl
  | klass name methods entries =>
    rw [hbody] at hb
    simp only [arraysInBounds, decide_eq_true_eq] at hb
    simp only [outEdges, markList_cons]
    cases markObject m name with
    | none => rfl
    | some m1 => exact markTable_eq_markList m1 methods hb
  | closure function upvalues slots upvalueCount =>
    rw [hbody] at hb
    simp only [arraysInBounds, decide_eq_true_eq] at hb
    simp only [outEdges, markList_cons]
    cases markObject m function with
    | none => rfl
    | some m1 => exact forLoop_markObject slots _ (fun _ _ => rfl) upvalueCount m1 hb
  | function name chunk =>
    rw [hbody] at hb
    simp only [arraysInBounds, decide_eq_true_eq] at hb
    simp only [outEdges, markList_cons]
    cases markObject m name with
    | none => rfl
    | some m1 => exact markArray_eq_markList m1 chunk.constants hb
  | «instance» klass fields entries =>
    rw [hbody] at hb
    simp only [arraysInBounds, decide_eq_true_eq] at hb
    simp only [outEdges, markList_cons]
    cases markObject m klass with
    | none => rfl
    | some m1 => exact markTable_eq_markList m1 fields hb
  | native => rfl
  | string length chars bytes hash => rfl
  | upvalue closed next =>
    simp only [outEdges, markList_singleton, markValue_eq_markObject]

theorem sameObjects_refl (h : Heap) : SameObjects h h :=
  fun _ => ⟨rfl, rfl⟩

theorem sameObjects_trans {h1 h2 h3 : Heap} (h12 : SameObjects h1 h2)
    (h23 : SameObjects h2 h3) : SameObjects h1 h3 :=
  fun p => ⟨(h23 p).1.trans (h12 p).1, (h23 p).2.trans (h12 p).2⟩

theorem sameObjects_isSome {h h' : Heap} (hs : SameObjects h h') (p : Ptr) :
    (h' p).isSome = (h p).isSome := by
  have := (hs p).1
  cases h1 : h' p <;> cases h2 : h p <;> simp_all

theorem sameObjects_body {h h' : Heap} (hs : SameObjects h h') {p : Ptr} {o : Obj}
    (ho : h p = some o) : ∃ o', h' p = some o' ∧ o'.body = o.body := by
  have := (hs p).1
  rw [ho] at this
  cases h1 : h' p with
  | none => rw [h1] at this; cases this
  | some o' =>
    rw [h1] at this
    exact ⟨o', rfl, by simpa using this⟩

theorem sameObjects_body_rev {h h' : Heap} (hs : SameObjects h h') {p : Ptr} {o' : Obj}
    (ho : h' p = some o') : ∃ o, h p = some o ∧ o'.body = o.body := by
  have := (hs p).1
  rw [ho] at this
  cases h1 : h p with
  | none => rw [h1] at this; cases this
  | some o =>
    rw [h1] at this
    exact ⟨o, rfl, by simpa using this⟩

theorem sameObjects_set {h : Heap} {p : Ptr} {o : Obj} (ho : h p = some o) :
    SameObjects h (h.set p (some { o with isMarked := true })) := by
  intro q
  unfold Heap.set
  by_cases hq : q = p
  · subst hq
    rw [if_pos rfl, ho]
    exact ⟨rfl, rfl⟩
  · rw [if_neg hq]
    exact ⟨rfl, rfl⟩

theorem isMarkedAt_set (h : Heap) (p : Ptr) (o : Obj) (q : Ptr) :
    isMarkedAt (h.set p (some { o with isMarked := true })) q
      = (decide (q = p) || isMarkedAt h q) := by
  unfold isMarkedAt Heap.set
  by_cases hq : q = p
  · simp [hq]
  · simp [hq]

theorem isMarkedAt_eq_true {h : Heap} {p : Ptr} :
    isMarkedAt h p = true ↔ ∃ o, h p = some o ∧ o.isMarked = true := by
  unfold isMarkedAt
  cases h p with
  | none => simp
  | some o => simp

theorem markObject_marked {m : Marking} {p : Ptr} (h : isMarkedAt m.heap p = true) :
    markObject m (some p) = some m := by
  obtain ⟨o, ho, hm⟩ := isMarkedAt_eq_true.1 h
  simp only [markObject, ho, hm, if_true]

theorem markObject_white {m : Marking} {p : Ptr} {o : Obj} (ho : m.heap p = some o)
    (hw : isMarkedAt m.heap p = false) :
    ∃ c, markObject m (some p)
      = some { heap := m.heap.set p (some { o with isMarked := true }),
               grayCapacity := c, grayStack := p :: m.grayStack } := by
  have hm : o.isMarked = false := by
    unfold isMarkedAt at hw
    rw [ho] at hw
    exact hw
  refine ⟨if m.grayCapacity < m.grayStack.length + 1 then GROW_CAPACITY m.grayCapacity
    else m.grayCapacity, ?_⟩
  simp only [markObject, ho, hm]
  rfl

theorem whiteCount_set_le (objs : List Ptr) (h : Heap) (p : Ptr) (o : Obj) :
    whiteCount objs (h.set p (some { o with isMarked := true })) ≤ whiteCount objs h := by
  unfold whiteCount
  apply List.countP_mono_left
  intro q _ hq
  rw [isMarkedAt_set] at hq
  cases hqm : isMarkedAt h q with
  | false => rfl
  | true => rw [hqm] at hq; simp at hq

theorem whiteCount_set_lt (h : Heap) (p : Ptr) (o : Obj) (hw : isMarkedAt h p = false) :
    ∀ objs : List Ptr, p ∈ objs →
      whiteCount objs (h.set p (some { o with isMarked := true })) + 1 ≤ whiteCount objs h := by
  intro objs
  induction objs with
  | nil => intro hp; cases hp
  | cons a as ih =>
    intro hp
    have hle := whiteCount_set_le as h p o
    unfold whiteCount at hle ih ⊢
    rw [List.countP_cons, List.countP_cons]
    by_cases ha : a = p
    · subst ha
      rw [isMarkedAt_set, hw]
      simp
      omega
    · have hp' : p ∈ as := by
        cases hp with
        | head => exact absurd rfl ha
        | tail _ h' => exact h'
      have := ih hp'
      rw [isMarkedAt_set]
      simp only [ha, decide_False, Bool.false_or]
      omega

theorem markList_spec (objs : List Ptr) : ∀ (ps : List (Option Ptr)) (m : Marking),
    (∀ q, some q ∈ ps → (m.heap q).isSome = true) →
    (∀ q, (m.heap q).isSome = true → q ∈ objs) →
    ∃ m' new, markList m ps = some m' ∧ m'.grayStack = new ++ m.grayStack ∧ new.Nodup ∧
      (∀ q, q ∈ new ↔ (isMarkedAt m.heap q = false ∧ some q ∈ ps)) ∧
      (∀ q, isMarkedAt m'.heap q = true ↔ (isMarkedAt m.heap q = true ∨ some q ∈ ps)) ∧
      SameObjects m.heap m'.heap ∧
      whiteCount objs m'.heap + new.length ≤ whiteCount objs m.heap := by
  intro ps
  induction ps with
  | nil =>
    intro m _ _
    exact ⟨m, [], rfl, rfl, List.nodup_nil, by simp, by simp, sameObjects_refl _, by simp⟩
  | cons p ps ih =>
    intro m hlive hobjs
    cases p with
    | none =>
      obtain ⟨m', new, h1, h2, h3, h4, h5, h6, h7⟩ :=
        ih m (fun q hq => hlive q (List.mem_cons_of_mem _ hq)) hobjs
      refine ⟨m', new, ?_, h2, h3, ?_, ?_, h6, h7⟩
      · simpa only [markList, markObject] using h1
      · intro q; rw [h4 q]; simp
      · intro q; rw [h5 q]; simp
    | some a =>
      cases hma : isMarkedAt m.heap a with
      | true =>
        obtain ⟨m', new, h1, h2, h3, h4, h5, h6, h7⟩ :=
          ih m (fun q hq => hlive q (List.mem_cons_of_mem _ hq)) hobjs
        refine ⟨m', new, ?_, h2, h3, ?_, ?_, h6, h7⟩
        · simp only [markList, markObject_marked hma]
          exact h1
        · intro q
          rw [h4 q]
          constructor
          · rintro ⟨hq1, hq2⟩
            exact ⟨hq1, List.mem_cons_of_mem _ hq2⟩
          · rintro ⟨hq1, hq2⟩
            refine ⟨hq1, ?_⟩
            rcases List.mem_cons.1 hq2 with hq3 | hq3
            · cases hq3
              rw [hma] at hq1
              cases hq1
            · exact hq3
        · intro q
          rw [h5 q]
          constructor
          · rintro (hq | hq)
            · exact Or.inl hq
            · exact Or.inr (List.mem_cons_of_mem _ hq)
          · rintro (hq | hq)
            · exact Or.inl hq
            · rcases List.mem_cons.1 hq with hq3 | hq3
              · cases hq3
                exact Or.inl hma
              · exact Or.inr hq3
      | false =>
        have hl := hlive a (List.mem_cons_self _ _)
        obtain ⟨o, ho⟩ := Option.isSome_iff_exists.1 hl
        obtain ⟨c, hc⟩ := markObject_white ho hma
        have hso := sameObjects_set (h := m.heap) ho
        obtain ⟨m', new, h1, h2, h3, h4, h5, h6, h7⟩ :=
          ih { heap := m.heap.set a (some { o with isMarked := true }),
               grayCapacity := c, grayStack := a :: m.grayStack }
            (fun q hq => by
              rw [sameObjects_isSome hso]
              exact hlive q (List.mem_cons_of_mem _ hq))
            (fun q hq => by
              rw [sameObjects_isSome hso] at hq
              exact hobjs q hq)
        simp only [isMarkedAt_set] at h4 h5
        have hanew : a ∉ new := by
          intro hmem
          have := ((h4 a).1 hmem).1
          simp at this
        refine ⟨m', new ++ [a], ?_, ?_, ?_, ?_, ?_, sameObjects_trans hso h6, ?_⟩
        · simp only [markList, hc]
          exact h1
        · rw [h2]
          simp
        · rw [List.nodup_append]
          refine ⟨h3, List.nodup_singleton a, ?_⟩
          intro x hx hx'
          rw [List.mem_singleton] at hx'
          subst hx'
          exact hanew hx
        · intro q
          rw [List.mem_append, List.mem_singleton, h4 q, List.mem_cons]
          by_cases hqa : q = a
          · subst hqa
            simp [hma]
          · simp [hqa]
        · intro q
          rw [h5 q, List.mem_cons]
          by_cases hqa : q = a
          · subst hqa
            simp
          · simp [hqa]
        · have hlt := whiteCount_set_lt m.heap a o hma objs (hobjs a hl)
          rw [List.length_append, List.length_singleton]
          have h7' : whiteCount objs m'.heap + new.length
              ≤ whiteCount objs (m.heap.set a (some { o with isMarked := true })) := h7
          omega

theorem blackenObject_spec (objs : List Ptr) (m : Marking) (obj : Ptr) (o : Obj)
    (ho : m.heap obj = some o) (hb : arraysInBounds o.body = true)
    (hlive : ∀ q, some q ∈ outEdges o.body → (m.heap q).isSome = true)
    (hobjs : ∀ q, (m.heap q).isSome = true → q ∈ objs) :
    ∃ m' new, blackenObject m obj = some m' ∧ m'.grayStack = new ++ m.grayStack ∧ new.Nodup ∧
      (∀ q, q ∈ new ↔ (isMarkedAt m.heap q = false ∧ some q ∈ outEdges o.body)) ∧
      (∀ q, isMarkedAt m'.heap q = true ↔
        (isMarkedAt m.heap q = true ∨ some q ∈ outEdges o.body)) ∧
      SameObjects m.heap m'.heap ∧
      whiteCount objs m'.heap + new.length ≤ whiteCount objs m.heap := by
  rw [blackenObject_eq_markList m obj o ho hb]
  exact markList_spec objs _ m hlive hobjs

theorem traceReferences_nil {m : Marking} (h : m.grayStack = []) (fuel : Nat) :
    traceReferences fuel m = some m ∧ blackened fuel m = [] := by
  constructor
  · unfold traceReferences
    rw [h]
  · unfold blackened
    rw [h]

theorem traceReferences_cons {m : Marking} {obj : Ptr} {rest : List Ptr}
    (h : m.grayStack = obj :: rest) (fuel : Nat) {m1 : Marking}
    (hb : blackenObject { m with grayStack := rest } obj = some m1) :
    traceReferences (fuel + 1) m = traceReferences fuel m1 ∧
      blackened (fuel + 1) m = obj :: blackened fuel m1 := by
  constructor
  · rw [traceReferences]
    simp only [h, hb]
  · rw [blackened]
    simp only [h, hb]

theorem blackClosed_step {m m1 : Marking} {obj : Ptr} {rest new : List Ptr} {o : Obj}
    (hg : m.grayStack = obj :: rest) (ho : m.heap obj = some o)
    (hg1 : m1.grayStack = new ++ rest)
    (hnew : ∀ q, q ∈ new ↔ (isMarkedAt m.heap q = false ∧ some q ∈ outEdges o.body))
    (hmark : ∀ q, isMarkedAt m1.heap q = true ↔
      (isMarkedAt m.heap q = true ∨ some q ∈ outEdges o.body))
    (hso : SameObjects m.heap m1.heap) (hbc : BlackClosed m) : BlackClosed m1 := by
  intro p o1 ho1 hm1 hp q hq
  rw [hg1, List.mem_append, not_or] at hp
  obtain ⟨op, hop, hbody⟩ := sameObjects_body_rev hso ho1
  rw [hmark]
  by_cases hpo : p = obj
  · subst hpo
    rw [ho] at hop
    cases hop
    rw [hbody] at hq
    exact Or.inr hq
  · cases hmp : isMarkedAt m.heap p with
    | true =>
      obtain ⟨op', hop', hm'⟩ := isMarkedAt_eq_true.1 hmp
      rw [hop] at hop'
      cases hop'
      refine Or.inl (hbc p op hop hm' ?_ q (hbody ▸ hq))
      rw [hg, List.mem_cons, not_or]
      exact ⟨hpo, hp.2⟩
    | false =>
      have hm1' : isMarkedAt m1.heap p = true := isMarkedAt_eq_true.2 ⟨o1, ho1, hm1⟩
      rcases (hmark p).1 hm1' with h | h
      · rw [hmp] at h; cases h
      · exact absurd ((hnew p).2 ⟨hmp, h⟩) hp.1

theorem traceReferences_core (h0 : Heap) (objs : List Ptr) (S : Ptr → Prop)
    (hS : ∀ p, S p → ∃ o, h0 p = some o ∧ arraysInBounds o.body = true ∧
      ∀ q, some q ∈ outEdges o.body → S q)
    (hobjs : ∀ p, (h0 p).isSome = true → p ∈ objs) :
    ∀ (fuel : Nat) (m : Marking), SameObjects h0 m.heap → (∀ p ∈ m.grayStack, S p) →
      whiteCount objs m.heap + m.grayStack.length ≤ fuel →
      ∃ m', traceReferences fuel m = some m' ∧ m'.grayStack = [] ∧ SameObjects h0 m'.heap ∧
        (∀ p, isMarkedAt m.heap p = true → isMarkedAt m'.heap p = true) ∧
        (∀ p, isMarkedAt m'.heap p = true → isMarkedAt m.heap p = true ∨ S p) ∧
        (BlackClosed m → BlackClosed m') ∧
        (∀ p, (blackened fuel m).count p = m.grayStack.count p +
          (if isMarkedAt m.heap p = false ∧ isMarkedAt m'.heap p = true then 1 else 0)) := by
  intro fuel
  induction fuel with
  | zero =>
    intro m hso _ hfuel
    have hg : m.grayStack = [] := by
      cases hgs : m.grayStack with
      | nil => rfl
      | cons a l => rw [hgs] at hfuel; simp at hfuel
    refine ⟨m, (traceReferences_nil hg 0).1, hg, hso, fun _ h => h, fun _ h => Or.inl h,
      fun h => h, ?_⟩
    intro p
    rw [(traceReferences_nil hg 0).2, hg]
    cases isMarkedAt m.heap p <;> simp
  | succ fuel ih =>
    intro m hso hgray hfuel
    cases hg : m.grayStack with
    | nil =>
      refine ⟨m, (traceReferences_nil hg _).1, hg, hso, fun _ h => h, fun _ h => Or.inl h,
        fun h => h, ?_⟩
      intro p
      rw [(traceReferences_nil hg _).2]
      cases isMarkedAt m.heap p <;> simp
    | cons obj rest =>
      rw [hg] at hgray hfuel
      obtain ⟨o0, ho0, hb0, hedges⟩ := hS obj (hgray obj (List.mem_cons_self _ _))
      obtain ⟨o, ho, hbody⟩ := sameObjects_body hso ho0
      have hlive : ∀ q, some q ∈ outEdges o.body → (m.heap q).isSome = true := by
        intro q hq
        rw [hbody] at hq
        obtain ⟨oq, hoq, _⟩ := hS q (hedges q hq)
        rw [sameObjects_isSome hso, hoq]
        rfl
      have hobjs' : ∀ q, (m.heap q).isSome = true → q ∈ objs := by
        intro q hq
        rw [sameObjects_isSome hso] at hq
        exact hobjs q hq
      obtain ⟨m1, new, hbl, hg1, hnd, hnew, hmark, hso1, hcount⟩ :=
        blackenObject_spec objs { m with grayStack := rest } obj o ho (hbody ▸ hb0) hlive hobjs'
      have hg1' : m1.grayStack = new ++ rest := hg1
      have hnew' : ∀ q, q ∈ new ↔ (isMarkedAt m.heap q = false ∧ some q ∈ outEdges o.body) :=
        hnew
      have hmark' : ∀ q, isMarkedAt m1.heap q = true ↔
          (isMarkedAt m.heap q = true ∨ some q ∈ outEdges o.body) := hmark
      have hso1' : SameObjects m.heap m1.heap := hso1
      have hcount' : whiteCount objs m1.heap + new.length ≤ whiteCount objs m.heap := hcount
      obtain ⟨m', ht, hge, hso', hmono, hsound, hbc, hcnt⟩ := ih m1
        (sameObjects_trans hso hso1')
        (by
          intro p hp
          rw [hg1', List.mem_append] at hp
          rcases hp with hp | hp
          · exact hedges p (hbody ▸ ((hnew' p).1 hp).2)
          · exact hgray p (List.mem_cons_of_mem _ hp))
        (by
          rw [hg1', List.length_append]
          simp only [List.length_cons] at hfuel
          omega)
      obtain ⟨htr, hbk⟩ := traceReferences_cons hg fuel hbl
      refine ⟨m', htr.trans ht, hge, hso', ?_, ?_, ?_, ?_⟩
      · intro p hp
        exact hmono p ((hmark' p).2 (Or.inl hp))
      · intro p hp
        rcases hsound p hp with h | h
        · rcases (hmark' p).1 h with h' | h'
          · exact Or.inl h'
          · exact Or.inr (hedges p (hbody ▸ h'))
        · exact Or.inr h
      · intro hbcm
        exact hbc (blackClosed_step hg ho hg1' hnew' hmark' hso1' hbcm)
      · intro p
        rw [hbk, List.count_cons, hcnt p, hg1', List.count_append, List.count_cons,
          List.count_eq_of_nodup hnd]
        have hn := hnew' p
        have hmk := hmark' p
        have hmo := hmono p
        by_cases hin : p ∈ new
        · have h1 := (hn.1 hin)
          have h2 : isMarkedAt m1.heap p = true := hmk.2 (Or.inr h1.2)
          have h3 := hmo h2
          simp only [hin, if_true, h1.1, h2, h3, and_self, Bool.true_eq_false, false_and,
            if_false]
          omega
        · cases hmp : isMarkedAt m.heap p with
          | true =>
            have h2 : isMarkedAt m1.heap p = true := hmk.2 (Or.inl hmp)
            simp only [hin, if_false, h2, Bool.true_eq_false, false_and]
            omega
          | false =>
            have h2 : isMarkedAt m1.heap p = false := by
              cases h : isMarkedAt m1.heap p with
              | false => rfl
              | true =>
                rcases hmk.1 h with h' | h'
                · rw [hmp] at h'; cases h'
                · exact absurd (hn.2 ⟨hmp, h'⟩) hin
            simp only [hin, if_false, h2, true_and]
            omega

theorem markObject_sameObjects {m m1 : Marking} {x : Option Ptr}
    (h : markObject m x = some m1) : SameObjects m.heap m1.heap := by
  cases x with
  | none =>
    simp only [markObject] at h
    cases h
    exact sameObjects_refl _
  | some p =>
    cases hmp : isMarkedAt m.heap p with
    | true =>
      rw [markObject_marked hmp] at h
      cases h
      exact sameObjects_refl _
    | false =>
      cases ho : m.heap p with
      | none => simp only [markObject, ho] at h; cases h
      | some o =>
        obtain ⟨c, hc⟩ := markObject_white ho hmp
        rw [hc] at h
        cases h
        exact sameObjects_set ho

theorem markList_sameObjects : ∀ (ps : List (Option Ptr)) (m m1 : Marking),
    markList m ps = some m1 → SameObjects m.heap m1.heap := by
  intro ps
  induction ps with
  | nil =>
    intro m m1 h
    simp only [markList] at h
    cases h
    exact sameObjects_refl _
  | cons p ps ih =>
    intro m m1 h
    rw [markList_cons] at h
    cases hm : markObject m p with
    | none => rw [hm] at h; cases h
    | some m2 =>
      rw [hm] at h
      exact sameObjects_trans (markObject_sameObjects hm) (ih m2 m1 h)

theorem markOpenUpvalues_eq_markList (h0 : Heap) :
    ∀ (n : Nat) (head : Option Ptr) (us : List Ptr) (fuel : Nat) (m : Marking),
      openUpvalueList h0 n head = some us → SameObjects h0 m.heap → us.length ≤ fuel →
      markOpenUpvalues fuel m head = markList m (us.map some) := by
  intro n
  induction n with
  | zero =>
    intro head us fuel m hus _ _
    cases head with
    | none =>
      simp only [openUpvalueList] at hus
      cases hus
      cases fuel <;> rfl
    | some p => simp only [openUpvalueList] at hus; cases hus
  | succ n ih =>
    intro head us fuel m hus hso hfuel
    cases head with
    | none =>
      simp only [openUpvalueList] at hus
      cases hus
      cases fuel <;> rfl
    | some p =>
      simp only [openUpvalueList] at hus
      cases ho : h0 p with
      | none => rw [ho] at hus; cases hus
      | some o =>
        rw [ho] at hus
        simp only [] at hus
        cases hb : o.body with
        | upvalue closed next =>
          rw [hb] at hus
          simp only [] at hus
          cases hrec : openUpvalueList h0 n next with
          | none => rw [hrec] at hus; cases hus
          | some us1 =>
            rw [hrec] at hus
            cases hus
            obtain ⟨o1, ho1, hb1⟩ := sameObjects_body hso ho
            rw [hb] at hb1
            cases fuel with
            | zero => simp at hfuel
            | succ fuel =>
              simp only [markOpenUpvalues, ho1, hb1, List.map, markList]
              cases hm : markObject m (some p) with
              | none => rfl
              | some m1 =>
                exact ih next us1 fuel m1 hrec
                  (sameObjects_trans hso (markObject_sameObjects hm))
                  (Nat.le_of_succ_le_succ hfuel)
        | boundMethod _ _ => rw [hb] at hus; cases hus
        | klass _ _ _ => rw [hb] at hus; cases hus
        | closure _ _ _ _ => rw [hb] at hus; cases hus
        | function _ _ => rw [hb] at hus; cases hus
        | «instance» _ _ _ => rw [hb] at hus; cases hus
        | native => rw [hb] at hus; cases hus
        | string _ _ _ _ => rw [hb] at hus; cases hus

theorem markRoots_eq_markList (vm : VM) (m : Marking) (n : Nat) (us : List Ptr) (fuel : Nat)
    (hus : openUpvalueList vm.heap n vm.openUpvalues = some us)
    (hso : SameObjects vm.heap m.heap)
    (hglobals : vm.globals.capacity ≤ vm.globals.entries.length)
    (hfuel : us.length ≤ fuel) :
    markRoots fuel vm m = markList m (rootEdges vm us) := by
  unfold markRoots rootEdges
  rw [forLoop_markValue vm.stack _ (fun _ _ => rfl) vm.stack.length m (Nat.le_refl _),
    List.take_length, markList_append]
  cases h1 : markList m (vm.stack.map AS_OBJ) with
  | none => rfl
  | some m1 =>
    show (forLoop _ vm.frames.length m1 >>= _) = markList m1 (vm.frames ++ _)
    rw [forLoop_markObject vm.frames _ (fun _ _ => rfl) vm.frames.length m1 (Nat.le_refl _),
      List.take_length, markList_append]
    have hso1 := sameObjects_trans hso (markList_sameObjects _ _ _ h1)
    cases h2 : markList m1 vm.frames with
    | none => rfl
    | some m2 =>
      have hso2 := sameObjects_trans hso1 (markList_sameObjects _ _ _ h2)
      show (markOpenUpvalues fuel m2 vm.openUpvalues >>= _) = markList m2 (us.map some ++ _)
      rw [markOpenUpvalues_eq_markList vm.heap n vm.openUpvalues us fuel m2 hus hso2 hfuel,
        markList_append]
      cases h3 : markList m2 (us.map some) with
      | none => rfl
      | some m3 =>
        show (markTable m3 vm.globals >>= _) = markList m3 (tableEdges vm.globals ++ _)
        rw [markTable_eq_markList m3 vm.globals hglobals, markList_append]
        cases h4 : markList m3 (tableEdges vm.globals) with
        | none => rfl
        | some m4 =>
          show (markCompilerRoots m4 vm.compilerRoots >>= _)
            = markList m4 (vm.compilerRoots ++ _)
          unfold markCompilerRoots
          rw [forLoop_markObject vm.compilerRoots _ (fun _ _ => rfl) vm.compilerRoots.length m4
            (Nat.le_refl _), List.take_length, markList_append]
          cases h5 : markList m4 vm.compilerRoots with
          | none => rfl
          | some m5 => exact (markList_singleton m5 _).symm

theorem whiteCount_le_length (objs : List Ptr) (h : Heap) : whiteCount objs h ≤ objs.length :=
  List.countP_le_length _

theorem objClosed_spec {heap : Heap} {p : Ptr} {o : Obj} (hc : objClosed heap p = true)
    (ho : heap p = some o) :
    arraysInBounds o.body = true ∧ ∀ q, some q ∈ outEdges o.body → (heap q).isSome = true := by
  unfold objClosed at hc
  rw [ho] at hc
  simp only [Bool.and_eq_true, List.all_eq_true] at hc
  exact ⟨hc.1, fun q hq => hc.2 (some q) hq⟩

theorem reachable_of_closed {heap : Heap} {roots : List (Option Ptr)} {objs : List Ptr}
    (hfin : ∀ p, (heap p).isSome = true → p ∈ objs) (hc : HeapClosed objs heap)
    (hroots : ∀ r ∈ roots, refLive heap r = true) :
    ∀ p, Reachable heap roots p → ∃ o, heap p = some o ∧ arraysInBounds o.body = true := by
  have hlive : ∀ p, Reachable heap roots p → (heap p).isSome = true := by
    intro p hp
    induction hp with
    | root h => exact hroots _ h
    | edge _ ho hq _ => exact (objClosed_spec (hc _ (hfin _ (by rw [ho]; rfl))) ho).2 _ hq
  intro p hp
  obtain ⟨o, ho⟩ := Option.isSome_iff_exists.1 (hlive p hp)
  exact ⟨o, ho, (objClosed_spec (hc p (hfin p (hlive p hp))) ho).1⟩

/-- C12. On a finite heap in which no object is marked, with an empty gray
stack, `markRoots` followed by `traceReferences` returns (given the bounds:
the length of the list of open upvalues for the first, the number of objects
for the second), leaves the gray stack empty and the objects as they were up
to the mark bits, and the object at an address is marked exactly when the
address is reachable from a root along the out-edges.  The premises are those
under which the C code reads valid memory: the list of open upvalues is a
finite chain of upvalue objects, and each reachable address holds an object
whose arrays have the announced number of elements. -/
theorem mark_phase_marks_reachable (vm : VM) (objs us : List Ptr) (n fuel fuel' : Nat)
    (hfin : ∀ p, (vm.heap p).isSome = true → p ∈ objs)
    (hwhite : ∀ p, isMarkedAt vm.heap p = false)
    (hgray : vm.grayStack = [])
    (hus : openUpvalueList vm.heap n vm.openUpvalues = some us)
    (hglobals : vm.globals.capacity ≤ vm.globals.entries.length)
    (hclosed : ∀ p, Reachable vm.heap (rootEdges vm us) p →
      ∃ o, vm.heap p = some o ∧ arraysInBounds o.body = true)
    (hfuel : us.length ≤ fuel) (hfuel' : objs.length ≤ fuel') :
    ∃ m1 m2, markRoots fuel vm vm.marking = some m1 ∧ traceReferences fuel' m1 = some m2
      ∧ m2.grayStack = [] ∧ SameObjects vm.heap m2.heap
      ∧ ∀ p, isMarkedAt m2.heap p = true ↔ Reachable vm.heap (rootEdges vm us) p := by
  have hroots : ∀ q, some q ∈ rootEdges vm us → (vm.marking.heap q).isSome = true := by
    intro q hq
    obtain ⟨o, ho, _⟩ := hclosed q (Reachable.root hq)
    show (vm.heap q).isSome = true
    rw [ho]
    rfl
  obtain ⟨m1, new, h1, h2, _, h4, h5, h6, h7⟩ :=
    markList_spec objs (rootEdges vm us) vm.marking hroots hfin
  have h2' : m1.grayStack = new := by
    rw [h2]
    show new ++ vm.grayStack = new
    rw [hgray, List.append_nil]
  have h4' : ∀ q, q ∈ new ↔ some q ∈ rootEdges vm us := by
    intro q
    rw [h4 q]
    exact ⟨fun h => h.2, fun h => ⟨hwhite q, h⟩⟩
  have h5' : ∀ q, isMarkedAt m1.heap q = true ↔ some q ∈ rootEdges vm us := by
    intro q
    rw [h5 q]
    constructor
    · rintro (h | h)
      · have := hwhite q
        rw [show vm.marking.heap = vm.heap from rfl, this] at h
        cases h
      · exact h
    · exact fun h => Or.inr h
  have hS : ∀ p, Reachable vm.heap (rootEdges vm us) p →
      ∃ o, vm.heap p = some o ∧ arraysInBounds o.body = true ∧
        ∀ q, some q ∈ outEdges o.body → Reachable vm.heap (rootEdges vm us) q := by
    intro p hp
    obtain ⟨o, ho, hb⟩ := hclosed p hp
    exact ⟨o, ho, hb, fun q hq => Reachable.edge hp ho hq⟩
  have hmeasure : whiteCount objs m1.heap + m1.grayStack.length ≤ fuel' := by
    rw [h2']
    have := whiteCount_le_length objs vm.marking.heap
    omega
  obtain ⟨m2, ht, hg, hso, hmono, hsound, hbc, _⟩ :=
    traceReferences_core vm.heap objs (Reachable vm.heap (rootEdges vm us)) hS hfin fuel' m1
      h6 (fun p hp => Reachable.root ((h4' p).1 (h2' ▸ hp))) hmeasure
  have hbc1 : BlackClosed m1 := by
    intro p o ho hm hp
    exact absurd (h2' ▸ (h4' p).2 ((h5' p).1 (isMarkedAt_eq_true.2 ⟨o, ho, hm⟩))) hp
  have hbc2 := hbc hbc1
  refine ⟨m1, m2, ?_, ht, hg, hso, ?_⟩
  · rw [markRoots_eq_markList vm vm.marking n us fuel hus (sameObjects_refl _) hglobals hfuel]
    exact h1
  · intro p
    constructor
    · intro hp
      rcases hsound p hp with h | h
      · exact Reachable.root ((h5' p).1 h)
      · exact h
    · intro hp
      induction hp with
      | root h => exact hmono _ ((h5' _).2 h)
      | edge _ ho hq ih =>
        obtain ⟨o2, ho2, hm2⟩ := isMarkedAt_eq_true.1 ih
        obtain ⟨o', ho', hbody⟩ := sameObjects_body_rev hso ho2
        rw [ho] at ho'
        cases ho'
        refine hbc2 _ o2 ho2 hm2 ?_ _ (hbody ▸ hq)
        rw [hg]
        exact List.not_mem_nil _

/-- C12, at an instance: the example state, whose heap has eight objects, five
of them reachable from the roots. -/
theorem mark_phase_marks_reachable_witness :
    ∃ m1 m2, markRoots 1 exampleGraphVM exampleGraphVM.marking = some m1
      ∧ traceReferences 8 m1 = some m2 ∧ m2.grayStack = []
      ∧ SameObjects exampleGraphVM.heap m2.heap
      ∧ ∀ p, isMarkedAt m2.heap p = true
          ↔ Reachable exampleGraphVM.heap (rootEdges exampleGraphVM [50]) p := by
  have hfin : ∀ p, (exampleGraphVM.heap p).isSome = true → p ∈ exampleGraphObjs := by
    intro p hp
    by_contra hne
    simp only [exampleGraphObjs, List.mem_cons, List.mem_singleton, List.not_mem_nil, or_false,
      not_or] at hne
    obtain ⟨h1, h2, h3, h4, h5, h6, h7, h8⟩ := hne
    simp [exampleGraphVM, exampleGraphHeap, h1, h2, h3, h4, h5, h6, h7, h8] at hp
  have hwhite : ∀ p, isMarkedAt exampleGraphVM.heap p = false := by
    intro p
    show isMarkedAt exampleGraphHeap p = false
    unfold isMarkedAt exampleGraphHeap
    split_ifs <;> rfl
  exact mark_phase_marks_reachable exampleGraphVM exampleGraphObjs [50] 1 1 8 hfin hwhite rfl
    (by decide) (by decide)
    (reachable_of_closed hfin (by decide) (by decide)) (by decide) (by decide)

/-- The mark phase evaluated on the example state: the roots are pushed, the
trace empties the gray stack, and of the eight objects the five reachable ones
are marked. -/
theorem mark_phase_example :
    (markRoots 1 exampleGraphVM exampleGraphVM.marking).map (fun m => m.grayStack)
        = some [20, 30, 50, 40]
      ∧ ((markRoots 1 exampleGraphVM exampleGraphVM.marking).bind (traceReferences 8)).map
          (fun m => (m.grayStack, exampleGraphObjs.map (isMarkedAt m.heap)))
        = some ([], [true, true, true, true, true, false, false, false]) := by
  constructor <;> decide

theorem markObject_push {m m1 : Marking} {p : Ptr} (h : markObject m (some p) = some m1) :
    m1 = m ∨ (isMarkedAt m.heap p = false ∧ isMarkedAt m1.heap p = true
      ∧ m1.grayStack = p :: m.grayStack) := by
  cases hmp : isMarkedAt m.heap p with
  | true =>
    rw [markObject_marked hmp] at h
    cases h
    exact Or.inl rfl
  | false =>
    cases ho : m.heap p with
    | none => simp only [markObject, ho] at h; cases h
    | some o =>
      obtain ⟨c, hc⟩ := markObject_white ho hmp
      rw [hc] at h
      cases h
      refine Or.inr ⟨rfl, ?_, rfl⟩
      show isMarkedAt (m.heap.set p (some { o with isMarked := true })) p = true
      rw [isMarkedAt_set]
      simp

/-- C20. On a finite heap whose references stay inside it, from a gray stack
whose entries are all marked objects, `traceReferences` returns once the bound
covers the unmarked objects and the gray entries, with an empty gray stack.
Each address is blackened as often as it is on the gray stack at the start,
and once more exactly if its object is unmarked at the start and marked at the
end: an object is pushed at most once, and never if it is marked already.  So
from a gray stack without repetition no object is blackened twice.  The reason
is in `markObject`: it does nothing on `NULL` and on a marked object, and
otherwise pushes the object it marks. -/
theorem traceReferences_terminates_blackening_once (m : Marking) (objs : List Ptr)
    (fuel : Nat)
    (hfin : ∀ p, (m.heap p).isSome = true → p ∈ objs)
    (hclosed : HeapClosed objs m.heap)
    (hgray : ∀ p ∈ m.grayStack, isMarkedAt m.heap p = true)
    (hfuel : whiteCount objs m.heap + m.grayStack.length ≤ fuel) :
    (∃ m', traceReferences fuel m = some m' ∧ m'.grayStack = []
      ∧ (∀ p, (blackened fuel m).count p = m.grayStack.count p +
          (if isMarkedAt m.heap p = false ∧ isMarkedAt m'.heap p = true then 1 else 0))
      ∧ (m.grayStack.Nodup → (blackened fuel m).Nodup))
    ∧ (∀ m0 : Marking, markObject m0 none = some m0)
    ∧ (∀ (m0 : Marking) (p : Ptr), isMarkedAt m0.heap p = true →
        markObject m0 (some p) = some m0)
    ∧ (∀ (m0 m1 : Marking) (p : Ptr), markObject m0 (some p) = some m1 →
        m1 = m0 ∨ (isMarkedAt m0.heap p = false ∧ isMarkedAt m1.heap p = true
          ∧ m1.grayStack = p :: m0.grayStack)) := by
  refine ⟨?_, fun _ => rfl, fun _ _ h => markObject_marked h, fun _ _ _ h => markObject_push h⟩
  have hS : ∀ p, (m.heap p).isSome = true →
      ∃ o, m.heap p = some o ∧ arraysInBounds o.body = true ∧
        ∀ q, some q ∈ outEdges o.body → (m.heap q).isSome = true := by
    intro p hp
    obtain ⟨o, ho⟩ := Option.isSome_iff_exists.1 hp
    have := objClosed_spec (hclosed p (hfin p hp)) ho
    exact ⟨o, ho, this.1, this.2⟩
  have hg : ∀ p ∈ m.grayStack, (m.heap p).isSome = true := by
    intro p hp
    obtain ⟨o, ho, _⟩ := isMarkedAt_eq_true.1 (hgray p hp)
    rw [ho]
    rfl
  obtain ⟨m', ht, hge, _, _, _, _, hcnt⟩ :=
    traceReferences_core m.heap objs (fun p => (m.heap p).isSome = true) hS hfin fuel m
      (sameObjects_refl _) hg hfuel
  refine ⟨m', ht, hge, hcnt, ?_⟩
  intro hnd
  rw [List.nodup_iff_count_le_one]
  intro p
  rw [hcnt p]
  by_cases hp : p ∈ m.grayStack
  · rw [List.count_eq_one_of_mem hnd hp, hgray p hp]
    simp
  · rw [List.count_eq_zero_of_not_mem hp]
    split_ifs <;> omega

/-- C20, at an instance: the example heap with the instance at 70 marked and
gray; the trace blackens 70, then the native at 60 and the string at 10 of its
field, then its class at 80. -/
theorem traceReferences_terminates_blackening_once_witness :
    blackened 8 exampleGrayMarking = [70, 60, 10, 80]
    ∧ (∃ m', traceReferences 8 exampleGrayMarking = some m' ∧ m'.grayStack = []
      ∧ (∀ p, (blackened 8 exampleGrayMarking).count p = exampleGrayMarking.grayStack.count p +
          (if isMarkedAt exampleGrayMarking.heap p = false ∧ isMarkedAt m'.heap p = true
            then 1 else 0))
      ∧ (exampleGrayMarking.grayStack.Nodup → (blackened 8 exampleGrayMarking).Nodup)) := by
  have hfin : ∀ p, (exampleGrayMarking.heap p).isSome = true → p ∈ exampleGraphObjs := by
    intro p hp
    by_contra hne
    simp only [exampleGraphObjs, List.mem_cons, List.mem_singleton, List.not_mem_nil, or_false,
      not_or] at hne
    obtain ⟨h1, h2, h3, h4, h5, h6, h7, h8⟩ := hne
    simp [exampleGrayMarking, Heap.set, exampleGraphHeap, h1, h2, h3, h4, h5, h6, h7, h8] at hp
  exact ⟨by decide,
    (traceReferences_terminates_blackening_once exampleGrayMarking exampleGraphObjs 8 hfin
      (by decide) (by decide) (by decide)).1⟩

/-! ## What a collection leaves of the tables -/

theorem forLoop_preserves {σ : Type} (body : Nat → σ → Option σ) (P : σ → Prop)
    (hstep : ∀ i s s', body i s = some s' → P s → P s') :
    ∀ (n : Nat) (s s' : σ), forLoop body n s = some s' → P s → P s' := by
  intro n
  induction n with
  | zero =>
    intro s s' h hP
    simp only [forLoop, Option.some.injEq] at h
    exact h ▸ hP
  | succ n ih =>
    intro s s' h hP
    simp only [forLoop] at h
    cases h1 : forLoop body n s with
    | none => rw [h1] at h; cases h
    | some s1 =>
      rw [h1] at h
      exact hstep n s1 s' h (ih s s1 h1 hP)

theorem thinned_refl (t : Table) : Thinned t t :=
  ⟨rfl, rfl, rfl, fun _ _ h => Or.inl h⟩

theorem thinned_trans {a b c : Table} (h1 : Thinned a b) (h2 : Thinned b c) : Thinned a c := by
  obtain ⟨hc1, hn1, hl1, he1⟩ := h1
  obtain ⟨hc2, hn2, hl2, he2⟩ := h2
  refine ⟨hc2.trans hc1, hn2.trans hn1, hl2.trans hl1, ?_⟩
  intro i e' he'
  rcases he2 i e' he' with h | ⟨h, e, he, hk⟩
  · exact he1 i e' h
  · refine Or.inr ⟨h, ?_⟩
    rcases he1 i e he with h' | ⟨h', _, _, _⟩
    · exact ⟨e, h', hk⟩
    · rw [h'] at hk
      exact absurd rfl hk

theorem tableDelete_thinned {mem : StringMem} {t t' : Table} {k : Ptr} {b : Bool}
    (h : tableDelete mem t k = some (t', b)) : Thinned t t' := by
  unfold tableDelete at h
  split at h
  · cases h; exact thinned_refl _
  · split at h
    · cases h
    · next i _ =>
      split at h
      · cases h
      · next entry hentry =>
        split at h
        · cases h; exact thinned_refl _
        · next k' hk' =>
          cases h
          refine ⟨rfl, rfl, by simp, ?_⟩
          intro j e' he'
          simp only at he'
          by_cases hji : j = i
          · subst hji
            have hlt : j < t.entries.length := by
              by_contra hge
              rw [List.getElem?_eq_none (by omega)] at hentry
              cases hentry
            rw [List.getElem?_set_self hlt] at he'
            cases he'
            exact Or.inr ⟨rfl, entry, hentry, by rw [hk']; exact fun h => by cases h⟩
          · rw [List.getElem?_set_ne (Ne.symm hji)] at he'
            exact Or.inl he'

theorem tableRemoveWhite_thinned {mem : StringMem} {t t' : Table}
    (h : tableRemoveWhite mem t = some t') : Thinned t t' := by
  unfold tableRemoveWhite at h
  refine forLoop_preserves (tableRemoveWhiteBody mem) (Thinned t) ?_ _ _ _ h (thinned_refl t)
  intro i s s' hb hs
  unfold tableRemoveWhiteBody at hb
  split at hb
  · cases hb
  · split at hb
    · split at hb
      · rw [Option.map_eq_some'] at hb
        obtain ⟨⟨t2, b⟩, h2, rfl⟩ := hb
        exact thinned_trans hs (tableDelete_thinned h2)
      · cases hb; exact hs
    · cases hb; exact hs

theorem keepsTables_refl (vm : VM) : KeepsTables vm vm :=
  ⟨rfl, rfl, rfl, thinned_refl _, fun _ o' h => ⟨o', h, rfl⟩⟩

theorem keepsTables_trans {a b c : VM} (h1 : KeepsTables a b) (h2 : KeepsTables b c) :
    KeepsTables a c := by
  obtain ⟨g1, ge1, se1, t1, b1⟩ := h1
  obtain ⟨g2, ge2, se2, t2, b2⟩ := h2
  refine ⟨g2.trans g1, ge2.trans ge1, se2.trans se1, thinned_trans t1 t2, ?_⟩
  intro q o' ho'
  obtain ⟨o1, ho1, hb1⟩ := b2 q o' ho'
  obtain ⟨o, ho, hb⟩ := b1 q o1 ho1
  exact ⟨o, ho, hb1.trans hb⟩

/-- A state that differs in nothing the tables are read from. -/
theorem keepsTables_of_same {vm vm' : VM} (hg : vm'.globals = vm.globals)
    (hge : vm'.globalsEntries = vm.globalsEntries) (hse : vm'.stringsEntries = vm.stringsEntries)
    (hs : vm'.strings = vm.strings)
    (hh : ∀ q o', vm'.heap q = some o' → ∃ o, vm.heap q = some o ∧ o'.body = o.body) :
    KeepsTables vm vm' :=
  ⟨hg, hge, hse, hs ▸ thinned_refl _, hh⟩

/-- What a collector must satisfy for the tables: it keeps them. -/
theorem reallocateFinish_keepsTables {vm vm' : VM} {pointer r : Option Ptr} {newSize : Nat}
    {result : Ptr} (hcase : newSize = 0 ∨ pointer = none)
    (h : reallocateFinish vm pointer newSize result = some (vm', r)) :
    KeepsTables vm vm' ∧ (newSize = 0 → ∀ p, pointer = some p → vm'.heap p = none) := by
  unfold reallocateFinish at h
  split at h
  · split at h
    · cases h
      exact ⟨keepsTables_refl _, fun _ p hp => by cases hp⟩
    · next p =>
      split at h
      · cases h
      · cases h
        refine ⟨keepsTables_of_same rfl rfl rfl rfl ?_, ?_⟩
        · intro q o' ho'
          simp only [Heap.set] at ho'
          split at ho'
          · cases ho'
          · exact ⟨o', ho', rfl⟩
        · intro _ p' hp'
          cases hp'
          simp [Heap.set]
  · next hne =>
    rcases hcase with h0 | h0
    · exact absurd h0 hne
    · subst h0
      simp only at h
      split at h
      · cases h
      · cases h
        exact ⟨keepsTables_of_same rfl rfl rfl rfl (fun q o' ho' => ⟨o', ho', rfl⟩),
          fun h0 => absurd h0 hne⟩

theorem reallocateWith_keepsTables {collect : VM → Option VM}
    (hc : ∀ v v', collect v = some v' → KeepsTables v v')
    {cfg : Config} {vm : VM} {pointer : Option Ptr} {oldSize newSize : Nat} {result : Ptr}
    {out : VM × Option Ptr} (hcase : newSize = 0 ∨ pointer = none)
    (h : reallocateWith collect cfg vm pointer oldSize newSize result = some out) :
    KeepsTables vm out.1 ∧ (newSize = 0 → ∀ p, pointer = some p → out.1.heap p = none) := by
  have henter : KeepsTables vm (reallocateEnter vm pointer oldSize newSize) :=
    keepsTables_of_same rfl rfl rfl rfl (fun q o' ho' => ⟨o', ho', rfl⟩)
  unfold reallocateWith at h
  split at h
  · cases h
  · next vm2 h2 =>
    have hs2 : KeepsTables (reallocateEnter vm pointer oldSize newSize) vm2 := by
      split at h2
      · exact hc _ _ h2
      · cases h2; exact keepsTables_refl _
    split at h
    · cases h
    · next vm3 h3 =>
      have hs3 : KeepsTables vm2 vm3 := by
        split at h3
        · exact hc _ _ h3
        · cases h3; exact keepsTables_refl _
      obtain ⟨vm', r⟩ := out
      obtain ⟨hf, hp⟩ := reallocateFinish_keepsTables hcase h
      exact ⟨keepsTables_trans henter (keepsTables_trans hs2 (keepsTables_trans hs3 hf)), hp⟩

theorem FREE_keepsTables {collect : VM → Option VM}
    (hc : ∀ v v', collect v = some v' → KeepsTables v v')
    {cfg : Config} {vm vm' : VM} {size : Nat} {pointer : Option Ptr}
    (h : FREE collect cfg vm size pointer = some vm') :
    KeepsTables vm vm' ∧ ∀ p, pointer = some p → vm'.heap p = none := by
  unfold FREE at h
  rw [Option.map_eq_some'] at h
  obtain ⟨out, hout, rfl⟩ := h
  obtain ⟨h1, h2⟩ := reallocateWith_keepsTables hc (Or.inl rfl) hout
  exact ⟨h1, h2 rfl⟩

theorem FREE_ARRAY_keepsTables {collect : VM → Option VM}
    (hc : ∀ v v', collect v = some v' → KeepsTables v v')
    {cfg : Config} {vm vm' : VM} {size oldCount : Nat} {pointer : Option Ptr}
    (h : FREE_ARRAY collect cfg vm size pointer oldCount = some vm') : KeepsTables vm vm' := by
  unfold FREE_ARRAY at h
  rw [Option.map_eq_some'] at h
  obtain ⟨out, hout, rfl⟩ := h
  exact (reallocateWith_keepsTables hc (Or.inl rfl) hout).1

theorem freeChunk_keepsTables {collect : VM → Option VM}
    (hc : ∀ v v', collect v = some v' → KeepsTables v v')
    {cfg : Config} {vm vm' : VM} {chunk : Chunk}
    (h : freeChunk collect cfg vm chunk = some vm') : KeepsTables vm vm' := by
  unfold freeChunk at h
  simp only [Option.bind_eq_bind, Option.bind_eq_some] at h
  obtain ⟨vm1, h1, vm2, h2, h3⟩ := h
  exact keepsTables_trans (keepsTables_trans (FREE_ARRAY_keepsTables hc h1)
    (FREE_ARRAY_keepsTables hc h2)) (FREE_ARRAY_keepsTables hc h3)

/-- The release of an object whose table has been reset first: the object is
gone afterwards, so the reset shows in no object that is still there. -/
theorem FREE_reset_keepsTables {collect : VM → Option VM}
    (hc : ∀ v v', collect v = some v' → KeepsTables v v')
    {cfg : Config} {vm vm' : VM} {size : Nat} {obj : Ptr} {o2 : Obj}
    (h : FREE collect cfg { vm with heap := vm.heap.set obj (some o2) } size (some obj)
      = some vm') : KeepsTables vm vm' := by
  obtain ⟨⟨hg, hge, hse, hs, hh⟩, hgone⟩ := FREE_keepsTables hc h
  refine ⟨hg, hge, hse, hs, ?_⟩
  intro q o' ho'
  have hq : q ≠ obj := by
    intro hq
    rw [hq, hgone obj rfl] at ho'
    cases ho'
  obtain ⟨o, ho, hb⟩ := hh q o' ho'
  simp only [Heap.set, if_neg hq] at ho
  exact ⟨o, ho, hb⟩

theorem freeObjectWith_keepsTables {collect : VM → Option VM}
    (hc : ∀ v v', collect v = some v' → KeepsTables v v')
    {cfg : Config} {vm vm' : VM} {obj : Ptr}
    (h : freeObjectWith collect cfg vm obj = some vm') : KeepsTables vm vm' := by
  unfold freeObjectWith at h
  split at h
  · cases h
  · next o _ =>
    have h0 : KeepsTables vm { vm with log := vm.log ++ [Event.freeObject obj] } :=
      keepsTables_of_same rfl rfl rfl rfl (fun q o' ho' => ⟨o', ho', rfl⟩)
    refine keepsTables_trans h0 ?_
    simp only at h
    split at h
    · -- string
      split at h
      · cases h
      · next vm1 h1 =>
        exact keepsTables_trans (FREE_ARRAY_keepsTables hc h1) (FREE_keepsTables hc h).1
    · -- function
      split at h
      · cases h
      · next vm1 h1 =>
        exact keepsTables_trans (freeChunk_keepsTables hc h1) (FREE_keepsTables hc h).1
    · exact (FREE_keepsTables hc h).1
    · -- closure
      split at h
      · cases h
      · next vm1 h1 =>
        exact keepsTables_trans (FREE_ARRAY_keepsTables hc h1) (FREE_keepsTables hc h).1
    · exact (FREE_keepsTables hc h).1
    · -- class
      split at h
      · cases h
      · next vm1 h1 =>
        refine keepsTables_trans (FREE_ARRAY_keepsTables hc h1) ?_
        split at h
        · cases h
        · split at h
          · exact FREE_reset_keepsTables hc h
          · cases h
    · -- instance
      split at h
      · cases h
      · next vm1 h1 =>
        refine keepsTables_trans (FREE_ARRAY_keepsTables hc h1) ?_
        split at h
        · cases h
        · split at h
          · exact FREE_reset_keepsTables hc h
          · cases h
    · exact (FREE_keepsTables hc h).1

/-- A store into the header of an object keeps the tables. -/
theorem keepsTables_set_header (vm : VM) (p : Ptr) (o o1 : Obj) (ho : vm.heap p = some o)
    (hb : o1.body = o.body) :
    KeepsTables vm { vm with heap := vm.heap.set p (some o1) } := by
  refine keepsTables_of_same rfl rfl rfl rfl ?_
  intro q o' ho'
  simp only [Heap.set] at ho'
  split at ho'
  · next hq =>
    cases ho'
    exact ⟨o, hq ▸ ho, hb⟩
  · exact ⟨o', ho', rfl⟩

theorem sweepLoop_keepsTables {collect : VM → Option VM}
    (hc : ∀ v v', collect v = some v' → KeepsTables v v') (cfg : Config) :
    ∀ (fuel : Nat) (vm vm' : VM) (prev object : Option Ptr),
      sweepLoop collect cfg fuel vm prev object = some vm' → KeepsTables vm vm' := by
  intro fuel
  induction fuel with
  | zero =>
    intro vm vm' prev object h
    cases object with
    | none => simp only [sweepLoop] at h; cases h; exact keepsTables_refl _
    | some p => simp [sweepLoop] at h
  | succ n ih =>
    intro vm vm' prev object h
    cases object with
    | none => simp only [sweepLoop] at h; cases h; exact keepsTables_refl _
    | some p =>
      simp only [sweepLoop] at h
      split at h
      · cases h
      · next o ho =>
        split at h
        · have hr := ih _ _ _ _ h
          exact keepsTables_trans
            (keepsTables_set_header vm p o { o with isMarked := false } ho rfl) hr
        · split at h
          · cases h
          · next vm1 h1 =>
            have hs1 : KeepsTables vm vm1 := by
              split at h1
              · split at h1
                · cases h1
                · next oq hoq =>
                  cases h1
                  exact keepsTables_set_header vm _ oq _ hoq rfl
              · cases h1
                exact keepsTables_of_same rfl rfl rfl rfl (fun q o' ho' => ⟨o', ho', rfl⟩)
            split at h
            · cases h
            · next vm2 h2 =>
              exact keepsTables_trans (keepsTables_trans hs1 (freeObjectWith_keepsTables hc h2))
                (ih _ _ _ _ h)

theorem forLoop_sameObjects (m0 : Marking) (body : Nat → Marking → Option Marking)
    (hbody : ∀ i m m', body i m = some m' → SameObjects m.heap m'.heap) :
    ∀ (n : Nat) (m m' : Marking), forLoop body n m = some m' →
      SameObjects m0.heap m.heap → SameObjects m0.heap m'.heap :=
  forLoop_preserves body (fun m => SameObjects m0.heap m.heap)
    (fun i m m' h hm => sameObjects_trans hm (hbody i m m' h))

theorem markValue_sameObjects {m m1 : Marking} {v : Value} (h : markValue m v = some m1) :
    SameObjects m.heap m1.heap := by
  rw [markValue_eq_markObject] at h
  exact markObject_sameObjects h

theorem markTable_sameObjects {m m1 : Marking} {t : Table} (h : markTable m t = some m1) :
    SameObjects m.heap m1.heap := by
  unfold markTable at h
  refine forLoop_sameObjects m _ ?_ _ _ _ h (sameObjects_refl _)
  intro i ma mb hb
  split at hb
  · cases hb
  · split at hb
    · cases hb
    · next m2 h2 =>
      exact sameObjects_trans (markObject_sameObjects h2) (markValue_sameObjects hb)

theorem markArray_sameObjects {m m1 : Marking} {arr : ValueArray}
    (h : markArray m arr = some m1) : SameObjects m.heap m1.heap := by
  unfold markArray at h
  refine forLoop_sameObjects m _ ?_ _ _ _ h (sameObjects_refl _)
  intro i ma mb hb
  split at hb
  · cases hb
  · exact markValue_sameObjects hb

theorem forLoop_markObject_sameObjects {m m1 : Marking} {l : List (Option Ptr)} {n : Nat}
    (h : forLoop (fun i (m2 : Marking) =>
      match l[i]? with
      | none => none
      | some u => markObject m2 u) n m = some m1) : SameObjects m.heap m1.heap := by
  refine forLoop_sameObjects m _ ?_ _ _ _ h (sameObjects_refl _)
  intro i ma mb hb
  split at hb
  · cases hb
  · exact markObject_sameObjects hb

theorem blackenObject_sameObjects {m m1 : Marking} {obj : Ptr}
    (h : blackenObject m obj = some m1) : SameObjects m.heap m1.heap := by
  unfold blackenObject at h
  split at h
  · cases h
  · split at h
    · split at h
      · cases h
      · next m2 h2 =>
        exact sameObjects_trans (markValue_sameObjects h2) (markObject_sameObjects h)
    · split at h
      · cases h
      · next m2 h2 =>
        exact sameObjects_trans (markObject_sameObjects h2) (markTable_sameObjects h)
    · split at h
      · cases h
      · next m2 h2 =>
        exact sameObjects_trans (markObject_sameObjects h2) (markTable_sameObjects h)
    · split at h
      · cases h
      · next m2 h2 =>
        exact sameObjects_trans (markObject_sameObjects h2) (forLoop_markObject_sameObjects h)
    · split at h
      · cases h
      · next m2 h2 =>
        exact sameObjects_trans (markObject_sameObjects h2) (markArray_sameObjects h)
    · exact markValue_sameObjects h
    · cases h; exact sameObjects_refl _
    · cases h; exact sameObjects_refl _

theorem traceReferences_sameObjects : ∀ (fuel : Nat) (m m' : Marking),
    traceReferences fuel m = some m' → SameObjects m.heap m'.heap := by
  intro fuel
  induction fuel with
  | zero =>
    intro m m' h
    unfold traceReferences at h
    split at h
    · cases h; exact sameObjects_refl _
    · cases h
  | succ n ih =>
    intro m m' h
    cases hg : m.grayStack with
    | nil =>
      rw [(traceReferences_nil hg _).1] at h
      cases h
      exact sameObjects_refl _
    | cons obj rest =>
      cases hb : blackenObject { m with grayStack := rest } obj with
      | none =>
        rw [traceReferences] at h
        simp only [hg, hb] at h
        cases h
      | some m1 =>
        rw [(traceReferences_cons hg n hb).1] at h
        have h1 : SameObjects ({ m with grayStack := rest } : Marking).heap m1.heap :=
          blackenObject_sameObjects hb
        exact sameObjects_trans h1 (ih _ _ h)

theorem markOpenUpvalues_sameObjects : ∀ (fuel : Nat) (m m' : Marking) (head : Option Ptr),
    markOpenUpvalues fuel m head = some m' → SameObjects m.heap m'.heap := by
  intro fuel
  induction fuel with
  | zero =>
    intro m m' head h
    cases head with
    | none => simp only [markOpenUpvalues] at h; cases h; exact sameObjects_refl _
    | some p => simp [markOpenUpvalues] at h
  | succ n ih =>
    intro m m' head h
    cases head with
    | none => simp only [markOpenUpvalues] at h; cases h; exact sameObjects_refl _
    | some p =>
      simp only [markOpenUpvalues] at h
      split at h
      · cases h
      · split at h
        · split at h
          · cases h
          · next m1 h1 =>
            exact sameObjects_trans (markObject_sameObjects h1) (ih _ _ _ h)
        · cases h

theorem markRoots_sameObjects {fuel : Nat} {vm : VM} {m m' : Marking}
    (h : markRoots fuel vm m = some m') : SameObjects m.heap m'.heap := by
  unfold markRoots at h
  simp only [Option.bind_eq_bind, Option.bind_eq_some] at h
  obtain ⟨m1, h1, m2, h2, m3, h3, m4, h4, m5, h5, h6⟩ := h
  have s1 : SameObjects m.heap m1.heap := by
    refine forLoop_sameObjects m _ ?_ _ _ _ h1 (sameObjects_refl _)
    intro i ma mb hb
    split at hb
    · cases hb
    · exact markValue_sameObjects hb
  have s2 : SameObjects m1.heap m2.heap := forLoop_markObject_sameObjects h2
  have s3 := markOpenUpvalues_sameObjects _ _ _ _ h3
  have s4 := markTable_sameObjects h4
  have s5 : SameObjects m4.heap m5.heap := by
    unfold markCompilerRoots at h5
    exact forLoop_markObject_sameObjects h5
  exact sameObjects_trans s1 (sameObjects_trans s2 (sameObjects_trans s3
    (sameObjects_trans s4 (sameObjects_trans s5 (markObject_sameObjects h6)))))

/-- The collector keeps the tables, and so do the collections started during
`sweep`: the globals and the fields of the objects that stay are not written,
and the intern table only by `tableRemoveWhite`. -/
theorem collectGarbage_keepsTables (cfg : Config) :
    ∀ (fuel : Nat) (v v' : VM), collectGarbage cfg fuel v = some v' → KeepsTables v v' := by
  intro fuel
  induction fuel with
  | zero => intro v v' h; cases h
  | succ n ih =>
    intro v v' h
    unfold collectGarbage at h
    split at h
    · cases h
    · next m1 h1 =>
      split at h
      · cases h
      · next m2 h2 =>
        split at h
        · cases h
        · next strings h3 =>
          split at h
          · cases h
          · next vm4 h4 =>
            cases h
            have hso : SameObjects v.heap m2.heap :=
              sameObjects_trans (markRoots_sameObjects h1) (traceReferences_sameObjects _ _ _ h2)
            have h0 : KeepsTables v
                { v with
                  heap := m2.heap, grayCapacity := m2.grayCapacity, grayStack := m2.grayStack,
                  strings := strings, log := v.log ++ [Event.collectGarbage] } := by
              refine ⟨rfl, rfl, rfl, tableRemoveWhite_thinned h3, ?_⟩
              intro q o' ho'
              obtain ⟨o, ho, hb⟩ := sameObjects_body_rev hso ho'
              exact ⟨o, ho, hb⟩
            have hs := sweepLoop_keepsTables ih cfg _ _ _ _ _ h4
            exact keepsTables_trans (keepsTables_trans h0 hs)
              (keepsTables_of_same rfl rfl rfl rfl (fun q o' ho' => ⟨o', ho', rfl⟩))

theorem readTable_congr {vm vm' : VM} (hh : vm'.heap = vm.heap) (hg : vm'.globals = vm.globals)
    (hge : vm'.globalsEntries = vm.globalsEntries) (hs : vm'.strings = vm.strings)
    (hse : vm'.stringsEntries = vm.stringsEntries) (table : TableRef) :
    readTable vm' table = readTable vm table := by
  cases table <;> simp only [readTable, hh, hg, hge, hs, hse]

/-- A store through a `Table*` that can be read: the table read afterwards is
the one stored, and nothing the allocator or the string hashes depend on has
changed. -/
theorem writeTable_spec {vm : VM} {table : TableRef} {t0 : Table} {e0 : Option Ptr}
    (hr : readTable vm table = some (t0, e0)) (t : Table) (e : Option Ptr) :
    ∃ vm', writeTable vm t e table = some vm' ∧ readTable vm' table = some (t, e)
      ∧ stringView vm'.heap = stringView vm.heap ∧ vm'.blocks = vm.blocks
      ∧ vm'.bytesAllocated = vm.bytesAllocated ∧ vm'.nextGC = vm.nextGC
      ∧ ∀ q, vm.heap q = none → vm'.heap q = none := by
  cases table with
  | globals => exact ⟨_, rfl, rfl, rfl, rfl, rfl, rfl, fun _ h => h⟩
  | strings => exact ⟨_, rfl, rfl, rfl, rfl, rfl, rfl, fun _ h => h⟩
  | methods p =>
    simp only [readTable] at hr
    cases ho : vm.heap p with
    | none => rw [ho] at hr; cases hr
    | some o =>
      rw [ho] at hr
      simp only at hr
      cases hb : o.body with
      | klass name methods entries =>
        refine ⟨{ vm with heap := vm.heap.set p (some { o with body := ObjBody.klass name t e }) },
          ?_, ?_, ?_, rfl, rfl, rfl, ?_⟩
        · simp only [writeTable, ho, hb]
        · simp [readTable, Heap.set]
        · funext q
          simp only [stringView, Heap.set]
          by_cases hq : q = p
          · subst hq
            simp [ho, hb]
          · simp [hq]
        · intro q hq
          simp only [Heap.set]
          have : q ≠ p := fun h => by rw [h, ho] at hq; cases hq
          rw [if_neg this]
          exact hq
      | boundMethod _ _ => rw [hb] at hr; cases hr
      | closure _ _ _ _ => rw [hb] at hr; cases hr
      | function _ _ => rw [hb] at hr; cases hr
      | «instance» _ _ _ => rw [hb] at hr; cases hr
      | native => rw [hb] at hr; cases hr
      | string _ _ _ _ => rw [hb] at hr; cases hr
      | upvalue _ _ => rw [hb] at hr; cases hr
  | fields p =>
    simp only [readTable] at hr
    cases ho : vm.heap p with
    | none => rw [ho] at hr; cases hr
    | some o =>
      rw [ho] at hr
      simp only at hr
      cases hb : o.body with
      | «instance» klass fields entries =>
        refine ⟨{ vm with
          heap := vm.heap.set p (some { o with body := ObjBody.instance klass t e }) },
          ?_, ?_, ?_, rfl, rfl, rfl, ?_⟩
        · simp only [writeTable, ho, hb]
        · simp [readTable, Heap.set]
        · funext q
          simp only [stringView, Heap.set]
          by_cases hq : q = p
          · subst hq
            simp [ho, hb]
          · simp [hq]
        · intro q hq
          simp only [Heap.set]
          have : q ≠ p := fun h => by rw [h, ho] at hq; cases hq
          rw [if_neg this]
          exact hq
      | boundMethod _ _ => rw [hb] at hr; cases hr
      | closure _ _ _ _ => rw [hb] at hr; cases hr
      | function _ _ => rw [hb] at hr; cases hr
      | klass _ _ _ => rw [hb] at hr; cases hr
      | native => rw [hb] at hr; cases hr
      | string _ _ _ _ => rw [hb] at hr; cases hr
      | upvalue _ _ => rw [hb] at hr; cases hr


/-- The release of an array that starts no collection: only the allocator's
counters and blocks change. -/
theorem FREE_ARRAY_quiet (collect : VM → Option VM) (cfg : Config) (vm : VM) (size : Nat)
    (pointer : Option Ptr) (oldCount : Nat)
    (hq : (reallocateEnter vm pointer (size * oldCount % 2 ^ 64) 0).bytesAllocated ≤ vm.nextGC)
    (hb : (blockSize vm.blocks pointer).isSome = true)
    (hn : ∀ q, pointer = some q → vm.heap q = none) :
    ∃ vm', FREE_ARRAY collect cfg vm size pointer oldCount = some vm' ∧ vm'.heap = vm.heap
      ∧ vm'.globals = vm.globals ∧ vm'.globalsEntries = vm.globalsEntries
      ∧ vm'.strings = vm.strings ∧ vm'.stringsEntries = vm.stringsEntries := by
  have hq' : ¬ (reallocateEnter vm pointer (size * oldCount % 2 ^ 64) 0).bytesAllocated
      > (reallocateEnter vm pointer (size * oldCount % 2 ^ 64) 0).nextGC := by
    show ¬ _ > vm.nextGC
    omega
  unfold FREE_ARRAY reallocateWith
  rw [if_neg (by omega)]
  simp only
  rw [if_neg hq']
  simp only
  unfold reallocateFinish
  rw [if_pos rfl]
  cases pointer with
  | none => exact ⟨_, rfl, rfl, rfl, rfl, rfl, rfl⟩
  | some p =>
    obtain ⟨s, hs⟩ := Option.isSome_iff_exists.1 hb
    have hs' : blockSize (reallocateEnter vm (some p) (size * oldCount % 2 ^ 64) 0).blocks
        (some p) = some s := hs
    simp only [hs']
    refine ⟨_, rfl, ?_, rfl, rfl, rfl, rfl⟩
    funext q
    simp only [Option.map, Heap.set]
    split
    · next hqp => rw [hqp]; exact (hn p rfl).symm
    · rfl


theorem ALLOCATE_keepsTables {cfg : Config} {fuel : Nat} {vm vm1 : VM} {size count : Nat}
    {result : Ptr} {entries : Option Ptr}
    (h : ALLOCATE (collectGarbage cfg fuel) cfg vm size count result = some (vm1, entries)) :
    KeepsTables vm vm1 :=
  (reallocateWith_keepsTables (collectGarbage_keepsTables cfg fuel) (Or.inr rfl) h).1

/-- The table behind a `Table*` after code that keeps the tables: it was
there before, at the same address, with the same slots up to weak passes, and
unchanged unless it is the intern table. -/
theorem readTable_of_keepsTables {vm vm1 : VM} (hk : KeepsTables vm vm1) {table : TableRef}
    {t : Table} {e : Option Ptr} (hr : readTable vm1 table = some (t, e)) :
    ∃ t0, readTable vm table = some (t0, e) ∧ Thinned t0 t
      ∧ (table ≠ TableRef.strings → t0 = t) := by
  obtain ⟨hg, hge, hse, hs, hh⟩ := hk
  cases table with
  | globals =>
    simp only [readTable, Option.some.injEq, Prod.mk.injEq] at hr
    refine ⟨t, ?_, thinned_refl _, fun _ => rfl⟩
    simp only [readTable, ← hg, ← hge, hr.1, hr.2]
  | strings =>
    simp only [readTable, Option.some.injEq, Prod.mk.injEq] at hr
    refine ⟨vm.strings, ?_, hr.1 ▸ hs, fun h => absurd rfl h⟩
    simp only [readTable, ← hse, hr.2]
  | methods p =>
    simp only [readTable] at hr
    cases ho1 : vm1.heap p with
    | none => rw [ho1] at hr; cases hr
    | some o1 =>
      rw [ho1] at hr
      obtain ⟨o, ho, hb⟩ := hh p o1 ho1
      simp only [hb] at hr
      refine ⟨t, ?_, thinned_refl _, fun _ => rfl⟩
      simp only [readTable, ho]
      exact hr
  | fields p =>
    simp only [readTable] at hr
    cases ho1 : vm1.heap p with
    | none => rw [ho1] at hr; cases hr
    | some o1 =>
      rw [ho1] at hr
      obtain ⟨o, ho, hb⟩ := hh p o1 ho1
      simp only [hb] at hr
      refine ⟨t, ?_, thinned_refl _, fun _ => rfl⟩
      simp only [readTable, ho]
      exact hr

theorem reallocateEnter_bytes_congr {vm vm2 : VM} (h : vm2.bytesAllocated = vm.bytesAllocated)
    (pointer : Option Ptr) (oldSize newSize : Nat) :
    (reallocateEnter vm2 pointer oldSize newSize).bytesAllocated
      = (reallocateEnter vm pointer oldSize newSize).bytesAllocated := by
  simp only [reallocateEnter, h]

theorem adjustCapacityLoops_capacity {mem : StringMem} {t t1 : Table} {capacity : Nat}
    (h : adjustCapacityLoops mem t capacity = some t1) : t1.capacity = capacity := by
  unfold adjustCapacityLoops at h
  split at h
  · cases h
  · cases h; rfl

/-- The function `adjustCapacity` around its loops: when the allocation of the
new array returns, the loops return on the table as it is then, and the old
array is released without a collection, `adjustCapacity` returns with the
result of the loops, at the address of the new array, behind the `Table*`. -/
theorem adjustCapacity_of_loops (cfg : Config) (fuel : Nat) (vm vm1 : VM) (table : TableRef)
    (capacity : Nat) (result : Ptr) (entries oldEntries : Option Ptr) (t t1 : Table)
    (halloc : ALLOCATE (collectGarbage cfg fuel) cfg vm cfg.sizeofEntry capacity result
      = some (vm1, entries))
    (hread : readTable vm1 table = some (t, oldEntries))
    (hloops : adjustCapacityLoops (stringView vm1.heap) t capacity = some t1)
    (hold : (blockSize vm1.blocks oldEntries).isSome = true)
    (harr : ∀ q, oldEntries = some q → vm1.heap q = none)
    (hquiet : (reallocateEnter vm1 oldEntries (cfg.sizeofEntry * t.capacity % 2 ^ 64)
      0).bytesAllocated ≤ vm1.nextGC) :
    ∃ vm', adjustCapacity cfg fuel vm table capacity result = some vm'
      ∧ readTable vm' table = some (t1, entries)
      ∧ stringView vm'.heap = stringView vm1.heap := by
  have hcap := adjustCapacityLoops_capacity hloops
  obtain ⟨vm2, hw2, hr2, hsv2, hbl2, hby2, hng2, hnone2⟩ :=
    writeTable_spec hread { t with count := t1.count } oldEntries
  obtain ⟨vm3, hfree, hh3, hg3, hge3, hs3, hse3⟩ :=
    FREE_ARRAY_quiet (collectGarbage cfg fuel) cfg vm2 cfg.sizeofEntry oldEntries t.capacity
      (by rw [reallocateEnter_bytes_congr hby2, hng2]; exact hquiet)
      (by rw [hbl2]; exact hold)
      (fun q hq => hnone2 q (harr q hq))
  have hr3 : readTable vm3 table = some ({ t with count := t1.count }, oldEntries) := by
    rw [readTable_congr hh3 hg3 hge3 hs3 hse3 table, hr2]
  obtain ⟨vm', hw', hr', hsv', _, _, _, _⟩ :=
    writeTable_spec hr3 { count := t1.count, capacity := capacity, entries := t1.entries }
      entries
  have ht1 : ({ count := t1.count, capacity := capacity, entries := t1.entries } : Table)
      = t1 := by
    cases t1
    simp only at hcap
    subst hcap
    rfl
  rw [ht1] at hw' hr'
  refine ⟨vm', ?_, hr', by rw [hsv', hh3, hsv2]⟩
  unfold adjustCapacity
  rw [halloc]
  simp only
  rw [hread]
  simp only
  rw [hloops]
  simp only
  rw [hw2]
  simp only
  rw [hfree]
  simp only
  rw [hr3]
  simp only
  rw [ht1]
  exact hw'

/-- How `tablePut` on a table value stands for the C function when the table
does not grow: no allocation is made, and the table behind the `Table*` becomes
what `tablePut` returns for the table that was there. -/
theorem tablePutAt_no_growth (cfg : Config) (fuel : Nat) (vm : VM) (table : TableRef)
    (key : Ptr) (value : Value) (result : Ptr) (t t' : Table) (e : Option Ptr) (b : Bool)
    (hread : readTable vm table = some (t, e))
    (hload : ¬ 4 * (t.count + 1) > 3 * t.capacity)
    (hput : tablePut (stringView vm.heap) t key value = some (t', b)) :
    ∃ vm', tablePutAt cfg fuel vm table key value result = some (vm', b)
      ∧ readTable vm' table = some (t', e)
      ∧ stringView vm'.heap = stringView vm.heap := by
  unfold tablePut at hput
  rw [if_neg hload] at hput
  simp only at hput
  unfold tablePutAt
  rw [hread]
  simp only
  rw [if_neg hload]
  simp only
  rw [hread]
  simp only
  cases hf : findEntry (stringView vm.heap) t.entries t.capacity key with
  | none => rw [hf] at hput; cases hput
  | some i =>
    rw [hf] at hput
    simp only at hput ⊢
    cases hi : t.entries[i]? with
    | none => rw [hi] at hput; cases hput
    | some entry =>
      rw [hi] at hput
      simp only at hput ⊢
      simp only [Option.some.injEq, Prod.mk.injEq] at hput
      obtain ⟨ht', hb⟩ := hput
      obtain ⟨vm', hw, hr, hsv, _, _, _, _⟩ := writeTable_spec hread t' e
      rw [ht', hw]
      exact ⟨vm', by rw [hb], hr, hsv⟩

/-- How `tablePut` on a table value stands for the C function when the table
grows: `adjustCapacity` allocates the new array, which may start a collection,
and the table behind the `Table*` becomes what `tablePut` returns for the table
as that allocation left it, which is the table as before up to the weak pass
of the collector (and the table as before when it is not the intern table). -/
theorem tablePutAt_growth (cfg : Config) (fuel : Nat) (vm vm1 : VM) (table : TableRef)
    (key : Ptr) (value : Value) (result : Ptr) (entries e e0 : Option Ptr) (t0 t t' : Table)
    (b : Bool)
    (hread0 : readTable vm table = some (t0, e0))
    (hload : 4 * (t0.count + 1) > 3 * t0.capacity)
    (halloc : ALLOCATE (collectGarbage cfg fuel) cfg vm cfg.sizeofEntry
      (GROW_CAPACITY t0.capacity) result = some (vm1, entries))
    (hread : readTable vm1 table = some (t, e))
    (hold : (blockSize vm1.blocks e).isSome = true)
    (harr : ∀ q, e = some q → vm1.heap q = none)
    (hquiet : (reallocateEnter vm1 e (cfg.sizeofEntry * t.capacity % 2 ^ 64)
      0).bytesAllocated ≤ vm1.nextGC)
    (hput : tablePut (stringView vm1.heap) t key value = some (t', b)) :
    ∃ vm', tablePutAt cfg fuel vm table key value result = some (vm', b)
      ∧ readTable vm' table = some (t', entries)
      ∧ stringView vm'.heap = stringView vm1.heap
      ∧ Thinned t0 t ∧ (table ≠ TableRef.strings → t0 = t) := by
  have hk := ALLOCATE_keepsTables halloc
  obtain ⟨t0', hr0, hthin, hsame⟩ := readTable_of_keepsTables hk hread
  rw [hread0] at hr0
  simp only [Option.some.injEq, Prod.mk.injEq] at hr0
  obtain ⟨ht0, he0⟩ := hr0
  subst ht0
  obtain ⟨hc, hn, _, _⟩ := hthin
  have hload' : 4 * (t.count + 1) > 3 * t.capacity := by rw [hc, hn]; exact hload
  unfold tablePut at hput
  rw [if_pos hload', hc] at hput
  cases hl : adjustCapacityLoops (stringView vm1.heap) t (GROW_CAPACITY t0.capacity) with
  | none => rw [hl] at hput; cases hput
  | some t1 =>
    rw [hl] at hput
    simp only at hput
    obtain ⟨vma, hadj, hra, hsva⟩ :=
      adjustCapacity_of_loops cfg fuel vm vm1 table (GROW_CAPACITY t0.capacity) result entries
        e t t1 halloc hread hl hold harr hquiet
    unfold tablePutAt
    rw [hread0]
    simp only
    rw [if_pos hload, hadj]
    simp only
    rw [hra]
    simp only
    rw [hsva]
    cases hf : findEntry (stringView vm1.heap) t1.entries t1.capacity key with
    | none => rw [hf] at hput; cases hput
    | some i =>
      rw [hf] at hput
      simp only at hput ⊢
      cases hi : t1.entries[i]? with
      | none => rw [hi] at hput; cases hput
      | some entry =>
        rw [hi] at hput
        simp only at hput ⊢
        simp only [Option.some.injEq, Prod.mk.injEq] at hput
        obtain ⟨ht', hb⟩ := hput
        obtain ⟨vm', hw, hr, hsv, _, _, _, _⟩ := writeTable_spec hra t' entries
        rw [ht', hw]
        exact ⟨vm', by rw [hb], hr, by rw [hsv, hsva], ⟨hc, hn, by assumption, by assumption⟩,
          hsame⟩

end Clox
